import Mathlib

/-!
Verification of the loom tree-document model (`src/model.py`,
`src/util/util_tree.py`).

Python nodes are mutable dicts `{id, text, parent_id, children, ...}` shared
between the nested tree (`tree_raw_data["root"]`) and the flat index
(`tree_node_dict`, rebuilt from the root by `flatten_tree` after every edit).
We embed the tree as a nested inductive; the index is the derived pre-order
listing, and each mutating method becomes a function on an explicit state.
Node ids are uuid1 strings in the source; we model the id supply as a
counter (`nextId`) handing out fresh naturals, with freshness of uuids
reflected as the hypothesis that every id in the tree is below the counter.
UI-only metadata (`open`, `visited`, `active_text`, chapters, settings) is
not modelled: no claim observes it.  Python exceptions (KeyError from
`tree_node_dict[...]`, ValueError from `list.index`/`list.remove`,
AssertionError) are modelled as `none`.
-/

/-- A tree node: `id`, `text`, `parent_id`, `children` (`src/util/util_tree.py`
nested dict shape).  `parent_id` is the stored back-reference field; it is
absent (`none`) on the root. -/
inductive PNode where
  | mk (id : Nat) (text : String) (parent_id : Option Nat) (children : List PNode)

/-- The `id` field. -/
def PNode.id : PNode → Nat
  | .mk i _ _ _ => i

/-- The `text` field. -/
def PNode.text : PNode → String
  | .mk _ t _ _ => t

/-- The `parent_id` field (`none` = key absent). -/
def PNode.parent_id : PNode → Option Nat
  | .mk _ _ p _ => p

/-- The `children` field. -/
def PNode.children : PNode → List PNode
  | .mk _ _ _ cs => cs

theorem PNode.id_mk (i t p cs) : (PNode.mk i t p cs).id = i := rfl

theorem PNode.text_mk (i t p cs) : (PNode.mk i t p cs).text = t := rfl

theorem PNode.parent_id_mk (i t p cs) : (PNode.mk i t p cs).parent_id = p := rfl

theorem PNode.children_mk (i t p cs) : (PNode.mk i t p cs).children = cs := rfl

theorem PNode.eta (n : PNode) : PNode.mk n.id n.text n.parent_id n.children = n := by
  cases n; rfl

instance : Inhabited PNode := ⟨.mk 0 "" none []⟩

mutual

/-- Boolean equality on nodes (Python dict value equality restricted to the
modelled fields). -/
def PNode.beq : PNode → PNode → Bool
  | .mk i t p c, .mk i' t' p' c' => i == i' && t == t' && p == p' && PNode.beqL c c'

/-- Boolean equality on child lists. -/
def PNode.beqL : List PNode → List PNode → Bool
  | [], [] => true
  | a :: as, b :: bs => PNode.beq a b && PNode.beqL as bs
  | _, _ => false

end

mutual

theorem PNode.beq_iff : ∀ a b : PNode, PNode.beq a b = true ↔ a = b
  | .mk i t p c, .mk i' t' p' c' => by
    simp only [PNode.beq, Bool.and_eq_true, beq_iff_eq, PNode.mk.injEq]
    rw [PNode.beqL_iff c c']
    tauto

theorem PNode.beqL_iff : ∀ a b : List PNode, PNode.beqL a b = true ↔ a = b
  | [], [] => by simp [PNode.beqL]
  | [], _ :: _ => by simp [PNode.beqL]
  | _ :: _, [] => by simp [PNode.beqL]
  | a :: as, b :: bs => by
    simp only [PNode.beqL, Bool.and_eq_true, List.cons.injEq]
    rw [PNode.beq_iff a b, PNode.beqL_iff as bs]

end

instance : DecidableEq PNode := fun a b => decidable_of_iff _ (PNode.beq_iff a b)

/-- Structural induction over `PNode` with the usual "all children" premise. -/
theorem PNode.ind (motive : PNode → Prop)
    (h : ∀ i t p cs, (∀ c ∈ cs, motive c) → motive (.mk i t p cs)) : ∀ n, motive n
  | .mk i t p cs => h i t p cs (fun c _ => PNode.ind motive h c)

mutual

/-- `flatten_tree` (util_tree.py lines 93-103), restricted to trees whose ids
are already assigned: the returned flat list, a pre-order traversal
`[d, *flat_children]`.  (Id assignment and parent stamping for raw loaded
trees are modelled separately by `flatten_tree` below; on an id-complete
stamped tree the source function only rebuilds this list.) -/
def PNode.flatten : PNode → List PNode
  | .mk i t p cs => .mk i t p cs :: PNode.flattenL cs

/-- Pre-order listing of a list of sibling subtrees. -/
def PNode.flattenL : List PNode → List PNode
  | [] => []
  | c :: cs => c.flatten ++ PNode.flattenL cs

end

theorem PNode.flatten_mk (i t p cs) :
    (PNode.mk i t p cs).flatten = .mk i t p cs :: PNode.flattenL cs := rfl

theorem PNode.flattenL_nil : PNode.flattenL [] = [] := rfl

theorem PNode.flattenL_cons (c cs) :
    PNode.flattenL (c :: cs) = c.flatten ++ PNode.flattenL cs := rfl

theorem PNode.flattenL_append : ∀ as bs : List PNode,
    PNode.flattenL (as ++ bs) = PNode.flattenL as ++ PNode.flattenL bs := by
  intro as bs
  induction as with
  | nil => simp [PNode.flattenL]
  | cons a as ih => simp [PNode.flattenL, ih]

/-- Ids in pre-order: the key set of `tree_node_dict`. -/
def PNode.ids (t : PNode) : List Nat := t.flatten.map PNode.id

/-- Ids of a sibling list in pre-order. -/
def PNode.idsL (cs : List PNode) : List Nat := (PNode.flattenL cs).map PNode.id

theorem PNode.ids_mk (i t p cs) :
    (PNode.mk i t p cs).ids = i :: PNode.idsL cs := rfl

theorem PNode.idsL_nil : PNode.idsL [] = [] := rfl

theorem PNode.idsL_cons (c cs) : PNode.idsL (c :: cs) = c.ids ++ PNode.idsL cs := by
  simp [PNode.idsL, PNode.ids, PNode.flattenL_cons]

theorem PNode.idsL_append (as bs : List PNode) :
    PNode.idsL (as ++ bs) = PNode.idsL as ++ PNode.idsL bs := by
  simp [PNode.idsL, PNode.flattenL_append]

theorem PNode.self_mem_flatten (t : PNode) : t ∈ t.flatten := by
  cases t; simp [PNode.flatten_mk]

theorem PNode.flatten_ne_nil (t : PNode) : t.flatten ≠ [] := by
  cases t; simp [PNode.flatten_mk]

theorem PNode.id_mem_ids (t : PNode) : t.id ∈ t.ids := by
  cases t; simp [PNode.ids_mk, PNode.id_mk]

mutual

/-- `tree_node_dict[i]`: look a node up by id in the tree (pre-order first
match; with unique ids — invariant 3 — this agrees with the Python dict). -/
def PNode.lookup : Nat → PNode → Option PNode
  | i, .mk j t p cs => if j = i then some (.mk j t p cs) else PNode.lookupL i cs

/-- Lookup across a sibling list. -/
def PNode.lookupL : Nat → List PNode → Option PNode
  | _, [] => none
  | i, c :: cs =>
    match c.lookup i with
    | some n => some n
    | none => PNode.lookupL i cs

end

theorem PNode.lookup_mk (i j t p cs) :
    PNode.lookup i (.mk j t p cs)
      = if j = i then some (.mk j t p cs) else PNode.lookupL i cs := rfl

theorem PNode.lookupL_nil (i) : PNode.lookupL i [] = none := rfl

theorem PNode.lookupL_cons (i c cs) :
    PNode.lookupL i (c :: cs)
      = match c.lookup i with
        | some n => some n
        | none => PNode.lookupL i cs := rfl

mutual

/-- Apply `f` to every node with id `i` (the Python edit mutates the unique
dict with that id, found through `tree_node_dict`; with unique ids at most
one node matches). -/
def PNode.modifyAt (i : Nat) (f : PNode → PNode) : PNode → PNode
  | .mk j t p cs =>
    if j = i then f (.mk j t p cs) else .mk j t p (PNode.modifyAtL i f cs)

/-- `modifyAt` across a sibling list. -/
def PNode.modifyAtL (i : Nat) (f : PNode → PNode) : List PNode → List PNode
  | [] => []
  | c :: cs => c.modifyAt i f :: PNode.modifyAtL i f cs

end

theorem PNode.modifyAt_mk (i f j t p cs) :
    PNode.modifyAt i f (.mk j t p cs)
      = if j = i then f (.mk j t p cs) else .mk j t p (PNode.modifyAtL i f cs) := rfl

theorem PNode.modifyAtL_nil (i f) : PNode.modifyAtL i f [] = [] := rfl

theorem PNode.modifyAtL_cons (i f c cs) :
    PNode.modifyAtL i f (c :: cs) = c.modifyAt i f :: PNode.modifyAtL i f cs := rfl

mutual

/-- `flatten_tree`'s parent stamping pass on an id-complete tree: every
child's `parent_id` is set to its parent's `id` (`child["parent_id"] = d["id"]`,
util_tree.py line 100); the argument is the stamp forced on this node
(`none` = keep the stored field, used for the root, which the source never
stamps). -/
def PNode.stampWith : Option Nat → PNode → PNode
  | f, .mk j t p cs =>
    .mk j t (match f with | some q => some q | none => p) (PNode.stampKids j cs)

/-- Stamp a list of children of the node with id `j`. -/
def PNode.stampKids : Nat → List PNode → List PNode
  | _, [] => []
  | j, c :: cs => c.stampWith (some j) :: PNode.stampKids j cs

end

/-- The effect of `tree_updated`'s index rebuild on the nested tree: re-stamp
every child's `parent_id` (ids are already assigned on a live tree). -/
def PNode.restamp (t : PNode) : PNode := t.stampWith none

theorem PNode.stampWith_mk (f j t p cs) :
    PNode.stampWith f (.mk j t p cs)
      = .mk j t (match f with | some q => some q | none => p) (PNode.stampKids j cs) := rfl

theorem PNode.stampKids_nil (j) : PNode.stampKids j [] = [] := rfl

theorem PNode.stampKids_cons (j c cs) :
    PNode.stampKids j (c :: cs) = c.stampWith (some j) :: PNode.stampKids j cs := rfl

/-- Replace the `text` field. -/
def PNode.setText (s : String) : PNode → PNode
  | .mk i _ p cs => .mk i s p cs

/-- Replace the `parent_id` field. -/
def PNode.setParent (p : Option Nat) : PNode → PNode
  | .mk i t _ cs => .mk i t p cs

/-- Replace the `children` field. -/
def PNode.setKids (cs : List PNode) : PNode → PNode
  | .mk i t p _ => .mk i t p cs

theorem PNode.setText_def (s n) : PNode.setText s n = .mk n.id s n.parent_id n.children := by
  cases n; rfl

theorem PNode.setParent_def (p n) : PNode.setParent p n = .mk n.id n.text p n.children := by
  cases n; rfl

theorem PNode.setKids_def (cs n) : PNode.setKids cs n = .mk n.id n.text n.parent_id cs := by
  cases n; rfl

mutual

theorem PNode.mem_flattenL : ∀ cs : List PNode, ∀ n : PNode,
    n ∈ PNode.flattenL cs ↔ ∃ c ∈ cs, n ∈ c.flatten
  | [], n => by simp [PNode.flattenL_nil]
  | c :: cs, n => by
    simp only [PNode.flattenL_cons, List.mem_append, PNode.mem_flattenL cs n,
      List.mem_cons]
    constructor
    · rintro (h | ⟨d, hd, hn⟩)
      · exact ⟨c, Or.inl rfl, h⟩
      · exact ⟨d, Or.inr hd, hn⟩
    · rintro ⟨d, (rfl | hd), hn⟩
      · exact Or.inl hn
      · exact Or.inr ⟨d, hd, hn⟩

end

theorem PNode.mem_flattenL_of_mem {cs : List PNode} {c : PNode} (h : c ∈ cs) :
    c ∈ PNode.flattenL cs :=
  (PNode.mem_flattenL cs c).2 ⟨c, h, c.self_mem_flatten⟩

mutual

theorem PNode.mem_flatten_cases : ∀ t : PNode, ∀ n : PNode, n ∈ t.flatten →
    n = t ∨ ∃ q ∈ t.flatten, n ∈ q.children
  | .mk j tx p cs, n => by
    rw [PNode.flatten_mk]
    intro h
    rcases List.mem_cons.1 h with h | h
    · exact Or.inl h
    · rcases PNode.mem_flattenL_cases cs n h with h | ⟨q, hq, hn⟩
      · exact Or.inr ⟨.mk j tx p cs, List.mem_cons_self _ _, by simpa [PNode.children_mk] using h⟩
      · exact Or.inr ⟨q, List.mem_cons_of_mem _ hq, hn⟩

theorem PNode.mem_flattenL_cases : ∀ cs : List PNode, ∀ n : PNode, n ∈ PNode.flattenL cs →
    n ∈ cs ∨ ∃ q ∈ PNode.flattenL cs, n ∈ q.children
  | [], n => by simp [PNode.flattenL_nil]
  | c :: cs, n => by
    rw [PNode.flattenL_cons]
    intro h
    rcases List.mem_append.1 h with h | h
    · rcases PNode.mem_flatten_cases c n h with rfl | ⟨q, hq, hn⟩
      · exact Or.inl (List.mem_cons_self _ _)
      · exact Or.inr ⟨q, List.mem_append.2 (Or.inl hq), hn⟩
    · rcases PNode.mem_flattenL_cases cs n h with h | ⟨q, hq, hn⟩
      · exact Or.inl (List.mem_cons_of_mem _ h)
      · exact Or.inr ⟨q, List.mem_append.2 (Or.inr hq), hn⟩

end

mutual

theorem PNode.flatten_sublist_of_mem : ∀ t q : PNode, q ∈ t.flatten →
    q.flatten.Sublist t.flatten
  | .mk j tx p cs, q => by
    rw [PNode.flatten_mk]
    intro h
    rcases List.mem_cons.1 h with rfl | h
    · exact List.Sublist.refl _
    · exact (PNode.flattenL_sublist_of_mem cs q h).trans (List.sublist_cons_self _ _)

theorem PNode.flattenL_sublist_of_mem : ∀ cs : List PNode, ∀ q : PNode,
    q ∈ PNode.flattenL cs → q.flatten.Sublist (PNode.flattenL cs)
  | [], q => by simp [PNode.flattenL_nil]
  | c :: cs, q => by
    rw [PNode.flattenL_cons]
    intro h
    rcases List.mem_append.1 h with h | h
    · exact (PNode.flatten_sublist_of_mem c q h).trans (List.sublist_append_left _ _)
    · exact (PNode.flattenL_sublist_of_mem cs q h).trans (List.sublist_append_right _ _)

end

theorem PNode.ids_sublist_of_mem {t q : PNode} (h : q ∈ t.flatten) :
    q.ids.Sublist t.ids :=
  (PNode.flatten_sublist_of_mem t q h).map PNode.id

theorem PNode.kids_ids_sublist : ∀ cs : List PNode,
    (cs.map PNode.id).Sublist (PNode.idsL cs) := by
  intro cs
  induction cs with
  | nil => simp [PNode.idsL_nil]
  | cons c cs ih =>
    rw [List.map_cons, PNode.idsL_cons]
    cases c with
    | mk j tx p kk =>
      rw [PNode.ids_mk, PNode.id_mk]
      exact List.cons_sublist_cons.2 (ih.trans (List.sublist_append_right _ _))

mutual

theorem PNode.lookup_eq_none_iff : ∀ t : PNode, ∀ i : Nat,
    t.lookup i = none ↔ i ∉ t.ids
  | .mk j tx p cs, i => by
    rw [PNode.lookup_mk, PNode.ids_mk]
    by_cases h : j = i
    · simp [h]
    · simp only [if_neg h, List.mem_cons]
      rw [PNode.lookupL_eq_none_iff cs i]
      constructor
      · rintro hm (rfl | hmem)
        · exact h rfl
        · exact hm hmem
      · intro hm hmem
        exact hm (Or.inr hmem)

theorem PNode.lookupL_eq_none_iff : ∀ cs : List PNode, ∀ i : Nat,
    PNode.lookupL i cs = none ↔ i ∉ PNode.idsL cs
  | [], i => by simp [PNode.lookupL_nil, PNode.idsL_nil]
  | c :: cs, i => by
    rw [PNode.lookupL_cons, PNode.idsL_cons]
    rcases hc : c.lookup i with _ | n
    · rw [PNode.lookupL_eq_none_iff cs i]
      rw [PNode.lookup_eq_none_iff c i] at hc
      simp [hc]
    · simp only
      constructor
      · intro h; cases h
      · intro h
        have hmem : i ∈ c.ids := by
          by_contra hmm
          rw [← PNode.lookup_eq_none_iff c i] at hmm
          rw [hmm] at hc
          cases hc
        exact absurd (List.mem_append.2 (Or.inl hmem)) h

end

theorem PNode.lookup_isSome_of_mem {t : PNode} {i : Nat} (h : i ∈ t.ids) :
    (t.lookup i).isSome := by
  rcases hl : t.lookup i with _ | n
  · exact absurd h ((PNode.lookup_eq_none_iff t i).1 hl)
  · rfl

mutual

theorem PNode.lookup_id : ∀ t : PNode, ∀ i n, t.lookup i = some n → n.id = i
  | .mk j tx p cs, i, n => by
    rw [PNode.lookup_mk]
    by_cases h : j = i
    · rw [if_pos h]
      rintro ⟨rfl⟩
      simpa [PNode.id_mk] using h
    · rw [if_neg h]
      exact PNode.lookupL_id cs i n

theorem PNode.lookupL_id : ∀ cs : List PNode, ∀ i n, PNode.lookupL i cs = some n → n.id = i
  | [], i, n => by simp [PNode.lookupL_nil]
  | c :: cs, i, n => by
    rw [PNode.lookupL_cons]
    rcases hc : c.lookup i with _ | m
    · exact PNode.lookupL_id cs i n
    · rintro ⟨rfl⟩
      exact PNode.lookup_id c i n hc

end

mutual

theorem PNode.lookup_mem : ∀ t : PNode, ∀ i n, t.lookup i = some n → n ∈ t.flatten
  | .mk j tx p cs, i, n => by
    rw [PNode.lookup_mk, PNode.flatten_mk]
    by_cases h : j = i
    · rw [if_pos h]
      rintro ⟨rfl⟩
      exact List.mem_cons_self _ _
    · rw [if_neg h]
      intro hl
      exact List.mem_cons_of_mem _ (PNode.lookupL_mem cs i n hl)

theorem PNode.lookupL_mem : ∀ cs : List PNode, ∀ i n,
    PNode.lookupL i cs = some n → n ∈ PNode.flattenL cs
  | [], i, n => by simp [PNode.lookupL_nil]
  | c :: cs, i, n => by
    rw [PNode.lookupL_cons, PNode.flattenL_cons]
    rcases hc : c.lookup i with _ | m
    · intro hl
      exact List.mem_append.2 (Or.inr (PNode.lookupL_mem cs i n hl))
    · rintro ⟨rfl⟩
      exact List.mem_append.2 (Or.inl (PNode.lookup_mem c i n hc))

end

mutual

theorem PNode.lookup_self_of_nodup : ∀ t : PNode, ∀ q : PNode, t.ids.Nodup →
    q ∈ t.flatten → t.lookup q.id = some q
  | .mk j tx p cs, q => by
    rw [PNode.ids_mk, PNode.flatten_mk, PNode.lookup_mk]
    intro hnd hq
    rcases List.mem_cons.1 hq with rfl | hq
    · rw [if_pos (PNode.id_mk ..).symm]
    · have hj : j ≠ q.id := by
        intro h
        have : q.id ∈ PNode.idsL cs := by
          have : q ∈ PNode.flattenL cs := hq
          exact List.mem_map_of_mem PNode.id this
        rw [← h] at this
        exact (List.nodup_cons.1 hnd).1 this
      rw [if_neg hj]
      exact PNode.lookupL_self_of_nodup cs q (List.nodup_cons.1 hnd).2 hq

theorem PNode.lookupL_self_of_nodup : ∀ cs : List PNode, ∀ q : PNode,
    (PNode.idsL cs).Nodup → q ∈ PNode.flattenL cs → PNode.lookupL q.id cs = some q
  | [], q => by simp [PNode.flattenL_nil]
  | c :: cs, q => by
    rw [PNode.idsL_cons, PNode.flattenL_cons, PNode.lookupL_cons]
    intro hnd hq
    have hnd' := List.nodup_append.1 hnd
    rcases List.mem_append.1 hq with hq | hq
    · rw [PNode.lookup_self_of_nodup c q hnd'.1 hq]
    · have hc : c.lookup q.id = none := by
        rw [PNode.lookup_eq_none_iff]
        intro hm
        have hm' : q.id ∈ PNode.idsL cs := List.mem_map_of_mem PNode.id hq
        exact hnd'.2.2 hm hm'
      rw [hc]
      exact PNode.lookupL_self_of_nodup cs q hnd'.2.1 hq

end

mutual

theorem PNode.modifyAt_of_not_mem : ∀ t : PNode, ∀ i f, i ∉ t.ids → t.modifyAt i f = t
  | .mk j tx p cs, i, f => by
    rw [PNode.ids_mk, PNode.modifyAt_mk]
    intro h
    have hji : ¬ j = i := by
      intro hji
      subst hji
      exact h (List.mem_cons_self _ _)
    rw [if_neg hji,
      PNode.modifyAtL_of_not_mem cs i f (fun hm => h (List.mem_cons_of_mem _ hm))]

theorem PNode.modifyAtL_of_not_mem : ∀ cs : List PNode, ∀ i f,
    i ∉ PNode.idsL cs → PNode.modifyAtL i f cs = cs
  | [], i, f => by simp [PNode.modifyAtL_nil]
  | c :: cs, i, f => by
    rw [PNode.idsL_cons, PNode.modifyAtL_cons]
    intro h
    rw [PNode.modifyAt_of_not_mem c i f (fun hm => h (List.mem_append.2 (Or.inl hm))),
      PNode.modifyAtL_of_not_mem cs i f (fun hm => h (List.mem_append.2 (Or.inr hm)))]

end

/-- The observable record of one node in the flat index: its id, text,
stored parent reference and the ids of its children, without the nested
subtrees.  Two states whose views agree are indistinguishable to the
tree-model API. -/
structure NodeView where
  vid : Nat
  vtext : String
  vparent : Option Nat
  vkids : List Nat
deriving DecidableEq

/-- View of a single node. -/
def PNode.view1 (t : PNode) : NodeView :=
  ⟨t.id, t.text, t.parent_id, t.children.map PNode.id⟩

/-- View of the whole index in pre-order. -/
def PNode.view (t : PNode) : List NodeView := t.flatten.map PNode.view1

/-- View of a sibling list in pre-order. -/
def PNode.viewL (cs : List PNode) : List NodeView :=
  (PNode.flattenL cs).map PNode.view1

theorem PNode.view_mk (i t p cs) :
    (PNode.mk i t p cs).view = PNode.view1 (.mk i t p cs) :: PNode.viewL cs := by
  simp [PNode.view, PNode.viewL, PNode.flatten_mk]

theorem PNode.viewL_nil : PNode.viewL [] = [] := rfl

theorem PNode.viewL_cons (c cs) :
    PNode.viewL (c :: cs) = c.view ++ PNode.viewL cs := by
  simp [PNode.viewL, PNode.view, PNode.flattenL_cons]

theorem PNode.viewL_append (as bs : List PNode) :
    PNode.viewL (as ++ bs) = PNode.viewL as ++ PNode.viewL bs := by
  simp [PNode.viewL, PNode.flattenL_append]

theorem PNode.ids_eq_view_map (t : PNode) : t.ids = t.view.map NodeView.vid := by
  simp [PNode.ids, PNode.view, PNode.view1]

theorem PNode.idsL_eq_viewL_map (cs : List PNode) :
    PNode.idsL cs = (PNode.viewL cs).map NodeView.vid := by
  simp [PNode.idsL, PNode.viewL, PNode.view1]

mutual

/-- Decomposition of an edit at id `i`: on a tree with unique ids, the flat
view splits into a context and the modified node's segment; the edit rewrites
only the segment.  Requires the edit to keep the node's id. -/
theorem PNode.view_modifyAt : ∀ t : PNode, ∀ i f n, t.ids.Nodup →
    t.lookup i = some n → (f n).id = n.id →
    (t.modifyAt i f).id = t.id ∧
    ∃ pre post, t.view = pre ++ n.view ++ post ∧
      (t.modifyAt i f).view = pre ++ (f n).view ++ post
  | .mk j tx p cs, i, f, n => by
    intro hnd hl hid
    rw [PNode.lookup_mk] at hl
    rw [PNode.modifyAt_mk]
    by_cases hji : j = i
    · rw [if_pos hji] at hl ⊢
      injection hl with hl
      subst hl
      exact ⟨hid, [], [], by simp, by simp⟩
    · rw [if_neg hji] at hl ⊢
      rw [PNode.ids_mk] at hnd
      have hnd' := List.nodup_cons.1 hnd
      obtain ⟨hmap, pre, post, h1, h2⟩ :=
        PNode.viewL_modifyAtL cs i f n hnd'.2 hl hid
      refine ⟨by simp [PNode.id_mk], PNode.view1 (.mk j tx p cs) :: pre, post, ?_, ?_⟩
      · rw [PNode.view_mk, h1]; simp
      · rw [PNode.view_mk]
        have hv1 : PNode.view1 (.mk j tx p (PNode.modifyAtL i f cs))
            = PNode.view1 (.mk j tx p cs) := by
          simp [PNode.view1, PNode.children_mk, PNode.id_mk, PNode.text_mk,
            PNode.parent_id_mk, hmap]
        rw [hv1, h2]
        simp

theorem PNode.viewL_modifyAtL : ∀ cs : List PNode, ∀ i f n, (PNode.idsL cs).Nodup →
    PNode.lookupL i cs = some n → (f n).id = n.id →
    (PNode.modifyAtL i f cs).map PNode.id = cs.map PNode.id ∧
    ∃ pre post, PNode.viewL cs = pre ++ n.view ++ post ∧
      PNode.viewL (PNode.modifyAtL i f cs) = pre ++ (f n).view ++ post
  | [], i, f, n => by simp [PNode.lookupL_nil]
  | c :: cs, i, f, n => by
    intro hnd hl hid
    rw [PNode.lookupL_cons] at hl
    rw [PNode.idsL_cons] at hnd
    have hnd' := List.nodup_append.1 hnd
    rw [PNode.modifyAtL_cons]
    rcases hc : c.lookup i with _ | m
    · rw [hc] at hl
      have hcid : i ∉ c.ids := (PNode.lookup_eq_none_iff c i).1 hc
      have hceq : c.modifyAt i f = c := PNode.modifyAt_of_not_mem c i f hcid
      obtain ⟨hmap, pre, post, h1, h2⟩ :=
        PNode.viewL_modifyAtL cs i f n hnd'.2.1 hl hid
      refine ⟨by simp [hceq, hmap], c.view ++ pre, post, ?_, ?_⟩
      · rw [PNode.viewL_cons, h1]; simp
      · rw [PNode.viewL_cons, hceq, h2]; simp
    · rw [hc] at hl
      injection hl with hl
      subst hl
      have hi : i ∈ c.ids := by
        by_contra hmm
        rw [← PNode.lookup_eq_none_iff c i] at hmm
        rw [hmm] at hc
        cases hc
      have hnotcs : i ∉ PNode.idsL cs := fun hm => hnd'.2.2 hi hm
      have hcseq : PNode.modifyAtL i f cs = cs := PNode.modifyAtL_of_not_mem cs i f hnotcs
      obtain ⟨hcid, pre, post, h1, h2⟩ := PNode.view_modifyAt c i f m hnd'.1 hc hid
      refine ⟨by simp [hcseq, hcid], pre, post ++ PNode.viewL cs, ?_, ?_⟩
      · rw [PNode.viewL_cons, h1]; simp
      · rw [PNode.viewL_cons, hcseq, h2]; simp

end

/-- The parent-independent record of a node: id, text and children ids.
Stamping (`tree_updated`'s rebuild) only rewrites `parent_id` fields, so it
preserves this skeleton pointwise. -/
structure SkelView where
  sid : Nat
  stext : String
  skids : List Nat
deriving DecidableEq

/-- Skeleton of one node. -/
def PNode.skel1 (t : PNode) : SkelView := ⟨t.id, t.text, t.children.map PNode.id⟩

/-- Skeleton of the whole index in pre-order. -/
def PNode.skel (t : PNode) : List SkelView := t.flatten.map PNode.skel1

/-- Skeleton of a sibling list in pre-order. -/
def PNode.skelL (cs : List PNode) : List SkelView :=
  (PNode.flattenL cs).map PNode.skel1

theorem PNode.skel_mk (i t p cs) :
    (PNode.mk i t p cs).skel = PNode.skel1 (.mk i t p cs) :: PNode.skelL cs := by
  simp [PNode.skel, PNode.skelL, PNode.flatten_mk]

theorem PNode.skelL_nil : PNode.skelL [] = [] := rfl

theorem PNode.skelL_cons (c cs) : PNode.skelL (c :: cs) = c.skel ++ PNode.skelL cs := by
  simp [PNode.skelL, PNode.skel, PNode.flattenL_cons]

theorem PNode.skelL_append (as bs : List PNode) :
    PNode.skelL (as ++ bs) = PNode.skelL as ++ PNode.skelL bs := by
  simp [PNode.skelL, PNode.flattenL_append]

/-- The skeleton is a projection of the view. -/
theorem PNode.skel_eq_view (t : PNode) :
    t.skel = t.view.map (fun v => ⟨v.vid, v.vtext, v.vkids⟩) := by
  simp [PNode.skel, PNode.view, PNode.skel1, PNode.view1]

theorem PNode.ids_eq_skel_map (t : PNode) : t.ids = t.skel.map SkelView.sid := by
  simp [PNode.ids, PNode.skel, PNode.skel1]

theorem PNode.stampWith_id (f t) : (PNode.stampWith f t).id = t.id := by
  cases t; rfl

theorem PNode.stampWith_text (f t) : (PNode.stampWith f t).text = t.text := by
  cases t; rfl

theorem PNode.stampWith_parent_some (q t) :
    (PNode.stampWith (some q) t).parent_id = some q := by
  cases t; rfl

theorem PNode.restamp_parent_id (t : PNode) : t.restamp.parent_id = t.parent_id := by
  cases t; rfl

theorem PNode.stampKids_map_id : ∀ (j : Nat) (cs : List PNode),
    (PNode.stampKids j cs).map PNode.id = cs.map PNode.id := by
  intro j cs
  induction cs with
  | nil => simp [PNode.stampKids_nil]
  | cons c cs ih => simp [PNode.stampKids_cons, ih, PNode.stampWith_id]

mutual

theorem PNode.skel_stampWith : ∀ t : PNode, ∀ f, (PNode.stampWith f t).skel = t.skel
  | .mk j tx p cs, f => by
    rw [PNode.stampWith_mk, PNode.skel_mk, PNode.skel_mk]
    rw [PNode.skelL_stampKids cs j]
    congr 1
    simp [PNode.skel1, PNode.id_mk, PNode.text_mk, PNode.children_mk,
      PNode.stampKids_map_id]

theorem PNode.skelL_stampKids : ∀ cs : List PNode, ∀ j : Nat,
    PNode.skelL (PNode.stampKids j cs) = PNode.skelL cs
  | [], j => by simp [PNode.stampKids_nil]
  | c :: cs, j => by
    rw [PNode.stampKids_cons, PNode.skelL_cons, PNode.skelL_cons,
      PNode.skel_stampWith c (some j), PNode.skelL_stampKids cs j]

end

theorem PNode.ids_stampWith (f t) : (PNode.stampWith f t).ids = t.ids := by
  rw [PNode.ids_eq_skel_map, PNode.ids_eq_skel_map, PNode.skel_stampWith]

theorem PNode.ids_restamp (t : PNode) : t.restamp.ids = t.ids := PNode.ids_stampWith none t

mutual

/-- `parent_id` consistency check: every child of every node stores its
parent's id.  This is what `flatten_tree`'s stamping establishes. -/
def PNode.stampedOk : PNode → Bool
  | .mk j _ _ cs => PNode.stampedOkL j cs

/-- Check a sibling list against the parent id `j`. -/
def PNode.stampedOkL : Nat → List PNode → Bool
  | _, [] => true
  | j, c :: cs => (c.parent_id == some j) && c.stampedOk && PNode.stampedOkL j cs

end

theorem PNode.stampedOk_mk (j t p cs) :
    (PNode.mk j t p cs).stampedOk = PNode.stampedOkL j cs := rfl

theorem PNode.stampedOkL_nil (j) : PNode.stampedOkL j [] = true := rfl

theorem PNode.stampedOkL_cons (j c cs) :
    PNode.stampedOkL j (c :: cs)
      = ((c.parent_id == some j) && c.stampedOk && PNode.stampedOkL j cs) := rfl

theorem PNode.stampedOkL_append (j : Nat) : ∀ as bs : List PNode,
    PNode.stampedOkL j (as ++ bs) = (PNode.stampedOkL j as && PNode.stampedOkL j bs) := by
  intro as bs
  induction as with
  | nil => simp [PNode.stampedOkL_nil]
  | cons a as ih =>
    simp [PNode.stampedOkL_cons, ih, Bool.and_assoc]

mutual

theorem PNode.stampedOk_stampWith : ∀ t : PNode, ∀ f,
    (PNode.stampWith f t).stampedOk = true
  | .mk j tx p cs, f => by
    rw [PNode.stampWith_mk, PNode.stampedOk_mk]
    exact PNode.stampedOkL_stampKids cs j

theorem PNode.stampedOkL_stampKids : ∀ cs : List PNode, ∀ j : Nat,
    PNode.stampedOkL j (PNode.stampKids j cs) = true
  | [], j => by simp [PNode.stampKids_nil, PNode.stampedOkL_nil]
  | c :: cs, j => by
    rw [PNode.stampKids_cons, PNode.stampedOkL_cons]
    rw [PNode.stampedOk_stampWith c (some j), PNode.stampedOkL_stampKids cs j,
      PNode.stampWith_parent_some]
    simp

end

theorem PNode.stampedOk_restamp (t : PNode) : t.restamp.stampedOk = true :=
  PNode.stampedOk_stampWith t none

mutual

theorem PNode.stamped_parent : ∀ t : PNode, t.stampedOk = true →
    ∀ q ∈ t.flatten, ∀ c ∈ q.children, c.parent_id = some q.id ∧ c.stampedOk = true
  | .mk j tx p cs => by
    rw [PNode.stampedOk_mk, PNode.flatten_mk]
    intro hs q hq c hc
    rcases List.mem_cons.1 hq with rfl | hq
    · rw [PNode.children_mk] at hc
      rw [PNode.id_mk]
      exact PNode.stampedL_parent cs j hs c hc
    · exact PNode.stampedL_mem cs j hs q hq c hc

theorem PNode.stampedL_parent : ∀ cs : List PNode, ∀ j : Nat,
    PNode.stampedOkL j cs = true →
    ∀ c ∈ cs, c.parent_id = some j ∧ c.stampedOk = true
  | [], j => by simp
  | c :: cs, j => by
    rw [PNode.stampedOkL_cons]
    intro hs d hd
    simp only [Bool.and_eq_true, beq_iff_eq] at hs
    rcases List.mem_cons.1 hd with rfl | hd
    · exact ⟨hs.1.1, hs.1.2⟩
    · exact PNode.stampedL_parent cs j hs.2 d hd

theorem PNode.stampedL_mem : ∀ cs : List PNode, ∀ j : Nat,
    PNode.stampedOkL j cs = true →
    ∀ q ∈ PNode.flattenL cs, ∀ c ∈ q.children, c.parent_id = some q.id ∧ c.stampedOk = true
  | [], j => by simp [PNode.flattenL_nil]
  | c :: cs, j => by
    rw [PNode.stampedOkL_cons, PNode.flattenL_cons]
    intro hs q hq d hd
    simp only [Bool.and_eq_true, beq_iff_eq] at hs
    rcases List.mem_append.1 hq with hq | hq
    · exact PNode.stamped_parent c hs.1.2 q hq d hd
    · exact PNode.stampedL_mem cs j hs.2 q hq d hd

end

/-- Spec §3 invariant 1: exactly one root node without a `parent_id`. -/
def OneRoot (t : PNode) : Prop :=
  t.flatten.countP (fun n => n.parent_id == none) = 1

/-- Spec §3 invariant 2: every non-root node's `parent_id` resolves to a node
whose children list contains it exactly once. -/
def ParentResolves (t : PNode) : Prop :=
  ∀ n ∈ t.flatten, n.parent_id ≠ none →
    ∃ p ∈ t.flatten, n.parent_id = some p.id ∧ p.children.count n = 1

/-- Spec §3 invariant 3: node ids are unique across the whole tree. -/
def UniqueIds (t : PNode) : Prop := t.ids.Nodup

/-- The structural invariants of spec §3 on the nested tree. -/
def Invariant (t : PNode) : Prop := OneRoot t ∧ ParentResolves t ∧ UniqueIds t

instance (t : PNode) : Decidable (Invariant t) := by
  unfold Invariant OneRoot ParentResolves UniqueIds
  infer_instance

/-- Structured form of the invariants used through the preservation proofs:
no stored parent on the root, parent stamps consistent everywhere, ids
unique. -/
def WFt (t : PNode) : Prop :=
  t.parent_id = none ∧ t.stampedOk = true ∧ t.ids.Nodup

instance (t : PNode) : Decidable (WFt t) := by
  unfold WFt
  infer_instance

theorem PNode.ids_subtree_mem {cs : List PNode} {b : PNode} {x : Nat}
    (hb : b ∈ cs) (hx : x ∈ b.ids) : x ∈ PNode.idsL cs := by
  have h1 : b ∈ PNode.flattenL cs := PNode.mem_flattenL_of_mem hb
  have h2 : b.ids.Sublist (PNode.idsL cs) :=
    (PNode.flattenL_sublist_of_mem cs b h1).map PNode.id
  exact h2.mem hx

theorem PNode.idsL_same_part : ∀ cs : List PNode, (PNode.idsL cs).Nodup →
    ∀ a ∈ cs, ∀ b ∈ cs, ∀ x : Nat, x ∈ a.ids → x ∈ b.ids → a = b := by
  intro cs
  induction cs with
  | nil => simp
  | cons c cs ih =>
    rw [PNode.idsL_cons]
    intro hnd a ha b hb x hxa hxb
    have hnd' := List.nodup_append.1 hnd
    rcases List.mem_cons.1 ha with rfl | ha2 <;> rcases List.mem_cons.1 hb with rfl | hb2
    · rfl
    · exact (hnd'.2.2 hxa (PNode.ids_subtree_mem hb2 hxb)).elim
    · exact (hnd'.2.2 hxb (PNode.ids_subtree_mem ha2 hxa)).elim
    · exact ih hnd'.2.1 a ha2 b hb2 x hxa hxb

theorem PNode.kid_mem_flatten {q x : PNode} (hx : x ∈ q.children) : x ∈ q.flatten := by
  cases q with
  | mk j t p cs =>
    rw [PNode.children_mk] at hx
    rw [PNode.flatten_mk]
    exact List.mem_cons_of_mem _ (PNode.mem_flattenL_of_mem hx)

/-- A node cannot be a child of a node of its own subtree (unique ids). -/
theorem PNode.no_self_descent {x q : PNode} (hnd : x.ids.Nodup)
    (hq : q ∈ x.flatten) (hx : x ∈ q.children) : False := by
  cases x with
  | mk j tx p cs =>
    rw [PNode.flatten_mk] at hq
    rw [PNode.ids_mk] at hnd
    have hnd' := List.nodup_cons.1 hnd
    rcases List.mem_cons.1 hq with rfl | hq
    · rw [PNode.children_mk] at hx
      exact hnd'.1 (PNode.ids_subtree_mem hx (by simp [PNode.ids_mk, PNode.id_mk]))
    · have h1 : PNode.mk j tx p cs ∈ q.flatten := PNode.kid_mem_flatten hx
      have h2 : q.flatten.Sublist (PNode.flattenL cs) :=
        PNode.flattenL_sublist_of_mem cs q hq
      have h3 : PNode.mk j tx p cs ∈ PNode.flattenL cs := h2.mem h1
      exact hnd'.1 (by
        have := List.mem_map_of_mem PNode.id h3
        simpa [PNode.id_mk, PNode.idsL] using this)

mutual

/-- With unique ids, a node is the child of at most one node of the tree. -/
theorem PNode.parent_unique : ∀ t : PNode, t.ids.Nodup →
    ∀ p ∈ t.flatten, ∀ q ∈ t.flatten, ∀ x : PNode,
      x ∈ p.children → x ∈ q.children → p = q
  | .mk j tx pr cs => by
    rw [PNode.flatten_mk, PNode.ids_mk]
    intro hnd p hp q hq x hxp hxq
    have hnd' := List.nodup_cons.1 hnd
    rcases List.mem_cons.1 hp with rfl | hp <;> rcases List.mem_cons.1 hq with rfl | hq
    · rfl
    · -- x is a top-level child and also a child of q inside some subtree
      rw [PNode.children_mk] at hxp
      obtain ⟨ck, hck, hqck⟩ := (PNode.mem_flattenL cs q).1 hq
      have hxk : x ∈ ck.flatten :=
        (PNode.flatten_sublist_of_mem ck q hqck).mem (PNode.kid_mem_flatten hxq)
      have hxck : x = ck :=
        PNode.idsL_same_part cs hnd'.2 x hxp ck hck x.id x.id_mem_ids
          ((PNode.ids_sublist_of_mem hxk).mem x.id_mem_ids)
      subst hxck
      have hndx : x.ids.Nodup := by
        have : x.ids.Sublist (PNode.idsL cs) :=
          (PNode.flattenL_sublist_of_mem cs x (PNode.mem_flattenL_of_mem hck)).map PNode.id
        exact this.nodup hnd'.2
      exact absurd (PNode.no_self_descent hndx hqck hxq) (fun h => h)
    · rw [PNode.children_mk] at hxq
      obtain ⟨ck, hck, hpck⟩ := (PNode.mem_flattenL cs p).1 hp
      have hxk : x ∈ ck.flatten :=
        (PNode.flatten_sublist_of_mem ck p hpck).mem (PNode.kid_mem_flatten hxp)
      have hxck : x = ck :=
        PNode.idsL_same_part cs hnd'.2 x hxq ck hck x.id x.id_mem_ids
          ((PNode.ids_sublist_of_mem hxk).mem x.id_mem_ids)
      subst hxck
      have hndx : x.ids.Nodup := by
        have : x.ids.Sublist (PNode.idsL cs) :=
          (PNode.flattenL_sublist_of_mem cs x (PNode.mem_flattenL_of_mem hck)).map PNode.id
        exact this.nodup hnd'.2
      exact absurd (PNode.no_self_descent hndx hpck hxp) (fun h => h)
    · exact PNode.parent_uniqueL cs hnd'.2 p hp q hq x hxp hxq

theorem PNode.parent_uniqueL : ∀ cs : List PNode, (PNode.idsL cs).Nodup →
    ∀ p ∈ PNode.flattenL cs, ∀ q ∈ PNode.flattenL cs, ∀ x : PNode,
      x ∈ p.children → x ∈ q.children → p = q
  | [] => by simp [PNode.flattenL_nil]
  | c :: cs => by
    rw [PNode.flattenL_cons, PNode.idsL_cons]
    intro hnd p hp q hq x hxp hxq
    have hnd' := List.nodup_append.1 hnd
    rcases List.mem_append.1 hp with hp | hp <;> rcases List.mem_append.1 hq with hq | hq
    · exact PNode.parent_unique c hnd'.1 p hp q hq x hxp hxq
    · -- x would lie both in c's subtree and in a later sibling's subtree
      have hxc : x.id ∈ c.ids :=
        (PNode.ids_sublist_of_mem ((PNode.flatten_sublist_of_mem c p hp).mem
          (PNode.kid_mem_flatten hxp))).mem x.id_mem_ids
      have hxcs : x.id ∈ PNode.idsL cs := by
        obtain ⟨d, hd, hqd⟩ := (PNode.mem_flattenL cs q).1 hq
        have : x ∈ d.flatten :=
          (PNode.flatten_sublist_of_mem d q hqd).mem (PNode.kid_mem_flatten hxq)
        exact PNode.ids_subtree_mem hd ((PNode.ids_sublist_of_mem this).mem x.id_mem_ids)
      exact absurd hxcs (fun hm => hnd'.2.2 hxc hm)
    · have hxc : x.id ∈ c.ids :=
        (PNode.ids_sublist_of_mem ((PNode.flatten_sublist_of_mem c q hq).mem
          (PNode.kid_mem_flatten hxq))).mem x.id_mem_ids
      have hxcs : x.id ∈ PNode.idsL cs := by
        obtain ⟨d, hd, hpd⟩ := (PNode.mem_flattenL cs p).1 hp
        have : x ∈ d.flatten :=
          (PNode.flatten_sublist_of_mem d p hpd).mem (PNode.kid_mem_flatten hxp)
        exact PNode.ids_subtree_mem hd ((PNode.ids_sublist_of_mem this).mem x.id_mem_ids)
      exact absurd hxcs (fun hm => hnd'.2.2 hxc hm)
    · exact PNode.parent_uniqueL cs hnd'.2.1 p hp q hq x hxp hxq

end

theorem PNode.parent_ne_none_of_mem_flattenL {cs : List PNode} {j : Nat}
    (hs : PNode.stampedOkL j cs = true) {n : PNode} (hn : n ∈ PNode.flattenL cs) :
    n.parent_id ≠ none := by
  obtain ⟨c, hc, hnc⟩ := (PNode.mem_flattenL cs n).1 hn
  have hcf := PNode.stampedL_parent cs j hs c hc
  rcases PNode.mem_flatten_cases c n hnc with rfl | ⟨q, hq, hnq⟩
  · rw [hcf.1]; simp
  · rw [(PNode.stamped_parent c hcf.2 q hq n hnq).1]; simp

theorem PNode.kids_nodup_of_mem {t q : PNode} (hnd : t.ids.Nodup)
    (hq : q ∈ t.flatten) : q.children.Nodup := by
  have h1 : q.ids.Nodup := (PNode.ids_sublist_of_mem hq).nodup hnd
  cases q with
  | mk j tx p cs =>
    rw [PNode.ids_mk] at h1
    have h2 : (cs.map PNode.id).Nodup :=
      (PNode.kids_ids_sublist cs).nodup (List.nodup_cons.1 h1).2
    rw [PNode.children_mk]
    exact h2.of_map

/-- The structured well-formedness implies the spec §3 invariants. -/
theorem WFt.invariant {t : PNode} (h : WFt t) : Invariant t := by
  obtain ⟨hroot, hstamp, hnd⟩ := h
  refine ⟨?_, ?_, hnd⟩
  · cases t with
    | mk j tx p cs =>
      rw [PNode.parent_id_mk] at hroot
      subst hroot
      rw [PNode.stampedOk_mk] at hstamp
      unfold OneRoot
      rw [PNode.flatten_mk]
      rw [List.countP_cons_of_pos _ _ (by simp [PNode.parent_id_mk])]
      rw [List.countP_eq_zero.2 (fun n hn => by
        simp only [beq_iff_eq]
        exact PNode.parent_ne_none_of_mem_flattenL hstamp hn)]
  · intro n hn hpn
    rcases PNode.mem_flatten_cases t n hn with rfl | ⟨q, hq, hnq⟩
    · exact absurd hroot hpn
    · refine ⟨q, hq, (PNode.stamped_parent t hstamp q hq n hnq).1, ?_⟩
      exact List.count_eq_one_of_mem (PNode.kids_nodup_of_mem hnd hq) hnq

mutual

theorem PNode.stampedOk_of_pointwise : ∀ t : PNode,
    (∀ q ∈ t.flatten, ∀ c ∈ q.children, c.parent_id = some q.id) →
    t.stampedOk = true
  | .mk j tx p cs => by
    intro h
    rw [PNode.stampedOk_mk]
    apply PNode.stampedOkL_of_pointwise cs j
    · intro c hc
      have := h (.mk j tx p cs) (by rw [PNode.flatten_mk]; exact List.mem_cons_self _ _)
        c (by rw [PNode.children_mk]; exact hc)
      simpa [PNode.id_mk] using this
    · intro q hq c hc
      exact h q (by rw [PNode.flatten_mk]; exact List.mem_cons_of_mem _ hq) c hc

theorem PNode.stampedOkL_of_pointwise : ∀ cs : List PNode, ∀ j : Nat,
    (∀ c ∈ cs, c.parent_id = some j) →
    (∀ q ∈ PNode.flattenL cs, ∀ c ∈ q.children, c.parent_id = some q.id) →
    PNode.stampedOkL j cs = true
  | [], j => by simp [PNode.stampedOkL_nil]
  | c :: cs, j => by
    intro h1 h2
    rw [PNode.stampedOkL_cons]
    have hc : c.stampedOk = true :=
      PNode.stampedOk_of_pointwise c (fun q hq d hd =>
        h2 q (by rw [PNode.flattenL_cons]; exact List.mem_append.2 (Or.inl hq)) d hd)
    have hcs : PNode.stampedOkL j cs = true :=
      PNode.stampedOkL_of_pointwise cs j
        (fun d hd => h1 d (List.mem_cons_of_mem _ hd))
        (fun q hq d hd =>
          h2 q (by rw [PNode.flattenL_cons]; exact List.mem_append.2 (Or.inr hq)) d hd)
    simp [h1 c (List.mem_cons_self _ _), hc, hcs]

end

/-- The spec §3 invariants imply the structured well-formedness. -/
theorem Invariant.wft {t : PNode} (h : Invariant t) : WFt t := by
  obtain ⟨hone, hres, hnd⟩ := h
  have hroot : t.parent_id = none := by
    by_contra hpn
    obtain ⟨p, hp, _, hcount⟩ := hres t t.self_mem_flatten hpn
    have hmem : t ∈ p.children := by
      rw [← List.count_pos_iff]
      omega
    exact PNode.no_self_descent hnd hp hmem
  have hpw : ∀ q ∈ t.flatten, ∀ c ∈ q.children, c.parent_id = some q.id := by
    intro q hq c hc
    have hct : c ∈ t.flatten :=
      (PNode.flatten_sublist_of_mem t q hq).mem (PNode.kid_mem_flatten hc)
    have hcnn : c.parent_id ≠ none := by
      intro hcn
      have hne : c ≠ t := by
        rintro rfl
        exact PNode.no_self_descent hnd hq hc
      cases t with
      | mk j tx pr cs =>
        unfold OneRoot at hone
        rw [PNode.flatten_mk] at hone hct
        rw [PNode.parent_id_mk] at hroot
        subst hroot
        rw [List.countP_cons_of_pos _ _ (by simp [PNode.parent_id_mk])] at hone
        have htail : (PNode.flattenL cs).countP (fun n => n.parent_id == none) = 0 := by
          omega
        rcases List.mem_cons.1 hct with rfl | hct2
        · exact hne rfl
        · have := List.countP_eq_zero.1 htail c hct2
          simp only [beq_iff_eq] at this
          exact this hcn
    obtain ⟨p, hp, hcp, hcount⟩ := hres c hct hcnn
    have hcmem : c ∈ p.children := by
      rw [← List.count_pos_iff]
      omega
    have : p = q := PNode.parent_unique t hnd p hp q hq c hcmem hc
    subst this
    exact hcp
  exact ⟨hroot, PNode.stampedOk_of_pointwise t hpw, hnd⟩

/-- Python `list.index(x)`/`list.remove(x)` position: the index of the
first element equal (`==`, value equality) to `x`, `none` when absent
(ValueError). -/
def list_index {a : Type} [BEq a] : List a -> a -> Option Nat
  | [], _ => none
  | c :: l, x => if c == x then some 0 else (list_index l x).map (fun k => k + 1)

theorem list_index_nil {a : Type} [BEq a] (x : a) : list_index [] x = none := rfl

theorem list_index_cons {a : Type} [BEq a] (c : a) (l : List a) (x : a) :
    list_index (c :: l) x
      = if c == x then some 0 else (list_index l x).map (fun k => k + 1) := rfl

/-- The `TreeModel` state: the canonical nested tree
(`tree_raw_data["root"]`), the selection cursor `selected_node_id`, the
uuid1 supply (modelled as a counter), and the number of `tree_updated`
change notifications fired so far. -/
structure TreeState where
  root : PNode
  selected : Option Nat
  nextId : Nat
  updates : Nat
deriving DecidableEq

/-- Well-formed model state: structured invariants on the tree plus
freshness of the id supply (uuid1 never re-issues an id in use). -/
def WF (s : TreeState) : Prop :=
  WFt s.root ∧ ∀ i ∈ s.root.ids, i < s.nextId

instance (s : TreeState) : Decidable (WF s) := by
  unfold WF
  infer_instance

/-- `select_node` (model.py 204-221): no-op when the id is the current
selection or is not in the index; otherwise move the cursor.  (The `visited`
and `open` flags and the hooks it fires are UI metadata, unmodelled.) -/
def select_node (s : TreeState) (i : Nat) : TreeState :=
  if s.selected ≠ some i ∧ (s.root.lookup i).isSome then
    { s with selected := some i }
  else s

/-- `tree_updated` (model.py 112-116): rebuild the flat index by
re-flattening from the root — on the nested tree this re-stamps every
child's `parent_id` — and fire the change notification.  The rebuild also
runs `fix_miro_tree` (util_tree.py 120-148); that pass rewrites only nodes
whose text contains `"<p>"` or `"</p"` (its guard at util_tree.py 128 skips
every other node), and its rewrite calls the external html2text library,
which is not part of this repository, so the pass is not modelled here.
Theorems below that conclude text-level facts therefore carry `miro_clean`
hypotheses and prove the rebuilt tree markup-free again, confining them to
inputs the skipped pass provably leaves untouched; theorems with
id/selection/structure-level conclusions are unaffected, as the pass
rewrites only `text` fields. -/
def tree_updated (s : TreeState) : TreeState :=
  { s with root := s.root.restamp, updates := s.updates + 1 }

/-- `create_child` (model.py 253-269): append a fresh empty leaf to the
parent's children, rebuild, optionally select it.  (`expand` only sets the
unmodelled `open` flag.)  The parent is addressed by id; an id outside the
tree has no Python counterpart (callers pass dicts from the index) and is
mapped to failure. -/
def create_child (s : TreeState) (parentId : Nat) (update_selection : Bool) :
    Option TreeState :=
  match s.root.lookup parentId with
  | none => none
  | some _ =>
    let child : PNode := .mk s.nextId "" none []
    let s1 : TreeState :=
      { s with
        root := s.root.modifyAt parentId (fun p => p.setKids (p.children ++ [child])),
        nextId := s.nextId + 1 }
    let s2 := tree_updated s1
    some (if update_selection then select_node s2 child.id else s2)

/-- `create_sibling` (model.py 271-276): `create_child` on the node's
parent.  `node["parent_id"]` on the root raises KeyError, as does a dangling
parent reference in `tree_node_dict[...]`. -/
def create_sibling (s : TreeState) (nodeId : Nat) (update_selection : Bool) :
    Option TreeState :=
  match s.root.lookup nodeId with
  | none => none
  | some n =>
    match n.parent_id with
    | none => none
    | some pid =>
      match s.root.lookup pid with
      | none => none
      | some _ => create_child s pid update_selection

/-- `create_parent` (model.py 278-297): insert a fresh node between `node`
and its former parent; if `node` is the root (no `parent_id`; the source
asserts it is the stored root) the new node becomes the root. -/
def create_parent (s : TreeState) (nodeId : Nat) : Option TreeState :=
  match s.root.lookup nodeId with
  | none => none
  | some n =>
    let newPid := s.nextId
    match n.parent_id with
    | none =>
      if n = s.root then
        some (tree_updated
          { s with root := .mk newPid "" none [n.setParent (some newPid)],
                   nextId := s.nextId + 1 })
      else none  -- assert self.tree_raw_data["root"] == node fails
    | some oldPid =>
      match s.root.lookup oldPid with
      | none => none  -- KeyError
      | some _ =>
        let newParent : PNode :=
          .mk newPid "" (some oldPid) [n.setParent (some newPid)]
        some (tree_updated
          { s with
            root := s.root.modifyAt oldPid (fun p => p.setKids
              (p.children.map (fun c => if c = n then newParent else c))),
            nextId := s.nextId + 1 })

/-- `merge_with_parent` (model.py 299-314): append the node's text to its
parent's, splice the node's children (reparented) into the parent's children
at the node's position, select the parent, rebuild.  On the root,
`node["parent_id"]` raises KeyError. -/
def merge_with_parent (s : TreeState) (nodeId : Nat) : Option TreeState :=
  match s.root.lookup nodeId with
  | none => none
  | some n =>
    match n.parent_id with
    | none => none  -- KeyError: "parent_id" not a key of the root
    | some pid =>
      match s.root.lookup pid with
      | none => none  -- KeyError
      | some p =>
        match list_index p.children n with
        | none => none  -- ValueError from list.index
        | some k =>
          let root1 := s.root.modifyAt pid (fun q =>
            .mk q.id (q.text ++ n.text) q.parent_id
              (q.children.take k ++ n.children.map (PNode.setParent (some pid))
                ++ q.children.drop (k + 1)))
          some (tree_updated (select_node { s with root := root1 } pid))

/-- `delete_node` (model.py 353-371): silently refuse the root; otherwise
remove the node from its parent's children (optionally re-attaching the
node's children at the end), then select the parent (when re-attaching or no
sibling remains) or the sibling at `old_index % len(siblings)`, and rebuild.
-/
def delete_node (s : TreeState) (nodeId : Nat) (reassign_children : Bool) :
    Option TreeState :=
  match s.root.lookup nodeId with
  | none => none
  | some n =>
    match n.parent_id with
    | none => some s  -- TODO Doesn't support deleting root: silent return
    | some pid =>
      match s.root.lookup pid with
      | none => none  -- KeyError
      | some p =>
        match list_index p.children n with
        | none => none  -- ValueError from list.index / list.remove
        | some old_index =>
          let base := p.children.take old_index ++ p.children.drop (old_index + 1)
          let newSibs := if reassign_children then base ++ n.children else base
          let s1 : TreeState :=
            { s with root := s.root.modifyAt pid (fun q => q.setKids newSibs) }
          let s2 :=
            if reassign_children || newSibs.isEmpty then select_node s1 pid
            else
              match newSibs.get? (old_index % newSibs.length) with
              | some sib => select_node s1 sib.id
              | none => s1  -- unreachable: the modulus is positive here
          some (tree_updated s2)

/-- `merge_with_children` (model.py 316-324): prepend the node's text to
each child's text, then `delete_node(node, reassign_children=True)`. -/
def merge_with_children (s : TreeState) (nodeId : Nat) : Option TreeState :=
  match s.root.lookup nodeId with
  | none => none
  | some n =>
    let s1 : TreeState :=
      { s with root := s.root.modifyAt nodeId (fun q =>
          q.setKids (q.children.map (fun c => c.setText (n.text ++ c.text)))) }
    delete_node s1 nodeId true

/-- `change_parent` (model.py 328-345): no-op when the target is the node
itself, the node is the root (error printed, returns), or the parent is
unchanged; otherwise detach the node from its old parent and append it to
the new parent's children.  The new parent is looked up in the (stale)
index; appending under the node's own subtree leaves that subtree
unreachable from the root, so the rebuild drops it. -/
def change_parent (s : TreeState) (nodeId : Nat) (new_parent_id : Nat) :
    Option TreeState :=
  match s.root.lookup nodeId with
  | none => none
  | some n =>
    if n.id = new_parent_id then some s
    else
      match n.parent_id with
      | none => if n = s.root then some s else none  -- assert, then print + return
      | some oldPid =>
        if new_parent_id = oldPid then some s
        else
          match s.root.lookup oldPid with
          | none => none  -- KeyError
          | some p =>
            match list_index p.children n with
            | none => none  -- ValueError from list.remove
            | some k =>
              match s.root.lookup new_parent_id with
              | none => none  -- KeyError (after the removal already mutated)
              | some _ =>
                let root1 := s.root.modifyAt oldPid (fun q =>
                  q.setKids (q.children.take k ++ q.children.drop (k + 1)))
                let root2 := root1.modifyAt new_parent_id (fun q =>
                  q.setKids (q.children ++ [n.setParent (some new_parent_id)]))
                some (tree_updated { s with root := root2 })

/-- The `while text.endswith(" ")` loop of `update_text` (model.py 378-381)
counts the maximal run of `' '` at the end of the string. -/
def num_trailing_spaces (text : String) : Nat :=
  (text.data.reverse.takeWhile (fun ch => ch == ' ')).length

/-- The text left after the loop: the counted spaces stripped. -/
def strip_trailing_spaces (text : String) : String :=
  ⟨(text.data.reverse.drop (num_trailing_spaces text)).reverse⟩

/-- `" " * k`. -/
def spaces (k : Nat) : String := ⟨List.replicate k ' '⟩

/-- `update_text` (model.py 373-396) with `active_text=None` (the
`active_text` branch touches only that unmodelled field): strip trailing
spaces; if the stripped text differs from the stored text, prepend the
removed spaces to every direct child's text, store the stripped text and
rebuild; otherwise nothing changes and no notification fires. -/
def update_text (s : TreeState) (nodeId : Nat) (text : String) : Option TreeState :=
  match s.root.lookup nodeId with
  | none => none  -- assert node["id"] in self.tree_node_dict
  | some n =>
    let text' := strip_trailing_spaces text
    if n.text ≠ text' then
      some (tree_updated
        { s with root := s.root.modifyAt nodeId (fun q =>
            .mk q.id text' q.parent_id
              (q.children.map (fun c =>
                c.setText (spaces (num_trailing_spaces text) ++ c.text)))) })
    else some s

/-- The generation backend's reply (spec §6): an ordered list of completion
texts, or an error string — `api_generate` returns `(results, error)` with
`results=None` on error.  The default settings path (`janus=False`,
`adaptive=False`) uses only the completion texts. -/
inductive GenResult where
  | ok (texts : List String)
  | err (msg : String)
deriving DecidableEq

/-- One iteration of the error branch of `generate_for_nodes` (model.py
568-573): the placeholder's text is set to `"ERROR: " + error`, then the
placeholder is removed from its parent's children (`list.remove`: first
value match — the mutated node). -/
def rollback_node (s : TreeState) (i : Nat) (msg : String) : Option TreeState :=
  match s.root.lookup i with
  | none => none
  | some n =>
    match n.parent_id with
    | none => none  -- KeyError
    | some pid =>
      let root1 := s.root.modifyAt i (PNode.setText ("ERROR: " ++ msg))
      match root1.lookup pid with
      | none => none  -- KeyError
      | some p =>
        match list_index p.children (n.setText ("ERROR: " ++ msg)) with
        | none => none  -- ValueError from list.remove
        | some k =>
          some { s with root := root1.modifyAt pid (fun q =>
            q.setKids (q.children.take k ++ q.children.drop (k + 1))) }

/-- `generate_for_nodes` (model.py 537-579) on the default settings path,
with the backend call abstracted as its result.  Success writes each
`results.choices[index]["text"]` onto its placeholder and a deferred
`tree_updated` runs via the `<<TreeUpdated>>` event; too few completions is
an IndexError.  On error, every placeholder is rolled back as above — and
the source then raises AttributeError iterating `results.choices` (`results`
is `None`) before the event fires, so the rollback persists with no rebuild
and no notification. -/
def generate_for_nodes (s : TreeState) (nodeIds : List Nat) (res : GenResult) :
    Option TreeState :=
  match res with
  | .ok texts =>
    if nodeIds.length ≤ texts.length then
      let root1 := (nodeIds.zip texts).foldl
        (fun r pair => r.modifyAt pair.1 (PNode.setText pair.2)) s.root
      some (tree_updated { s with root := root1 })
    else none
  | .err msg => nodeIds.foldlM (fun st i => rollback_node st i msg) s

/-- The placeholder-creation loop of `generate_continuation` (model.py
589-593, `adaptive=False`): `num_continuations` calls of
`create_child(node, update_selection=False)`, collecting the new ids. -/
def create_placeholders (s : TreeState) (nodeId : Nat) :
    Nat → Option (TreeState × List Nat)
  | 0 => some (s, [])
  | k + 1 =>
    match create_child s nodeId false with
    | none => none
    | some s1 =>
      match create_placeholders s1 nodeId k with
      | none => none
      | some (s2, rest) => some (s2, s.nextId :: rest)

/-- `generate_continuation` (model.py 581-611) with `adaptive=False` and
`update_selection=False`, composed with the worker thread's
`generate_for_nodes` at the single hand-off point of spec §5 (prompt
assembly reads ancestry text only): create the placeholders, set their
loading text, refresh, then reconcile the backend result. -/
def generate_continuation (s : TreeState) (nodeId : Nat) (k : Nat)
    (res : GenResult) : Option TreeState :=
  match create_placeholders s nodeId k with
  | none => none
  | some (s1, childIds) =>
    let root1 := childIds.foldl
      (fun r i => r.modifyAt i (PNode.setText "\n\n** Generating **")) s1.root
    generate_for_nodes (tree_updated { s1 with root := root1 }) childIds res

/-- Modelled from the spec: `clip_num(n, lo, hi)` from `util/util.py`, which
is imported by model.py but is not under src/; per spec §4.1 it clips to the
inclusive range — "out-of-range offsets saturate, they do not wrap or
error". -/
def clip_num (n lo hi : Int) : Int := max lo (min n hi)

/-- `traverse_tree` (model.py 223-227): select the node at the clipped
index-order position `current + offset`.  `self.nodes` is the flat index in
insertion (pre-order) order; `self.tree_traversal_idx` finds the selected
node's position in it (ValueError if the selection is invalid). -/
def traverse_tree (s : TreeState) (offset : Int) : Option TreeState :=
  match s.selected with
  | none => none
  | some sid =>
    match s.root.lookup sid with
    | none => none  -- selected_node is None: nodes.index(None) raises ValueError
    | some sel =>
    match list_index s.root.flatten sel with
    | none => none
    | some idx =>
      let new_idx := clip_num ((idx : Int) + offset) 0 ((s.root.flatten.length : Int) - 1)
      match s.root.flatten.get? new_idx.toNat with
      | none => none
      | some nd => some (select_node s nd.id)

/-- `select_sibling` (model.py 241-246): select the sibling at
`(siblings.index(node) + offset) % len(siblings)` (Python `%`: Euclidean
remainder).  Falls through to a no-op when the node has no `parent_id`. -/
def select_sibling (s : TreeState) (offset : Int) (nodeId : Nat) :
    Option TreeState :=
  match s.root.lookup nodeId with
  | none => none
  | some n =>
    match n.parent_id with
    | none => some s
    | some pid =>
      match s.root.lookup pid with
      | none => none  -- KeyError
      | some p =>
        match list_index p.children n with
        | none => none  -- ValueError from list.index
        | some i =>
          match p.children.get? (((i : Int) + offset).emod (p.children.length : Int)).toNat with
          | none => none
          | some sib => some (select_node s sib.id)

/-- The structural edits of spec §8's invariant-preservation property. -/
inductive Edit where
  | create_child (parentId : Nat)
  | create_sibling (nodeId : Nat)
  | create_parent (nodeId : Nat)
  | merge_with_parent (nodeId : Nat)
  | merge_with_children (nodeId : Nat)
  | change_parent (nodeId new_parent_id : Nat)
  | delete_node (nodeId : Nat) (reassign_children : Bool)
deriving DecidableEq

/-- Dispatch one edit (selection-updating variants, the UI default). -/
def applyEdit (s : TreeState) : Edit → Option TreeState
  | .create_child p => create_child s p true
  | .create_sibling x => create_sibling s x true
  | .create_parent x => create_parent s x
  | .merge_with_parent x => merge_with_parent s x
  | .merge_with_children x => merge_with_children s x
  | .change_parent x y => change_parent s x y
  | .delete_node x r => delete_node s x r

/-- Run a sequence of edits, stopping at the first failure. -/
def applyEdits (s : TreeState) : List Edit → Option TreeState
  | [] => some s
  | e :: es =>
    match applyEdit s e with
    | none => none
    | some s1 => applyEdits s1 es

theorem list_index_decomp {a : Type} [BEq a] [LawfulBEq a] :
    ∀ (l : List a) (x : a) (k : Nat), list_index l x = some k →
    ∃ l1 l2, l = l1 ++ x :: l2 ∧ l1.length = k ∧ x ∉ l1 := by
  intro l
  induction l with
  | nil => intro x k h; cases h
  | cons c l ih =>
    intro x k h
    rw [list_index_cons] at h
    by_cases hcx : c == x
    · rw [if_pos hcx] at h
      injection h with h
      refine ⟨[], l, ?_, by simp [← h], by simp⟩
      rw [eq_of_beq hcx]
      simp
    · rw [if_neg hcx] at h
      rcases hr : list_index l x with _ | k'
      · rw [hr] at h; cases h
      · rw [hr] at h
        injection h with h
        obtain ⟨l1, l2, he, hlen, hnm⟩ := ih x k' hr
        refine ⟨c :: l1, l2, by simp [he], by simp [hlen, ← h], ?_⟩
        intro hm
        rcases List.mem_cons.1 hm with rfl | hm
        · exact hcx (by simp)
        · exact hnm hm

theorem list_index_isSome_of_mem {a : Type} [BEq a] [LawfulBEq a] :
    ∀ {l : List a} {x : a}, x ∈ l → (list_index l x).isSome := by
  intro l
  induction l with
  | nil => intro x h; cases h
  | cons c l ih =>
    intro x h
    rw [list_index_cons]
    by_cases hcx : c == x
    · rw [if_pos hcx]; rfl
    · rcases List.mem_cons.1 h with rfl | h
      · simp at hcx
      · rw [if_neg hcx]
        have hsome := ih h
        rcases hr : list_index l x with _ | k
        · rw [hr] at hsome
          simp at hsome
        · simp

theorem nodup_mid_sublist {a : Type} {pre post mid mid' : List a}
    (hsub : mid'.Sublist mid) (h : (pre ++ mid ++ post).Nodup) :
    (pre ++ mid' ++ post).Nodup := by
  refine List.Nodup.sublist ?_ h
  have hs := (List.append_sublist_append_left pre).2 (hsub.append_right post)
  simpa [List.append_assoc] using hs

theorem nodup_mid_insert {a : Type} [DecidableEq a] {pre mid post ins : List a}
    (h : (pre ++ mid ++ post).Nodup) (hins : ins.Nodup)
    (hdisj : ∀ x ∈ ins, x ∉ pre ++ mid ++ post) :
    (pre ++ (mid ++ ins) ++ post).Nodup := by
  have hperm : (pre ++ (mid ++ ins) ++ post).Perm (ins ++ ((pre ++ mid) ++ post)) := by
    have e1 : pre ++ (mid ++ ins) ++ post = (pre ++ mid) ++ (ins ++ post) := by
      simp [List.append_assoc]
    rw [e1]
    exact List.perm_append_comm_assoc (pre ++ mid) ins post
  rw [hperm.nodup_iff]
  rw [List.nodup_append]
  refine ⟨hins, by simpa [List.append_assoc] using h, ?_⟩
  intro x hx hx2
  exact hdisj x hx (by simpa [List.append_assoc] using hx2)

theorem disjoint_of_nodup_mid {a : Type} {pre mid post : List a}
    (h : (pre ++ mid ++ post).Nodup) :
    ∀ x ∈ mid, x ∉ pre ++ post := by
  intro x hxm hx
  rw [List.append_assoc, List.nodup_append] at h
  rcases List.mem_append.1 hx with hx | hx
  · exact h.2.2 hx (List.mem_append.2 (Or.inl hxm))
  · have h2 := h.2.1
    rw [List.nodup_append] at h2
    exact h2.2.2 hxm hx

theorem PNode.ids_setText (s : String) (n : PNode) : (n.setText s).ids = n.ids := by
  cases n; rfl

theorem PNode.ids_setParent (p : Option Nat) (n : PNode) :
    (n.setParent p).ids = n.ids := by
  cases n; rfl

theorem PNode.ids_setKids (cs : List PNode) (n : PNode) :
    (n.setKids cs).ids = n.id :: PNode.idsL cs := by
  cases n; rfl

theorem PNode.idsL_map_setParent (p : Option Nat) (cs : List PNode) :
    PNode.idsL (cs.map (PNode.setParent p)) = PNode.idsL cs := by
  induction cs with
  | nil => rfl
  | cons c cs ih => simp [PNode.idsL_cons, ih, PNode.ids_setParent]

theorem PNode.id_setText (s : String) (n : PNode) : (n.setText s).id = n.id := by
  cases n; rfl

theorem PNode.id_setParent (p : Option Nat) (n : PNode) : (n.setParent p).id = n.id := by
  cases n; rfl

theorem PNode.id_setKids (cs : List PNode) (n : PNode) : (n.setKids cs).id = n.id := by
  cases n; rfl

theorem PNode.parent_id_setText (s : String) (n : PNode) :
    (n.setText s).parent_id = n.parent_id := by
  cases n; rfl

theorem PNode.parent_id_setKids (cs : List PNode) (n : PNode) :
    (n.setKids cs).parent_id = n.parent_id := by
  cases n; rfl

theorem PNode.ids_decomp (n : PNode) : n.ids = n.id :: PNode.idsL n.children := by
  cases n; rfl

theorem PNode.modifyAt_parent_id (t : PNode) (i : Nat) (f : PNode → PNode)
    (hf : ∀ q, (f q).parent_id = q.parent_id) :
    (t.modifyAt i f).parent_id = t.parent_id := by
  cases t with
  | mk j tx p cs =>
    rw [PNode.modifyAt_mk]
    by_cases hji : j = i
    · rw [if_pos hji, hf]
    · rw [if_neg hji]
      rfl

theorem select_node_root (s : TreeState) (i : Nat) : (select_node s i).root = s.root := by
  unfold select_node
  split <;> rfl

theorem select_node_nextId (s : TreeState) (i : Nat) :
    (select_node s i).nextId = s.nextId := by
  unfold select_node
  split <;> rfl

theorem tree_updated_root (s : TreeState) :
    (tree_updated s).root = s.root.restamp := rfl

theorem tree_updated_nextId (s : TreeState) :
    (tree_updated s).nextId = s.nextId := rfl

theorem tree_updated_selected (s : TreeState) :
    (tree_updated s).selected = s.selected := rfl

theorem WF_tree_updated {s : TreeState} (h1 : s.root.parent_id = none)
    (h2 : s.root.ids.Nodup) (h3 : ∀ i ∈ s.root.ids, i < s.nextId) :
    WF (tree_updated s) := by
  refine ⟨⟨?_, ?_, ?_⟩, ?_⟩
  · rw [tree_updated_root, PNode.restamp_parent_id]; exact h1
  · rw [tree_updated_root, PNode.stampedOk_restamp]
  · rw [tree_updated_root, PNode.ids_restamp]; exact h2
  · rw [tree_updated_nextId, tree_updated_root, PNode.ids_restamp]; exact h3

theorem WF_select_node {s : TreeState} (h : WF s) (i : Nat) : WF (select_node s i) := by
  unfold WF
  rw [select_node_root, select_node_nextId]
  exact h

theorem PNode.ids_modifyAt (t : PNode) (i : Nat) (f : PNode → PNode) (n : PNode)
    (hnd : t.ids.Nodup) (hl : t.lookup i = some n) (hid : (f n).id = n.id) :
    ∃ pre post, t.ids = pre ++ n.ids ++ post ∧
      (t.modifyAt i f).ids = pre ++ (f n).ids ++ post := by
  obtain ⟨-, pre, post, h1, h2⟩ := PNode.view_modifyAt t i f n hnd hl hid
  refine ⟨pre.map NodeView.vid, post.map NodeView.vid, ?_, ?_⟩
  · rw [PNode.ids_eq_view_map, h1]
    simp [PNode.ids_eq_view_map]
  · rw [PNode.ids_eq_view_map, h2]
    simp [PNode.ids_eq_view_map]

theorem create_child_eq {s : TreeState} {pid : Nat} {p : PNode} (u : Bool)
    (hl : s.root.lookup pid = some p) :
    create_child s pid u
      = some (if u
          then select_node (tree_updated
            { s with
              root := s.root.modifyAt pid
                (fun q => q.setKids (q.children ++ [.mk s.nextId "" none []])),
              nextId := s.nextId + 1 }) s.nextId
          else tree_updated
            { s with
              root := s.root.modifyAt pid
                (fun q => q.setKids (q.children ++ [.mk s.nextId "" none []])),
              nextId := s.nextId + 1 }) := by
  unfold create_child
  rw [hl]
  rfl


theorem WF_create_child {s : TreeState} {pid : Nat} {u : Bool} {s' : TreeState}
    (hw : WF s) (h : create_child s pid u = some s') :
    WF s' ∧ s.nextId ≤ s'.nextId := by
  obtain ⟨⟨hroot, hstamp, hnd⟩, hb⟩ := hw
  rcases hl : s.root.lookup pid with _ | p
  · rw [create_child, hl] at h
    cases h
  · rw [create_child_eq u hl] at h
    injection h with h
    subst h
    obtain ⟨pre, post, h1, h2⟩ := PNode.ids_modifyAt s.root pid
      (fun q => q.setKids (q.children ++ [.mk s.nextId "" none []])) p
      hnd hl (PNode.id_setKids _ p)
    have hfids : (p.setKids (p.children ++ [PNode.mk s.nextId "" none []])).ids
        = p.ids ++ [s.nextId] := by
      rw [PNode.ids_setKids, PNode.idsL_append, PNode.ids_decomp]
      simp [PNode.idsL_cons, PNode.idsL_nil, PNode.ids_mk]
    rw [hfids] at h2
    have hnd1 : (s.root.modifyAt pid
        (fun q => q.setKids (q.children ++ [PNode.mk s.nextId "" none []]))).ids.Nodup := by
      rw [h2]
      refine nodup_mid_insert (by rw [← h1]; exact hnd) (by simp) ?_
      intro x hx hmem
      rcases List.mem_singleton.1 hx
      rw [← h1] at hmem
      exact absurd (hb _ hmem) (by omega)
    have hbound : ∀ i ∈ (s.root.modifyAt pid
        (fun q => q.setKids (q.children ++ [PNode.mk s.nextId "" none []]))).ids,
        i < s.nextId + 1 := by
      intro i him
      rw [h2] at him
      rcases List.mem_append.1 him with him | him
      · rcases List.mem_append.1 him with him | him
        · have := hb i (by rw [h1]; exact List.mem_append.2 (Or.inl (List.mem_append.2 (Or.inl him))))
          omega
        · rcases List.mem_append.1 him with him | him
          · have := hb i (by rw [h1]; exact List.mem_append.2 (Or.inl (List.mem_append.2 (Or.inr him))))
            omega
          · rcases List.mem_singleton.1 him
            omega
      · have := hb i (by rw [h1]; exact List.mem_append.2 (Or.inr him))
        omega
    have hpar : (s.root.modifyAt pid
        (fun q => q.setKids (q.children ++ [PNode.mk s.nextId "" none []]))).parent_id
        = none := by
      rw [PNode.modifyAt_parent_id _ _ _ (fun q => PNode.parent_id_setKids _ q)]
      exact hroot
    have hwf2 : WF (tree_updated
        { s with
          root := s.root.modifyAt pid
            (fun q => q.setKids (q.children ++ [.mk s.nextId "" none []])),
          nextId := s.nextId + 1 }) :=
      WF_tree_updated hpar hnd1 hbound
    constructor
    · by_cases hu : u
      · rw [if_pos hu]
        exact WF_select_node hwf2 _
      · rw [if_neg hu]
        exact hwf2
    · by_cases hu : u
      · rw [if_pos hu, select_node_nextId, tree_updated_nextId]
        show s.nextId ≤ s.nextId + 1
        omega
      · rw [if_neg hu, tree_updated_nextId]
        show s.nextId ≤ s.nextId + 1
        omega

theorem nodup_mid_perm {a : Type} {pre post mid mid' : List a}
    (hp : mid.Perm mid') (h : (pre ++ mid ++ post).Nodup) :
    (pre ++ mid' ++ post).Nodup := by
  have := ((hp.append_left pre).append_right post)
  exact this.nodup_iff.1 h

theorem map_replace_eq {n m : PNode} : ∀ l : List PNode, n ∉ l →
    l.map (fun c => if c = n then m else c) = l := by
  intro l
  induction l with
  | nil => intro h; rfl
  | cons c l ih =>
    intro h
    have hc : c ≠ n := fun he => h (he ▸ List.mem_cons_self _ _)
    simp only [List.map_cons, if_neg hc]
    rw [ih (fun hm => h (List.mem_cons_of_mem _ hm))]

theorem PNode.eq_of_mem_same_id {t p q : PNode} (hnd : t.ids.Nodup)
    (hp : p ∈ t.flatten) (hq : q ∈ t.flatten) (hid : p.id = q.id) : p = q := by
  have h1 := PNode.lookup_self_of_nodup t p hnd hp
  have h2 := PNode.lookup_self_of_nodup t q hnd hq
  rw [hid] at h1
  rw [h1] at h2
  injection h2

/-- Under the structured invariants, a node found in the index with a parent
reference is one of that parent's children. -/
theorem PNode.mem_parent_children {t n p : PNode} {i pid : Nat}
    (hwf : WFt t) (hln : t.lookup i = some n) (hpn : n.parent_id = some pid)
    (hlp : t.lookup pid = some p) : n ∈ p.children := by
  obtain ⟨hroot, hstamp, hnd⟩ := hwf
  have hnm : n ∈ t.flatten := PNode.lookup_mem t i n hln
  rcases PNode.mem_flatten_cases t n hnm with rfl | ⟨q, hq, hnq⟩
  · rw [hroot] at hpn
    cases hpn
  · have hpar := (PNode.stamped_parent t hstamp q hq n hnq).1
    rw [hpn] at hpar
    injection hpar with hpar
    have hqp : q = p :=
      PNode.eq_of_mem_same_id hnd hq (PNode.lookup_mem t pid p hlp)
        (by rw [← hpar, PNode.lookup_id t pid p hlp])
    rw [← hqp]
    exact hnq

/-- A non-root node (one carrying a `parent_id`) is not the tree root. -/
theorem PNode.ne_root_of_parent {t n : PNode} (hroot : t.parent_id = none)
    {pid : Nat} (hpn : n.parent_id = some pid) : n ≠ t := by
  intro he
  rw [he, hroot] at hpn
  cases hpn

theorem PNode.idsL_map_setText_prepend (x : String) (cs : List PNode) :
    PNode.idsL (cs.map (fun c => c.setText (x ++ c.text))) = PNode.idsL cs := by
  induction cs with
  | nil => rfl
  | cons c cs ih => simp [PNode.idsL_cons, ih, PNode.ids_setText]

theorem update_text_eq {s : TreeState} {nodeId : Nat} {n : PNode} (text : String)
    (hl : s.root.lookup nodeId = some n)
    (hne : n.text ≠ strip_trailing_spaces text) :
    update_text s nodeId text
      = some (tree_updated
          { s with root := s.root.modifyAt nodeId (fun q =>
              .mk q.id (strip_trailing_spaces text) q.parent_id
                (q.children.map (fun c =>
                  c.setText (spaces (num_trailing_spaces text) ++ c.text)))) }) := by
  simp only [update_text, hl]
  rw [if_pos hne]

theorem update_text_eq_noop {s : TreeState} {nodeId : Nat} {n : PNode} (text : String)
    (hl : s.root.lookup nodeId = some n)
    (hne : n.text = strip_trailing_spaces text) :
    update_text s nodeId text = some s := by
  simp only [update_text, hl]
  rw [if_neg (by simp [hne])]

theorem WF_update_text {s : TreeState} {nodeId : Nat} {text : String} {s' : TreeState}
    (hw : WF s) (h : update_text s nodeId text = some s') :
    WF s' ∧ s.nextId ≤ s'.nextId := by
  obtain ⟨⟨hroot, hstamp, hnd⟩, hb⟩ := hw
  rcases hl : s.root.lookup nodeId with _ | n
  · rw [update_text, hl] at h
    cases h
  · by_cases hne : n.text = strip_trailing_spaces text
    · rw [update_text_eq_noop text hl hne] at h
      injection h with h
      subst h
      exact ⟨⟨⟨hroot, hstamp, hnd⟩, hb⟩, le_refl _⟩
    · rw [update_text_eq text hl hne] at h
      injection h with h
      subst h
      obtain ⟨pre, post, h1, h2⟩ := PNode.ids_modifyAt s.root nodeId
        (fun q => .mk q.id (strip_trailing_spaces text) q.parent_id
          (q.children.map (fun c =>
            c.setText (spaces (num_trailing_spaces text) ++ c.text)))) n
        hnd hl (by rw [PNode.id_mk])
      have hfids : (PNode.mk n.id (strip_trailing_spaces text) n.parent_id
          (n.children.map (fun c =>
            c.setText (spaces (num_trailing_spaces text) ++ c.text)))).ids = n.ids := by
        rw [PNode.ids_mk, PNode.idsL_map_setText_prepend, PNode.ids_decomp]
      rw [hfids] at h2
      rw [← h1] at h2
      refine ⟨WF_tree_updated ?_ (by rw [h2]; exact hnd) (by rw [h2]; exact hb), le_refl _⟩
      rw [PNode.modifyAt_parent_id _ _ _ (fun q => PNode.parent_id_mk ..)]
      exact hroot

theorem perm_pull_cons {a : Type} (pre M post : List a) (x : a) :
    (pre ++ (x :: M) ++ post).Perm (x :: (pre ++ M ++ post)) := by
  have h1 : pre ++ (x :: M) ++ post = pre ++ x :: (M ++ post) := by
    simp [List.append_assoc]
  have h2 : x :: (pre ++ M ++ post) = x :: (pre ++ (M ++ post)) := by
    simp [List.append_assoc]
  rw [h1, h2]
  exact List.perm_middle

theorem nodup_bound_of_tail_perm {old new : List Nat} {x b : Nat}
    (hperm : old.Perm (x :: new)) (hnd : old.Nodup) (hb : ∀ i ∈ old, i < b) :
    new.Nodup ∧ ∀ i ∈ new, i < b := by
  have h1 : (x :: new).Nodup := hperm.nodup_iff.1 hnd
  refine ⟨(List.nodup_cons.1 h1).2, ?_⟩
  intro i hi
  exact hb i (hperm.mem_iff.2 (List.mem_cons_of_mem _ hi))

theorem nodup_bound_of_cons_perm {old new : List Nat} {x b : Nat}
    (hperm : new.Perm (x :: old)) (hnd : old.Nodup) (hx : x ∉ old)
    (hb : ∀ i ∈ old, i < b) (hxb : x < b) :
    new.Nodup ∧ ∀ i ∈ new, i < b := by
  constructor
  · rw [hperm.nodup_iff]
    exact List.nodup_cons.2 ⟨hx, hnd⟩
  · intro i hi
    rcases List.mem_cons.1 (hperm.mem_iff.1 hi) with rfl | hi
    · exact hxb
    · exact hb i hi

theorem create_parent_eq_root {s : TreeState} {nodeId : Nat} {n : PNode}
    (hl : s.root.lookup nodeId = some n) (hpn : n.parent_id = none)
    (hn : n = s.root) :
    create_parent s nodeId
      = some (tree_updated
          { s with root := .mk s.nextId "" none [n.setParent (some s.nextId)],
                   nextId := s.nextId + 1 }) := by
  simp only [create_parent, hl, hpn]
  rw [if_pos hn]

theorem create_parent_eq {s : TreeState} {nodeId oldPid : Nat} {n p : PNode}
    (hl : s.root.lookup nodeId = some n) (hpn : n.parent_id = some oldPid)
    (hlp : s.root.lookup oldPid = some p) :
    create_parent s nodeId
      = some (tree_updated
          { s with
            root := s.root.modifyAt oldPid (fun q => q.setKids
              (q.children.map (fun c =>
                if c = n
                then .mk s.nextId "" (some oldPid) [n.setParent (some s.nextId)]
                else c))),
            nextId := s.nextId + 1 }) := by
  simp only [create_parent, hl, hpn, hlp]

theorem nodup_split_not_mem {a : Type} {l1 l2 : List a} {n : a}
    (h : (l1 ++ n :: l2).Nodup) : n ∉ l1 ∧ n ∉ l2 := by
  rw [List.nodup_append] at h
  constructor
  · intro hm
    exact h.2.2 hm (List.mem_cons_self _ _)
  · exact (List.nodup_cons.1 h.2.1).1

theorem WF_create_parent {s : TreeState} {nodeId : Nat} {s' : TreeState}
    (hw : WF s) (h : create_parent s nodeId = some s') :
    WF s' ∧ s.nextId ≤ s'.nextId := by
  obtain ⟨⟨hroot, hstamp, hnd⟩, hb⟩ := hw
  rcases hl : s.root.lookup nodeId with _ | n
  · rw [create_parent, hl] at h
    cases h
  rcases hpn : n.parent_id with _ | oldPid
  · by_cases hn : n = s.root
    · rw [create_parent_eq_root hl hpn hn] at h
      injection h with h
      subst h
      have hids : (PNode.mk s.nextId "" none [n.setParent (some s.nextId)]).ids
          = s.nextId :: s.root.ids := by
        rw [PNode.ids_mk, PNode.idsL_cons, PNode.idsL_nil, PNode.ids_setParent, hn]
        simp
      refine ⟨WF_tree_updated (by rw [PNode.parent_id_mk]) ?_ ?_, ?_⟩
      · rw [hids]
        exact List.nodup_cons.2 ⟨fun hm => absurd (hb _ hm) (by omega), hnd⟩
      · intro i him
        rw [hids] at him
        rcases List.mem_cons.1 him with rfl | him
        · show s.nextId < s.nextId + 1
          omega
        · have := hb i him
          show i < s.nextId + 1
          omega
      · show s.nextId ≤ s.nextId + 1
        omega
    · simp only [create_parent, hl, hpn] at h
      rw [if_neg hn] at h
      cases h
  · rcases hlp : s.root.lookup oldPid with _ | p
    · simp only [create_parent, hl, hpn, hlp] at h
      cases h
    rw [create_parent_eq hl hpn hlp] at h
    injection h with h
    subst h
    have hmem : n ∈ p.children :=
      PNode.mem_parent_children ⟨hroot, hstamp, hnd⟩ hl hpn hlp
    have hknd : p.children.Nodup :=
      PNode.kids_nodup_of_mem hnd (PNode.lookup_mem _ _ _ hlp)
    obtain ⟨l1, l2, hsplit⟩ := List.append_of_mem hmem
    have hnotm : n ∉ l1 ∧ n ∉ l2 := nodup_split_not_mem (hsplit ▸ hknd)
    have hmapeq : p.children.map (fun c =>
        if c = n
        then PNode.mk s.nextId "" (some oldPid) [n.setParent (some s.nextId)]
        else c) = l1 ++ PNode.mk s.nextId "" (some oldPid) [n.setParent (some s.nextId)] :: l2 := by
      rw [hsplit, List.map_append, List.map_cons, if_pos rfl,
        map_replace_eq l1 hnotm.1, map_replace_eq l2 hnotm.2]
    obtain ⟨pre, post, h1, h2⟩ := PNode.ids_modifyAt s.root oldPid
      (fun q => q.setKids (q.children.map (fun c =>
        if c = n
        then PNode.mk s.nextId "" (some oldPid) [n.setParent (some s.nextId)]
        else c))) p hnd hlp (PNode.id_setKids _ p)
    have hfids : (p.setKids (p.children.map (fun c =>
        if c = n
        then PNode.mk s.nextId "" (some oldPid) [n.setParent (some s.nextId)]
        else c))).ids
        = p.id :: (PNode.idsL l1 ++ (s.nextId :: (n.ids ++ PNode.idsL l2))) := by
      rw [PNode.ids_setKids, hmapeq, PNode.idsL_append, PNode.idsL_cons]
      have : (PNode.mk s.nextId "" (some oldPid) [n.setParent (some s.nextId)]).ids
          = s.nextId :: n.ids := by
        rw [PNode.ids_mk, PNode.idsL_cons, PNode.idsL_nil, PNode.ids_setParent]
        simp
      rw [this]
      simp
    have holdids : p.ids = p.id :: (PNode.idsL l1 ++ (n.ids ++ PNode.idsL l2)) := by
      rw [PNode.ids_decomp, hsplit, PNode.idsL_append, PNode.idsL_cons]
    have hmid : (p.setKids (p.children.map (fun c =>
        if c = n
        then PNode.mk s.nextId "" (some oldPid) [n.setParent (some s.nextId)]
        else c))).ids.Perm (s.nextId :: p.ids) := by
      rw [hfids, holdids]
      have hstep : (PNode.idsL l1 ++ (s.nextId :: (n.ids ++ PNode.idsL l2))).Perm
          (s.nextId :: (PNode.idsL l1 ++ (n.ids ++ PNode.idsL l2))) := List.perm_middle
      exact (hstep.cons p.id).trans (List.Perm.swap _ _ _)
    have hfull : (s.root.modifyAt oldPid (fun q => q.setKids (q.children.map (fun c =>
        if c = n
        then PNode.mk s.nextId "" (some oldPid) [n.setParent (some s.nextId)]
        else c)))).ids.Perm (s.nextId :: s.root.ids) := by
      rw [h2, h1]
      exact ((hmid.append_left pre).append_right post).trans (perm_pull_cons _ _ _ _)
    have hx1 : s.nextId ∉ s.root.ids := fun hm => absurd (hb _ hm) (by omega)
    have hb1 : ∀ i ∈ s.root.ids, i < s.nextId + 1 := fun i hi => by
      have := hb i hi
      omega
    obtain ⟨hnd', hb'⟩ := nodup_bound_of_cons_perm hfull hnd hx1 hb1
      (by omega : s.nextId < s.nextId + 1)
    refine ⟨WF_tree_updated ?_ hnd' hb', ?_⟩
    · rw [PNode.modifyAt_parent_id _ _ _ (fun q => PNode.parent_id_setKids _ q)]
      exact hroot
    · show s.nextId ≤ s.nextId + 1
      omega

theorem merge_with_parent_eq {s : TreeState} {nodeId pid k : Nat} {n p : PNode}
    (hl : s.root.lookup nodeId = some n) (hpn : n.parent_id = some pid)
    (hlp : s.root.lookup pid = some p) (hk : list_index p.children n = some k) :
    merge_with_parent s nodeId
      = some (tree_updated (select_node
          { s with root := s.root.modifyAt pid (fun q =>
              .mk q.id (q.text ++ n.text) q.parent_id
                (q.children.take k ++ n.children.map (PNode.setParent (some pid))
                  ++ q.children.drop (k + 1))) } pid)) := by
  simp only [merge_with_parent, hl, hpn, hlp, hk]

theorem WF_merge_with_parent {s : TreeState} {nodeId : Nat} {s' : TreeState}
    (hw : WF s) (h : merge_with_parent s nodeId = some s') :
    WF s' ∧ s.nextId ≤ s'.nextId := by
  obtain ⟨⟨hroot, hstamp, hnd⟩, hb⟩ := hw
  rcases hl : s.root.lookup nodeId with _ | n
  · rw [merge_with_parent, hl] at h
    cases h
  rcases hpn : n.parent_id with _ | pid
  · simp only [merge_with_parent, hl, hpn] at h
    cases h
  rcases hlp : s.root.lookup pid with _ | p
  · simp only [merge_with_parent, hl, hpn, hlp] at h
    cases h
  rcases hk : list_index p.children n with _ | k
  · simp only [merge_with_parent, hl, hpn, hlp, hk] at h
    cases h
  rw [merge_with_parent_eq hl hpn hlp hk] at h
  injection h with h
  subst h
  obtain ⟨l1, l2, hsplit, hlen, -⟩ := list_index_decomp p.children n k hk
  have htake : p.children.take k = l1 := by
    rw [hsplit, ← hlen]
    exact List.take_left l1 (n :: l2)
  have hdrop : p.children.drop (k + 1) = l2 := by
    rw [hsplit]
    have : l1 ++ n :: l2 = (l1 ++ [n]) ++ l2 := by simp
    rw [this]
    exact List.drop_left' (by simp [hlen])
  obtain ⟨pre, post, h1, h2⟩ := PNode.ids_modifyAt s.root pid
    (fun q => .mk q.id (q.text ++ n.text) q.parent_id
      (q.children.take k ++ n.children.map (PNode.setParent (some pid))
        ++ q.children.drop (k + 1))) p hnd hlp (PNode.id_mk ..)
  have hfids : (PNode.mk p.id (p.text ++ n.text) p.parent_id
      (p.children.take k ++ n.children.map (PNode.setParent (some pid))
        ++ p.children.drop (k + 1))).ids
      = p.id :: ((PNode.idsL l1 ++ PNode.idsL n.children) ++ PNode.idsL l2) := by
    rw [PNode.ids_mk, htake, hdrop, PNode.idsL_append, PNode.idsL_append,
      PNode.idsL_map_setParent]
  have holdids : p.ids = p.id :: (PNode.idsL l1
      ++ (n.id :: (PNode.idsL n.children ++ PNode.idsL l2))) := by
    rw [PNode.ids_decomp, hsplit, PNode.idsL_append, PNode.idsL_cons, PNode.ids_decomp]
    simp
  have hmid : p.ids.Perm (n.id :: (PNode.mk p.id (p.text ++ n.text) p.parent_id
      (p.children.take k ++ n.children.map (PNode.setParent (some pid))
        ++ p.children.drop (k + 1))).ids) := by
    rw [hfids, holdids]
    have hstep : (PNode.idsL l1 ++ (n.id :: (PNode.idsL n.children ++ PNode.idsL l2))).Perm
        (n.id :: (PNode.idsL l1 ++ (PNode.idsL n.children ++ PNode.idsL l2))) :=
      List.perm_middle
    refine ((hstep.cons p.id).trans (List.Perm.swap _ _ _)).trans ?_
    have : (PNode.idsL l1 ++ PNode.idsL n.children) ++ PNode.idsL l2
        = PNode.idsL l1 ++ (PNode.idsL n.children ++ PNode.idsL l2) := by
      simp [List.append_assoc]
    rw [this]
  have hfull : s.root.ids.Perm (n.id :: (s.root.modifyAt pid (fun q =>
      .mk q.id (q.text ++ n.text) q.parent_id
        (q.children.take k ++ n.children.map (PNode.setParent (some pid))
          ++ q.children.drop (k + 1)))).ids) := by
    rw [h2, h1]
    exact ((hmid.append_left pre).append_right post).trans (perm_pull_cons _ _ _ _)
  obtain ⟨hnd', hb'⟩ := nodup_bound_of_tail_perm hfull hnd hb
  have hpar : (s.root.modifyAt pid (fun q =>
      .mk q.id (q.text ++ n.text) q.parent_id
        (q.children.take k ++ n.children.map (PNode.setParent (some pid))
          ++ q.children.drop (k + 1)))).parent_id = none := by
    rw [PNode.modifyAt_parent_id _ _ _ (fun q => PNode.parent_id_mk ..)]
    exact hroot
  refine ⟨WF_tree_updated ?_ ?_ ?_, le_of_eq ?_⟩
  · rw [select_node_root]
    exact hpar
  · rw [select_node_root]
    exact hnd'
  · rw [select_node_root, select_node_nextId]
    exact hb'
  · rw [tree_updated_nextId, select_node_nextId]

theorem perm_pull_seg {a : Type} (pre M post S : List a) :
    (pre ++ (S ++ M) ++ post).Perm (S ++ (pre ++ M ++ post)) := by
  have e1 : pre ++ (S ++ M) ++ post = pre ++ (S ++ (M ++ post)) := by
    simp [List.append_assoc]
  have e2 : S ++ (pre ++ M ++ post) = S ++ (pre ++ (M ++ post)) := by
    simp [List.append_assoc]
  rw [e1, e2]
  exact List.perm_append_comm_assoc pre S (M ++ post)

theorem nodup_bound_of_seg_perm {old new seg : List Nat} {b : Nat}
    (hperm : old.Perm (seg ++ new)) (hnd : old.Nodup) (hb : ∀ i ∈ old, i < b) :
    new.Nodup ∧ ∀ i ∈ new, i < b := by
  have h1 : (seg ++ new).Nodup := hperm.nodup_iff.1 hnd
  exact ⟨(List.nodup_append.1 h1).2.1,
    fun i hi => hb i (hperm.mem_iff.2 (List.mem_append.2 (Or.inr hi)))⟩

theorem WF_tree_updated_of_eq {s2 : TreeState} {t1 : PNode} {b : Nat}
    (hr : s2.root = t1) (hn : s2.nextId = b)
    (hpar : t1.parent_id = none) (hnd1 : t1.ids.Nodup)
    (hb1 : ∀ i ∈ t1.ids, i < b) : WF (tree_updated s2) := by
  refine WF_tree_updated ?_ ?_ ?_
  · rw [hr]; exact hpar
  · rw [hr]; exact hnd1
  · rw [hr, hn]; exact hb1

theorem WF_branch_tree_updated (s1 : TreeState) (c : Bool) (x : Nat) (o : Option PNode)
    (hpar : s1.root.parent_id = none) (hnd1 : s1.root.ids.Nodup)
    (hb1 : ∀ i ∈ s1.root.ids, i < s1.nextId) :
    WF (tree_updated (if c = true then select_node s1 x
      else
        match o with
        | some sib => select_node s1 sib.id
        | none => s1))
    ∧ (tree_updated (if c = true then select_node s1 x
      else
        match o with
        | some sib => select_node s1 sib.id
        | none => s1)).nextId = s1.nextId := by
  constructor
  · split
    · exact WF_tree_updated_of_eq (select_node_root _ _) (select_node_nextId _ _)
        hpar hnd1 hb1
    · split
      · exact WF_tree_updated_of_eq (select_node_root _ _) (select_node_nextId _ _)
          hpar hnd1 hb1
      · exact WF_tree_updated_of_eq rfl rfl hpar hnd1 hb1
  · rw [tree_updated_nextId]
    split
    · rw [select_node_nextId]
    · split
      · rw [select_node_nextId]
      · rfl

theorem WF_delete_node {s : TreeState} {nodeId : Nat} {r : Bool} {s' : TreeState}
    (hw : WF s) (h : delete_node s nodeId r = some s') :
    WF s' ∧ s.nextId ≤ s'.nextId := by
  obtain ⟨⟨hroot, hstamp, hnd⟩, hb⟩ := hw
  rcases hl : s.root.lookup nodeId with _ | n
  · rw [delete_node, hl] at h
    cases h
  rcases hpn : n.parent_id with _ | pid
  · simp only [delete_node, hl, hpn] at h
    injection h with h
    subst h
    exact ⟨⟨⟨hroot, hstamp, hnd⟩, hb⟩, le_refl _⟩
  rcases hlp : s.root.lookup pid with _ | p
  · simp only [delete_node, hl, hpn, hlp] at h
    cases h
  rcases hk : list_index p.children n with _ | k
  · simp only [delete_node, hl, hpn, hlp, hk] at h
    cases h
  obtain ⟨l1, l2, hsplit, hlen, -⟩ := list_index_decomp p.children n k hk
  have htake : p.children.take k = l1 := by
    rw [hsplit, ← hlen]
    exact List.take_left l1 (n :: l2)
  have hdrop : p.children.drop (k + 1) = l2 := by
    rw [hsplit]
    have he : l1 ++ n :: l2 = (l1 ++ [n]) ++ l2 := by simp
    rw [he]
    exact List.drop_left' (by simp [hlen])
  have holdids : p.ids = p.id :: (PNode.idsL l1
      ++ (n.ids ++ PNode.idsL l2)) := by
    rw [PNode.ids_decomp, hsplit, PNode.idsL_append, PNode.idsL_cons]
  cases r with
  | false =>
    simp only [delete_node, hl, hpn, hlp, hk, Bool.false_eq_true, if_false,
      Bool.false_or] at h
    injection h with h
    subst h
    obtain ⟨pre, post, h1, h2⟩ := PNode.ids_modifyAt s.root pid
      (fun q => q.setKids (p.children.take k ++ p.children.drop (k + 1))) p
      hnd hlp (PNode.id_setKids _ p)
    have hfids : (p.setKids (p.children.take k ++ p.children.drop (k + 1))).ids
        = p.id :: (PNode.idsL l1 ++ PNode.idsL l2) := by
      rw [PNode.ids_setKids, htake, hdrop, PNode.idsL_append]
    have hmid : p.ids.Perm (n.ids
        ++ (p.setKids (p.children.take k ++ p.children.drop (k + 1))).ids) := by
      rw [hfids, holdids]
      have hs1 : (PNode.idsL l1 ++ (n.ids ++ PNode.idsL l2)).Perm
          (n.ids ++ (PNode.idsL l1 ++ PNode.idsL l2)) :=
        List.perm_append_comm_assoc _ _ _
      refine (hs1.cons p.id).trans ?_
      exact List.perm_append_comm_assoc [p.id] n.ids _
    have hfull : s.root.ids.Perm (n.ids ++ (s.root.modifyAt pid
        (fun q => q.setKids (p.children.take k ++ p.children.drop (k + 1)))).ids) := by
      rw [h2, h1]
      exact ((hmid.append_left pre).append_right post).trans (perm_pull_seg _ _ _ _)
    obtain ⟨hnd1, hb1⟩ := nodup_bound_of_seg_perm hfull hnd hb
    have hpar : (s.root.modifyAt pid
        (fun q => q.setKids (p.children.take k ++ p.children.drop (k + 1)))).parent_id
        = none := by
      rw [PNode.modifyAt_parent_id _ _ _ (fun q => PNode.parent_id_setKids _ q)]
      exact hroot
    constructor
    · exact (WF_branch_tree_updated _ _ _ _ hpar hnd1 hb1).1
    · rw [(WF_branch_tree_updated _ _ _ _ hpar hnd1 hb1).2]
  | true =>
    simp only [delete_node, hl, hpn, hlp, hk, Bool.true_or, eq_self_iff_true,
      if_true] at h
    injection h with h
    subst h
    obtain ⟨pre, post, h1, h2⟩ := PNode.ids_modifyAt s.root pid
      (fun q => q.setKids (p.children.take k ++ p.children.drop (k + 1) ++ n.children)) p
      hnd hlp (PNode.id_setKids _ p)
    have hfids : (p.setKids (p.children.take k ++ p.children.drop (k + 1)
        ++ n.children)).ids
        = p.id :: ((PNode.idsL l1 ++ PNode.idsL l2) ++ PNode.idsL n.children) := by
      rw [PNode.ids_setKids, htake, hdrop, PNode.idsL_append, PNode.idsL_append]
    have hmid : p.ids.Perm (n.id :: (p.setKids (p.children.take k
        ++ p.children.drop (k + 1) ++ n.children)).ids) := by
      rw [hfids, holdids]
      have he : PNode.idsL l1 ++ (n.ids ++ PNode.idsL l2)
          = PNode.idsL l1 ++ (n.id :: (PNode.idsL n.children ++ PNode.idsL l2)) := by
        rw [PNode.ids_decomp]
        simp
      rw [he]
      have hstep : (PNode.idsL l1 ++ (n.id :: (PNode.idsL n.children
          ++ PNode.idsL l2))).Perm
          (n.id :: (PNode.idsL l1 ++ (PNode.idsL n.children ++ PNode.idsL l2))) :=
        List.perm_middle
      refine ((hstep.cons p.id).trans (List.Perm.swap _ _ _)).trans ?_
      refine List.Perm.cons _ (List.Perm.cons _ ?_)
      have hcomm : (PNode.idsL n.children ++ PNode.idsL l2).Perm
          (PNode.idsL l2 ++ PNode.idsL n.children) := List.perm_append_comm
      refine (hcomm.append_left (PNode.idsL l1)).trans (List.Perm.of_eq ?_)
      simp [List.append_assoc]
    have hfull : s.root.ids.Perm (n.id :: (s.root.modifyAt pid
        (fun q => q.setKids (p.children.take k ++ p.children.drop (k + 1)
          ++ n.children))).ids) := by
      rw [h2, h1]
      exact ((hmid.append_left pre).append_right post).trans (perm_pull_cons _ _ _ _)
    obtain ⟨hnd1, hb1⟩ := nodup_bound_of_tail_perm hfull hnd hb
    have hpar : (s.root.modifyAt pid
        (fun q => q.setKids (p.children.take k ++ p.children.drop (k + 1)
          ++ n.children))).parent_id = none := by
      rw [PNode.modifyAt_parent_id _ _ _ (fun q => PNode.parent_id_setKids _ q)]
      exact hroot
    constructor
    · exact WF_tree_updated_of_eq (select_node_root _ _) (select_node_nextId _ _)
        hpar hnd1 hb1
    · rw [tree_updated_nextId, select_node_nextId]

theorem PNode.stampedOk_setText (x : String) (c : PNode) :
    (c.setText x).stampedOk = c.stampedOk := by
  cases c; rfl

theorem PNode.parent_id_setText' (x : String) (c : PNode) :
    (c.setText x).parent_id = c.parent_id := by
  cases c; rfl

theorem PNode.stampedOkL_map_setTexts (j : Nat) (g : PNode → String) :
    ∀ cs : List PNode,
    PNode.stampedOkL j (cs.map (fun c => c.setText (g c))) = PNode.stampedOkL j cs := by
  intro cs
  induction cs with
  | nil => rfl
  | cons c cs ih =>
    simp only [List.map_cons, PNode.stampedOkL_cons, ih,
      PNode.stampedOk_setText, PNode.parent_id_setText']

mutual

theorem PNode.stampedOk_modifyAt : ∀ t : PNode, ∀ i : Nat, ∀ f : PNode → PNode,
    (∀ q, (f q).parent_id = q.parent_id) →
    (∀ q, q.id = i → q.stampedOk = true → (f q).stampedOk = true) →
    t.stampedOk = true → (t.modifyAt i f).stampedOk = true
  | .mk j tx p cs => by
    intro i f hfp hfs hs
    rw [PNode.modifyAt_mk]
    by_cases hji : j = i
    · rw [if_pos hji]
      exact hfs _ (by rw [PNode.id_mk]; exact hji) hs
    · rw [if_neg hji, PNode.stampedOk_mk]
      rw [PNode.stampedOk_mk] at hs
      exact PNode.stampedOkL_modifyAtL cs j i f hfp hfs hs

theorem PNode.stampedOkL_modifyAtL : ∀ cs : List PNode, ∀ j i : Nat, ∀ f : PNode → PNode,
    (∀ q, (f q).parent_id = q.parent_id) →
    (∀ q, q.id = i → q.stampedOk = true → (f q).stampedOk = true) →
    PNode.stampedOkL j cs = true → PNode.stampedOkL j (PNode.modifyAtL i f cs) = true
  | [], j, i, f => by
    intro _ _ _
    rfl
  | c :: cs, j, i, f => by
    intro hfp hfs hs
    rw [PNode.modifyAtL_cons, PNode.stampedOkL_cons]
    rw [PNode.stampedOkL_cons] at hs
    simp only [Bool.and_eq_true, beq_iff_eq] at hs ⊢
    refine ⟨⟨?_, PNode.stampedOk_modifyAt c i f hfp hfs hs.1.2⟩,
      PNode.stampedOkL_modifyAtL cs j i f hfp hfs hs.2⟩
    rw [PNode.modifyAt_parent_id c i f hfp]
    exact hs.1.1

end

theorem WF_merge_with_children {s : TreeState} {nodeId : Nat} {s' : TreeState}
    (hw : WF s) (h : merge_with_children s nodeId = some s') :
    WF s' ∧ s.nextId ≤ s'.nextId := by
  obtain ⟨⟨hroot, hstamp, hnd⟩, hb⟩ := hw
  rcases hl : s.root.lookup nodeId with _ | n
  · rw [merge_with_children, hl] at h
    cases h
  simp only [merge_with_children, hl] at h
  have hfp : ∀ q : PNode, (PNode.setKids
      (q.children.map (fun c => c.setText (n.text ++ c.text))) q).parent_id
      = q.parent_id := fun q => PNode.parent_id_setKids _ q
  have hfs : ∀ q : PNode, q.id = nodeId → q.stampedOk = true → (PNode.setKids
      (q.children.map (fun c => c.setText (n.text ++ c.text))) q).stampedOk = true := by
    intro q _ hq
    cases q with
    | mk j tx p cs =>
      rw [PNode.children_mk, PNode.setKids]
      rw [PNode.stampedOk_mk] at hq ⊢
      rw [PNode.stampedOkL_map_setTexts j (fun c => n.text ++ c.text) cs]
      exact hq
  obtain ⟨pre, post, h1, h2⟩ := PNode.ids_modifyAt s.root nodeId
    (fun q => q.setKids (q.children.map (fun c => c.setText (n.text ++ c.text)))) n
    hnd hl (PNode.id_setKids _ n)
  have hfids : (n.setKids (n.children.map
      (fun c => c.setText (n.text ++ c.text)))).ids = n.ids := by
    rw [PNode.ids_setKids, PNode.idsL_map_setText_prepend, PNode.ids_decomp]
  rw [hfids, ← h1] at h2
  have hw1 : WF { s with root := s.root.modifyAt nodeId (fun q => q.setKids (q.children.map (fun c => c.setText (n.text ++ c.text)))) } := by
    refine ⟨⟨?_, ?_, ?_⟩, ?_⟩
    · rw [PNode.modifyAt_parent_id _ _ _ hfp]
      exact hroot
    · exact PNode.stampedOk_modifyAt _ _ _ hfp hfs hstamp
    · rw [h2]
      exact hnd
    · rw [h2]
      exact hb
  obtain ⟨hwf2, hle2⟩ := WF_delete_node hw1 h
  exact ⟨hwf2, hle2⟩

theorem WF_change_parent {s : TreeState} {nodeId newPid : Nat} {s' : TreeState}
    (hw : WF s) (h : change_parent s nodeId newPid = some s') :
    WF s' ∧ s.nextId ≤ s'.nextId := by
  obtain ⟨⟨hroot, hstamp, hnd⟩, hb⟩ := hw
  rcases hl : s.root.lookup nodeId with _ | n
  · rw [change_parent, hl] at h
    cases h
  by_cases hid : n.id = newPid
  · simp only [change_parent, hl, if_pos hid] at h
    injection h with h
    subst h
    exact ⟨⟨⟨hroot, hstamp, hnd⟩, hb⟩, le_refl _⟩
  rcases hpn : n.parent_id with _ | oldPid
  · by_cases hn : n = s.root
    · simp only [change_parent, hl, if_neg hid, hpn, if_pos hn] at h
      injection h with h
      subst h
      exact ⟨⟨⟨hroot, hstamp, hnd⟩, hb⟩, le_refl _⟩
    · simp only [change_parent, hl, if_neg hid, hpn, if_neg hn] at h
      cases h
  by_cases hsame : newPid = oldPid
  · simp only [change_parent, hl, if_neg hid, hpn, if_pos hsame] at h
    injection h with h
    subst h
    exact ⟨⟨⟨hroot, hstamp, hnd⟩, hb⟩, le_refl _⟩
  rcases hlp : s.root.lookup oldPid with _ | p
  · simp only [change_parent, hl, if_neg hid, hpn, if_neg hsame, hlp] at h
    cases h
  rcases hk : list_index p.children n with _ | k
  · simp only [change_parent, hl, if_neg hid, hpn, if_neg hsame, hlp, hk] at h
    cases h
  rcases hlnew : s.root.lookup newPid with _ | m0
  · simp only [change_parent, hl, if_neg hid, hpn, if_neg hsame, hlp, hk, hlnew] at h
    cases h
  simp only [change_parent, hl, if_neg hid, hpn, if_neg hsame, hlp, hk, hlnew] at h
  injection h with h
  subst h
  obtain ⟨l1, l2, hsplit, hlen, -⟩ := list_index_decomp p.children n k hk
  have htake : p.children.take k = l1 := by
    rw [hsplit, ← hlen]
    exact List.take_left l1 (n :: l2)
  have hdrop : p.children.drop (k + 1) = l2 := by
    rw [hsplit]
    have he : l1 ++ n :: l2 = (l1 ++ [n]) ++ l2 := by simp
    rw [he]
    exact List.drop_left' (by simp [hlen])
  have holdids : p.ids = p.id :: (PNode.idsL l1 ++ (n.ids ++ PNode.idsL l2)) := by
    rw [PNode.ids_decomp, hsplit, PNode.idsL_append, PNode.idsL_cons]
  obtain ⟨pre, post, h1, h2⟩ := PNode.ids_modifyAt s.root oldPid
    (fun q => q.setKids (q.children.take k ++ q.children.drop (k + 1))) p
    hnd hlp (PNode.id_setKids _ p)
  have hfids : (p.setKids (p.children.take k ++ p.children.drop (k + 1))).ids
      = p.id :: (PNode.idsL l1 ++ PNode.idsL l2) := by
    rw [PNode.ids_setKids, htake, hdrop, PNode.idsL_append]
  have hmid : p.ids.Perm (n.ids
      ++ (p.setKids (p.children.take k ++ p.children.drop (k + 1))).ids) := by
    rw [hfids, holdids]
    have hs1 : (PNode.idsL l1 ++ (n.ids ++ PNode.idsL l2)).Perm
        (n.ids ++ (PNode.idsL l1 ++ PNode.idsL l2)) :=
      List.perm_append_comm_assoc _ _ _
    refine (hs1.cons p.id).trans ?_
    exact List.perm_append_comm_assoc [p.id] n.ids _
  have hfull : s.root.ids.Perm (n.ids ++ (s.root.modifyAt oldPid
      (fun q => q.setKids (q.children.take k ++ q.children.drop (k + 1)))).ids) := by
    rw [h2, h1]
    exact ((hmid.append_left pre).append_right post).trans (perm_pull_seg _ _ _ _)
  obtain ⟨hnd1, hb1⟩ := nodup_bound_of_seg_perm hfull hnd hb
  have hndfull : (n.ids ++ (s.root.modifyAt oldPid
      (fun q => q.setKids (q.children.take k ++ q.children.drop (k + 1)))).ids).Nodup :=
    hfull.nodup_iff.1 hnd
  have hnids : n.ids.Nodup := (List.nodup_append.1 hndfull).1
  have hdisj : ∀ x ∈ n.ids, x ∉ (s.root.modifyAt oldPid
      (fun q => q.setKids (q.children.take k ++ q.children.drop (k + 1)))).ids :=
    fun x hx hm => (List.nodup_append.1 hndfull).2.2 hx hm
  have hbn : ∀ x ∈ n.ids, x < s.nextId :=
    fun x hx => hb x (hfull.mem_iff.2 (List.mem_append.2 (Or.inl hx)))
  have hpar1 : (s.root.modifyAt oldPid
      (fun q => q.setKids (q.children.take k ++ q.children.drop (k + 1)))).parent_id
      = none := by
    rw [PNode.modifyAt_parent_id _ _ _ (fun q => PNode.parent_id_setKids _ q)]
    exact hroot
  by_cases hmem2 : newPid ∈ (s.root.modifyAt oldPid
      (fun q => q.setKids (q.children.take k ++ q.children.drop (k + 1)))).ids
  · rcases hl2 : (s.root.modifyAt oldPid
        (fun q => q.setKids (q.children.take k ++ q.children.drop (k + 1)))).lookup newPid
      with _ | m
    · exact absurd hmem2 ((PNode.lookup_eq_none_iff _ _).1 hl2)
    obtain ⟨pre2, post2, h3, h4⟩ := PNode.ids_modifyAt _ newPid
      (fun q => q.setKids (q.children ++ [n.setParent (some newPid)])) m
      hnd1 hl2 (PNode.id_setKids _ m)
    have hfids2 : (m.setKids (m.children ++ [n.setParent (some newPid)])).ids
        = m.ids ++ n.ids := by
      rw [PNode.ids_setKids, PNode.idsL_append, PNode.idsL_cons, PNode.idsL_nil,
        PNode.ids_setParent]
      rw [PNode.ids_decomp n, PNode.ids_decomp m]
      simp
    rw [hfids2] at h4
    have hnd2 : ((s.root.modifyAt oldPid
        (fun q => q.setKids (q.children.take k ++ q.children.drop (k + 1)))).modifyAt newPid
        (fun q => q.setKids (q.children ++ [n.setParent (some newPid)]))).ids.Nodup := by
      rw [h4]
      refine nodup_mid_insert (by rw [← h3]; exact hnd1) hnids ?_
      intro x hx hm
      rw [← h3] at hm
      exact hdisj x hx hm
    have hb2 : ∀ i ∈ ((s.root.modifyAt oldPid
        (fun q => q.setKids (q.children.take k ++ q.children.drop (k + 1)))).modifyAt newPid
        (fun q => q.setKids (q.children ++ [n.setParent (some newPid)]))).ids,
        i < s.nextId := by
      intro i hi
      rw [h4] at hi
      rcases List.mem_append.1 hi with hi | hi
      · rcases List.mem_append.1 hi with hi | hi
        · exact hb1 i (by rw [h3]; exact List.mem_append.2 (Or.inl (List.mem_append.2 (Or.inl hi))))
        · rcases List.mem_append.1 hi with hi | hi
          · exact hb1 i (by rw [h3]; exact List.mem_append.2 (Or.inl (List.mem_append.2 (Or.inr hi))))
          · exact hbn i hi
      · exact hb1 i (by rw [h3]; exact List.mem_append.2 (Or.inr hi))
    refine ⟨WF_tree_updated ?_ hnd2 hb2, le_refl _⟩
    rw [PNode.modifyAt_parent_id _ _ _ (fun q => PNode.parent_id_setKids _ q)]
    exact hpar1
  · rw [PNode.modifyAt_of_not_mem _ _ _ hmem2]
    exact ⟨WF_tree_updated hpar1 hnd1 hb1, le_refl _⟩

theorem WF_create_sibling {s : TreeState} {nodeId : Nat} {u : Bool} {s' : TreeState}
    (hw : WF s) (h : create_sibling s nodeId u = some s') :
    WF s' ∧ s.nextId ≤ s'.nextId := by
  rcases hl : s.root.lookup nodeId with _ | n
  · rw [create_sibling, hl] at h
    cases h
  rcases hpn : n.parent_id with _ | pid
  · simp only [create_sibling, hl, hpn] at h
    cases h
  rcases hlp : s.root.lookup pid with _ | p
  · simp only [create_sibling, hl, hpn, hlp] at h
    cases h
  simp only [create_sibling, hl, hpn, hlp] at h
  exact WF_create_child hw h

theorem applyEdit_WF {s : TreeState} {e : Edit} {s' : TreeState}
    (hw : WF s) (h : applyEdit s e = some s') : WF s' := by
  cases e with
  | create_child p => exact (WF_create_child hw h).1
  | create_sibling x => exact (WF_create_sibling hw h).1
  | create_parent x => exact (WF_create_parent hw h).1
  | merge_with_parent x => exact (WF_merge_with_parent hw h).1
  | merge_with_children x => exact (WF_merge_with_children hw h).1
  | change_parent x y => exact (WF_change_parent hw h).1
  | delete_node x r => exact (WF_delete_node hw h).1

theorem applyEdits_WF {s : TreeState} {es : List Edit} {s' : TreeState}
    (hw : WF s) (h : applyEdits s es = some s') : WF s' := by
  induction es generalizing s with
  | nil =>
    rw [applyEdits] at h
    injection h with h
    subst h
    exact hw
  | cons e es ih =>
    rw [applyEdits] at h
    rcases he : applyEdit s e with _ | s1
    · rw [he] at h
      cases h
    · rw [he] at h
      exact ih (applyEdit_WF hw he) h

theorem applyEdits_append {s : TreeState} {es1 es2 : List Edit} {s' : TreeState}
    (h : applyEdits s (es1 ++ es2) = some s') :
    ∃ s1, applyEdits s es1 = some s1 ∧ applyEdits s1 es2 = some s' := by
  induction es1 generalizing s with
  | nil => exact ⟨s, rfl, h⟩
  | cons e es1 ih =>
    rw [List.cons_append, applyEdits] at h
    rcases he : applyEdit s e with _ | sm
    · rw [he] at h
      cases h
    · rw [he] at h
      obtain ⟨s1, h1, h2⟩ := ih h
      refine ⟨s1, ?_, h2⟩
      rw [applyEdits, he]
      exact h1

/-- C1: starting from any tree satisfying the structural invariants (exactly
one root without a `parent_id`, every non-root node's `parent_id` resolving
to a node whose children list contains it exactly once, unique ids — and,
reflecting uuid1's global uniqueness, a fresh id supply above every id in
use), after any sequence of structural edits drawn from {create_child,
create_sibling, create_parent, merge_with_parent, merge_with_children,
change_parent, delete_node} whose preconditions hold (every failed lookup,
`list.index`, or assertion is modelled as `none`, and the run is assumed to
return `some`; the guarded root cases are silent no-ops), the invariants
hold — both in the final state and after every edit of the sequence (every
prefix). -/
theorem claim_C1_invariant_preservation (s : TreeState)
    (hInv : Invariant s.root) (hFresh : ∀ i ∈ s.root.ids, i < s.nextId)
    (es : List Edit) (s' : TreeState) (h : applyEdits s es = some s') :
    Invariant s'.root
    ∧ ∀ es1 es2, es = es1 ++ es2 →
        ∃ s1, applyEdits s es1 = some s1 ∧ Invariant s1.root := by
  have hw : WF s := ⟨hInv.wft, hFresh⟩
  constructor
  · exact (applyEdits_WF hw h).1.invariant
  · intro es1 es2 hsplit
    subst hsplit
    obtain ⟨s1, h1, -⟩ := applyEdits_append h
    exact ⟨s1, h1, (applyEdits_WF hw h1).1.invariant⟩

/-- A concrete starting tree for the C1 witness. -/
def s0w : TreeState :=
  ⟨.mk 0 "r" none [.mk 1 "a" (some 0) [.mk 3 "c" (some 1) []],
    .mk 2 "b" (some 0) []], some 0, 10, 0⟩

/-- A concrete edit sequence for the witness. -/
def esw : List Edit :=
  [.create_child 1, .merge_with_parent 3, .delete_node 2 false]

set_option maxHeartbeats 1000000 in
theorem claim_C1_invariant_preservation_witness :
    Invariant s0w.root ∧ (∀ i ∈ s0w.root.ids, i < s0w.nextId)
    ∧ ∃ s', applyEdits s0w esw = some s' ∧ Invariant s'.root := by
  refine ⟨by decide, by decide, ?_⟩
  rcases hs : applyEdits s0w esw with _ | s'
  · exact absurd hs (by decide)
  · exact ⟨s', rfl,
      (claim_C1_invariant_preservation s0w (by decide) (by decide) esw s' hs).1⟩

theorem PNode.stampedOk_setParent (p : Option Nat) (c : PNode) :
    (c.setParent p).stampedOk = c.stampedOk := by
  cases c; rfl

theorem PNode.stampedOkL_sublist {j : Nat} : ∀ {l l' : List PNode}, l'.Sublist l →
    PNode.stampedOkL j l = true → PNode.stampedOkL j l' = true := by
  intro l l' hsub
  induction hsub with
  | slnil => intro h; exact h
  | cons a hs ih =>
    intro h
    rw [PNode.stampedOkL_cons] at h
    simp only [Bool.and_eq_true] at h
    exact ih h.2
  | cons₂ a hs ih =>
    intro h
    rw [PNode.stampedOkL_cons] at h ⊢
    simp only [Bool.and_eq_true] at h ⊢
    exact ⟨h.1, ih h.2⟩

theorem PNode.stampedOkL_map_setParent_of {j : Nat} {cs : List PNode}
    (h : ∀ c ∈ cs, c.stampedOk = true) :
    PNode.stampedOkL j (cs.map (PNode.setParent (some j))) = true := by
  induction cs with
  | nil => rfl
  | cons c cs ih =>
    rw [List.map_cons, PNode.stampedOkL_cons]
    simp only [Bool.and_eq_true, beq_iff_eq]
    refine ⟨⟨?_, ?_⟩, ih (fun d hd => h d (List.mem_cons_of_mem _ hd))⟩
    · cases c; rfl
    · rw [PNode.stampedOk_setParent]
      exact h c (List.mem_cons_self _ _)

mutual

theorem PNode.stampWith_eq_some : ∀ t : PNode, ∀ j : Nat, t.parent_id = some j →
    t.stampedOk = true → t.stampWith (some j) = t
  | .mk i tx p cs => by
    intro j hp hs
    rw [PNode.parent_id_mk] at hp
    rw [PNode.stampedOk_mk] at hs
    rw [PNode.stampWith_mk, PNode.stampKids_eq cs i hs, hp]

theorem PNode.stampKids_eq : ∀ cs : List PNode, ∀ j : Nat,
    PNode.stampedOkL j cs = true → PNode.stampKids j cs = cs
  | [], j => by
    intro _
    rfl
  | c :: cs, j => by
    intro hs
    rw [PNode.stampedOkL_cons] at hs
    simp only [Bool.and_eq_true, beq_iff_eq] at hs
    rw [PNode.stampKids_cons, PNode.stampWith_eq_some c j hs.1.1 hs.1.2,
      PNode.stampKids_eq cs j hs.2]

end

/-- On an already consistently stamped tree, `tree_updated`'s restamping is
the identity. -/
theorem PNode.restamp_eq {t : PNode} (hs : t.stampedOk = true) : t.restamp = t := by
  cases t with
  | mk i tx p cs =>
    rw [PNode.stampedOk_mk] at hs
    rw [PNode.restamp, PNode.stampWith_mk, PNode.stampKids_eq cs i hs]

mutual

theorem PNode.lookup_modifyAt_self : ∀ t : PNode, ∀ i : Nat, ∀ f : PNode → PNode,
    ∀ n : PNode, t.ids.Nodup → t.lookup i = some n → (f n).id = n.id →
    (t.modifyAt i f).lookup i = some (f n)
  | .mk j tx p cs => by
    intro i f n hnd hl hid
    rw [PNode.lookup_mk] at hl
    rw [PNode.modifyAt_mk]
    by_cases hji : j = i
    · rw [if_pos hji] at hl ⊢
      injection hl with hl
      subst hl
      rcases hfn : f (.mk j tx p cs) with ⟨fi, ftx, fp, fcs⟩
      rw [hfn, PNode.id_mk] at hid
      rw [PNode.lookup_mk, if_pos (hid.trans hji)]
    · rw [if_neg hji] at hl
      rw [PNode.ids_mk] at hnd
      have hnd' := List.nodup_cons.1 hnd
      rw [if_neg hji, PNode.lookup_mk, if_neg hji]
      exact PNode.lookupL_modifyAtL_self cs i f n hnd'.2 hl hid

theorem PNode.lookupL_modifyAtL_self : ∀ cs : List PNode, ∀ i : Nat, ∀ f : PNode → PNode,
    ∀ n : PNode, (PNode.idsL cs).Nodup → PNode.lookupL i cs = some n → (f n).id = n.id →
    PNode.lookupL i (PNode.modifyAtL i f cs) = some (f n)
  | [], i, f, n => by
    intro _ h
    cases h
  | c :: cs, i, f, n => by
    intro hnd hl hid
    rw [PNode.lookupL_cons] at hl
    rw [PNode.idsL_cons] at hnd
    have hnd' := List.nodup_append.1 hnd
    rw [PNode.modifyAtL_cons, PNode.lookupL_cons]
    rcases hc : c.lookup i with _ | m
    · rw [hc] at hl
      have hnm : i ∉ c.ids := (PNode.lookup_eq_none_iff c i).1 hc
      rw [PNode.modifyAt_of_not_mem c i f hnm, hc]
      exact PNode.lookupL_modifyAtL_self cs i f n hnd'.2.1 hl hid
    · rw [hc] at hl
      injection hl with hl
      subst hl
      rw [PNode.lookup_modifyAt_self c i f m hnd'.1 hc hid]

end

/-- C10: `delete_node` on the root node — a node whose `parent_id` is absent —
returns without raising for either value of `reassign_children`, and leaves the
tree (hence every node's text and the flat index), the selection, and the
change-notification count unchanged: a silent no-op. -/
theorem claim_C10_delete_root_noop (s : TreeState) (nodeId : Nat) (n : PNode) (r : Bool)
    (hl : PNode.lookup nodeId s.root = some n) (hp : n.parent_id = none) :
    ∃ s', delete_node s nodeId r = some s' ∧ s'.root = s.root
      ∧ s'.selected = s.selected ∧ s'.updates = s.updates := by
  refine ⟨s, ?_, rfl, rfl, rfl⟩
  simp only [delete_node, hl, hp]

theorem claim_C10_delete_root_noop_witness :
    ∃ s', delete_node s0w 0 true = some s' ∧ s'.root = s0w.root
      ∧ s'.selected = s0w.selected ∧ s'.updates = s0w.updates :=
  claim_C10_delete_root_noop s0w 0 s0w.root true (by decide) (by decide)

/-- The child of the root of `s0w` holding node 3, used as a concrete witness
node. -/
def n1w : PNode := PNode.mk 1 "a" (some 0) [PNode.mk 3 "c" (some 1) []]

/-- C8: for a non-root node whose parent has `len(siblings)` children,
`select_sibling(offset)` selects the sibling at position
`(siblings.index(node) + offset) % len(siblings)` (Euclidean remainder, as in
Python) — in particular the index always lands in range — and the traversal is
cyclic: when `offset` is a multiple of the sibling count the node itself is
selected again. -/
theorem claim_C8_select_sibling_cyclic (s : TreeState) (offset : Int) (nodeId : Nat)
    (n p : PNode) (pid i : Nat)
    (hl : PNode.lookup nodeId s.root = some n)
    (hp : n.parent_id = some pid)
    (hlp : PNode.lookup pid s.root = some p)
    (hi : list_index p.children n = some i) :
    (∃ sib, p.children.get? (((i : Int) + offset).emod (p.children.length : Int)).toNat = some sib
      ∧ select_sibling s offset nodeId = some (select_node s sib.id))
    ∧ ((p.children.length : Int) ∣ offset →
        select_sibling s offset nodeId = some (select_node s n.id)) := by
  obtain ⟨l1, l2, hdec, hlen, -⟩ := list_index_decomp _ _ _ hi
  have hilt : i < p.children.length := by
    rw [hdec, List.length_append, List.length_cons]
    omega
  have hpos : (0 : Int) < (p.children.length : Int) := by exact_mod_cast Nat.lt_of_le_of_lt (Nat.zero_le i) hilt
  have hemod0 : 0 ≤ ((i : Int) + offset).emod (p.children.length : Int) :=
    Int.emod_nonneg _ (by omega)
  have hemodlt : ((i : Int) + offset).emod (p.children.length : Int) < (p.children.length : Int) :=
    Int.emod_lt_of_pos _ hpos
  have hmlt : (((i : Int) + offset).emod (p.children.length : Int)).toNat < p.children.length := by
    omega
  have hget := List.get?_eq_get hmlt
  refine ⟨⟨_, hget, ?_⟩, ?_⟩
  · simp only [select_sibling, hl, hp, hlp, hi]
    rw [hget]
  · intro hdvd
    obtain ⟨k, hk⟩ := hdvd
    have hkey : ((i : Int) + offset).emod (p.children.length : Int) = (i : Int) := by
      have h1 : ((i : Int) + offset).emod (p.children.length : Int)
          = ((i : Int) + (p.children.length : Int) * k) % (p.children.length : Int) := by
        rw [hk]
        rfl
      rw [h1, Int.add_mul_emod_self_left]
      exact Int.emod_eq_of_lt (by omega) (by exact_mod_cast hilt)
    have hgi : p.children.get? i = some n := by
      rw [hdec, ← hlen, List.get?_append_right (le_refl _), Nat.sub_self]
      rfl
    simp only [select_sibling, hl, hp, hlp, hi, hkey]
    rw [Int.toNat_natCast, hgi]

theorem claim_C8_select_sibling_cyclic_witness :
    (∃ sib, s0w.root.children.get? ((((0 : Nat) : Int) + 4).emod (s0w.root.children.length : Int)).toNat = some sib
      ∧ select_sibling s0w 4 1 = some (select_node s0w sib.id))
    ∧ ((s0w.root.children.length : Int) ∣ 4 →
        select_sibling s0w 4 1 = some (select_node s0w n1w.id)) :=
  claim_C8_select_sibling_cyclic s0w 4 1 n1w s0w.root 0 0 (by decide) (by decide)
    (by decide) (by decide)

/-- C7: with a valid selection at flatten-order index `idx`,
`traverse_tree(offset)` selects the node at index
`clip_num(idx + offset, 0, n - 1)` where `n` is the number of nodes; the
clipped index always lies in `[0, n-1]`, saturating at the ends rather than
wrapping or raising. -/
theorem claim_C7_traverse_tree_clips (s : TreeState) (offset : Int) (sid : Nat)
    (sel : PNode) (idx : Nat)
    (hsel : s.selected = some sid)
    (hl : PNode.lookup sid s.root = some sel)
    (hidx : list_index s.root.flatten sel = some idx) :
    0 ≤ clip_num ((idx : Int) + offset) 0 ((s.root.flatten.length : Int) - 1)
    ∧ clip_num ((idx : Int) + offset) 0 ((s.root.flatten.length : Int) - 1)
        ≤ (s.root.flatten.length : Int) - 1
    ∧ ∃ nd, s.root.flatten.get? (clip_num ((idx : Int) + offset) 0 ((s.root.flatten.length : Int) - 1)).toNat = some nd
        ∧ traverse_tree s offset = some (select_node s nd.id) := by
  obtain ⟨l1, l2, hdec, hlen, -⟩ := list_index_decomp _ _ _ hidx
  have hidxlt : idx < s.root.flatten.length := by
    rw [hdec, List.length_append, List.length_cons]
    omega
  have hcast : (idx : Int) < (s.root.flatten.length : Int) := by exact_mod_cast hidxlt
  have h0 : 0 ≤ clip_num ((idx : Int) + offset) 0 ((s.root.flatten.length : Int) - 1) :=
    le_max_left _ _
  have h1 : clip_num ((idx : Int) + offset) 0 ((s.root.flatten.length : Int) - 1)
      ≤ (s.root.flatten.length : Int) - 1 := by
    simp only [clip_num]
    omega
  have hmlt : (clip_num ((idx : Int) + offset) 0 ((s.root.flatten.length : Int) - 1)).toNat
      < s.root.flatten.length := by
    simp only [clip_num] at h0 h1 ⊢
    omega
  have hget := List.get?_eq_get hmlt
  refine ⟨h0, h1, _, hget, ?_⟩
  simp only [traverse_tree, hsel, hl, hidx]
  rw [hget]

theorem claim_C7_traverse_tree_clips_witness :
    0 ≤ clip_num (((0 : Nat) : Int) + (-7)) 0 ((s0w.root.flatten.length : Int) - 1)
    ∧ clip_num (((0 : Nat) : Int) + (-7)) 0 ((s0w.root.flatten.length : Int) - 1)
        ≤ (s0w.root.flatten.length : Int) - 1
    ∧ ∃ nd, s0w.root.flatten.get? (clip_num (((0 : Nat) : Int) + (-7)) 0 ((s0w.root.flatten.length : Int) - 1)).toNat = some nd
        ∧ traverse_tree s0w (-7) = some (select_node s0w nd.id) :=
  claim_C7_traverse_tree_clips s0w (-7) 0 s0w.root 0 (by decide) (by decide) (by decide)

theorem PNode.stampedOkL_children {q : PNode} (hq : q.stampedOk = true) :
    PNode.stampedOkL q.id q.children = true := by
  cases q
  exact hq

theorem PNode.ids_eq_cons (t : PNode) : t.ids = t.id :: PNode.idsL t.children := by
  cases t
  rfl

theorem root_mk_update (s : TreeState) (r : PNode) :
    ({ s with root := r } : TreeState).root = r := rfl

theorem select_node_selected_of_isSome (s : TreeState) (i : Nat)
    (h : (PNode.lookup i s.root).isSome = true) : (select_node s i).selected = some i := by
  unfold select_node
  split
  · rfl
  · next hc =>
    rcases not_and_or.1 hc with h1 | h2
    · exact not_not.1 h1
    · exact absurd h h2

/-- C5 counterexample: on a concrete tree, `merge_with_parent` applied to the
root is not a silent no-op — `node["parent_id"]` raises `KeyError` (the root
dict has no such key), modelled as failure, so the call does not return the
state unchanged. -/
theorem claim_C5_root_counterexample :
    merge_with_parent s0w 0 = none ∧ merge_with_parent s0w 0 ≠ some s0w := by
  decide



theorem PNode.children_map_id_stampWith (g : Option Nat) (t : PNode) :
    (t.stampWith g).children.map PNode.id = t.children.map PNode.id := by
  cases t
  rw [PNode.stampWith_mk, PNode.children_mk, PNode.children_mk, PNode.stampKids_map_id]

mutual

theorem PNode.lookup_stampWith : ∀ t : PNode, ∀ f : Option Nat, ∀ i n,
    PNode.lookup i t = some n →
    ∃ g, PNode.lookup i (t.stampWith f) = some (n.stampWith g)
  | .mk j tx p cs => by
    intro f i n hl
    rw [PNode.lookup_mk] at hl
    by_cases hji : j = i
    · rw [if_pos hji] at hl
      injection hl with hl
      subst hl
      refine ⟨f, ?_⟩
      rw [PNode.stampWith_mk, PNode.lookup_mk, if_pos hji]
    · rw [if_neg hji] at hl
      rw [PNode.stampWith_mk, PNode.lookup_mk, if_neg hji]
      exact PNode.lookupL_stampKids cs j f i n hl

theorem PNode.lookupL_stampKids : ∀ cs : List PNode, ∀ j : Nat, ∀ f : Option Nat, ∀ i n,
    PNode.lookupL i cs = some n →
    ∃ g, PNode.lookupL i (PNode.stampKids j cs) = some (n.stampWith g)
  | [], j, f => by
    intro i n h
    cases h
  | c :: cs, j, f => by
    intro i n hl
    rw [PNode.lookupL_cons] at hl
    rw [PNode.stampKids_cons, PNode.lookupL_cons]
    rcases hc : PNode.lookup i c with _ | m
    · rw [hc] at hl
      have hnone : PNode.lookup i (c.stampWith (some j)) = none := by
        rw [PNode.lookup_eq_none_iff]
        rw [PNode.ids_stampWith]
        exact (PNode.lookup_eq_none_iff c i).1 hc
      rw [hnone]
      exact PNode.lookupL_stampKids cs j f i n hl
    · rw [hc] at hl
      injection hl with hl
      subst hl
      obtain ⟨g, hg⟩ := PNode.lookup_stampWith c (some j) i m hc
      rw [hg]
      exact ⟨g, rfl⟩

end

theorem PNode.child_mem_flatten {t q c : PNode} (hq : q ∈ t.flatten)
    (hc : c ∈ q.children) : c ∈ t.flatten := by
  have h1 : c ∈ q.flatten := by
    cases q with
    | mk j tx p cs =>
      rw [PNode.flatten_mk]
      rw [PNode.children_mk] at hc
      exact List.mem_cons_of_mem _ ((PNode.mem_flattenL cs c).2 ⟨c, hc, PNode.self_mem_flatten c⟩)
  exact (PNode.flatten_sublist_of_mem t q hq).subset h1

theorem PNode.lookup_isSome_of_mem_flatten {t q : PNode} (h : q ∈ t.flatten) :
    (PNode.lookup q.id t).isSome = true :=
  PNode.lookup_isSome_of_mem (List.mem_map_of_mem PNode.id h)

theorem PNode.stampedOkL_of_forall {j : Nat} : ∀ {cs : List PNode},
    (∀ c ∈ cs, c.parent_id = some j ∧ c.stampedOk = true) →
    PNode.stampedOkL j cs = true := by
  intro cs
  induction cs with
  | nil => intro _; rfl
  | cons c cs ih =>
    intro h
    rw [PNode.stampedOkL_cons]
    simp only [Bool.and_eq_true, beq_iff_eq]
    exact ⟨⟨(h c (List.mem_cons_self _ _)).1, (h c (List.mem_cons_self _ _)).2⟩,
      ih (fun d hd => h d (List.mem_cons_of_mem _ hd))⟩

/-- A flat tree with one root and three leaf siblings, the last one selected:
the concrete state refuting C4's clipping claim. -/
def s4w : TreeState :=
  ⟨PNode.mk 0 "r" none [PNode.mk 1 "a" (some 0) [], PNode.mk 2 "b" (some 0) [],
    PNode.mk 3 "c" (some 0) []], some 3, 10, 0⟩

/-- C4 counterexample: with three siblings `[a, b, c]` and the last (`c`, at
index 2) deleted without reassigning children, two siblings remain; clipping
the former index 2 to the remaining range `[0, 1]` would select `b` (id 2),
but the code computes `2 % 2 = 0` and selects `a` (id 1): the former index
wraps around, it is not clipped. -/
theorem claim_C4_wrap_counterexample :
    (delete_node s4w 3 false).map TreeState.selected = some (some 1)
    ∧ (delete_node s4w 3 false).map TreeState.selected ≠ some (some 2) := by
  decide

/-- C4 (amended): for a non-root node, `delete_node` removes the node from
its parent's children.  With `reassign_children = False`: if no sibling
remains the parent becomes the selected node, otherwise the selected node
becomes the sibling at position `old_index % len(remaining)` — the former
index taken modulo the remaining count, wrapping past the end rather than
being clipped.  With `reassign_children = True` the node's children are
appended in original order to the end of the parent's children and the
parent is selected. -/
theorem claim_C4_delete_node (s : TreeState) (nodeId : Nat) (r : Bool)
    (n p : PNode) (pid k : Nat) (hw : WF s)
    (hl : PNode.lookup nodeId s.root = some n)
    (hpn : n.parent_id = some pid)
    (hlp : PNode.lookup pid s.root = some p)
    (hk : list_index p.children n = some k) :
    ∃ l1 l2 s', p.children = l1 ++ n :: l2 ∧ l1.length = k
      ∧ delete_node s nodeId r = some s'
      ∧ (∃ p', PNode.lookup pid s'.root = some p'
          ∧ p'.children.map PNode.id
            = (if r then ((l1 ++ l2) ++ n.children).map PNode.id
               else (l1 ++ l2).map PNode.id))
      ∧ ((r = true ∨ l1 ++ l2 = []) → s'.selected = some pid)
      ∧ (r = false → l1 ++ l2 ≠ [] →
          ∃ sib, (l1 ++ l2).get? (k % (l1 ++ l2).length) = some sib
            ∧ s'.selected = some sib.id) := by
  obtain ⟨⟨hroot, hst, hnd⟩, hfresh⟩ := hw
  obtain ⟨l1, l2, hdec, hlen, -⟩ := list_index_decomp _ _ _ hk
  have htake : p.children.take k = l1 := by
    rw [hdec, ← hlen]
    exact List.take_left l1 (n :: l2)
  have hdrop : p.children.drop (k + 1) = l2 := by
    rw [hdec]
    have h12 : l1 ++ n :: l2 = (l1 ++ [n]) ++ l2 := by simp
    rw [h12]
    exact List.drop_left' (by simp [hlen])
  have hpm : p ∈ s.root.flatten := PNode.lookup_mem _ _ _ hlp
  have hchpar : ∀ c ∈ p.children, c.parent_id = some pid ∧ c.stampedOk = true := by
    intro c hc
    have h := PNode.stamped_parent s.root hst p hpm c hc
    rw [PNode.lookup_id _ _ _ hlp] at h
    exact h
  have hsubpar : ∀ c ∈ l1 ++ l2, c.parent_id = some pid ∧ c.stampedOk = true := by
    intro c hc
    refine hchpar c ?_
    rw [hdec]
    rcases List.mem_append.1 hc with hc | hc
    · exact List.mem_append.2 (Or.inl hc)
    · exact List.mem_append.2 (Or.inr (List.mem_cons_of_mem _ hc))
  cases r with
  | true =>
    have hdel : delete_node s nodeId true
        = some (tree_updated (select_node { s with root := s.root.modifyAt pid (fun q => q.setKids (l1 ++ l2 ++ n.children)) } pid)) := by
      simp only [delete_node, hl, hpn, hlp, hk, Bool.true_or, eq_self_iff_true,
        if_true, htake, hdrop]
    have hlp1 : PNode.lookup pid (s.root.modifyAt pid
        (fun q => q.setKids (l1 ++ l2 ++ n.children)))
        = some (p.setKids (l1 ++ l2 ++ n.children)) :=
      PNode.lookup_modifyAt_self s.root pid _ p hnd hlp (PNode.id_setKids _ p)
    obtain ⟨g, hg⟩ := PNode.lookup_stampWith _ none pid _ hlp1
    refine ⟨l1, l2, _, hdec, hlen, hdel,
      ⟨(p.setKids (l1 ++ l2 ++ n.children)).stampWith g, ?_, ?_⟩, ?_, ?_⟩
    · rw [tree_updated_root, select_node_root, root_mk_update]
      exact hg
    · rw [if_pos rfl, PNode.children_map_id_stampWith, PNode.setKids_def,
        PNode.children_mk]
    · intro _
      rw [tree_updated_selected]
      exact select_node_selected_of_isSome _ _ (Option.isSome_iff_exists.2 ⟨_, hlp1⟩)
    · intro hcontra
      exact Bool.noConfusion hcontra
  | false =>
    by_cases hb0 : l1 ++ l2 = []
    · have hdel : delete_node s nodeId false
          = some (tree_updated (select_node { s with root := s.root.modifyAt pid (fun q => q.setKids ([] : List PNode)) } pid)) := by
        simp only [delete_node, hl, hpn, hlp, hk, Bool.false_eq_true, if_false,
          Bool.false_or, htake, hdrop, hb0, List.isEmpty_nil, eq_self_iff_true,
          if_true]
      have hstamp1 : (s.root.modifyAt pid
          (fun q => q.setKids ([] : List PNode))).stampedOk = true := by
        refine PNode.stampedOk_modifyAt s.root pid _
          (fun q => PNode.parent_id_setKids _ q) ?_ hst
        intro q _ _
        rw [PNode.setKids_def, PNode.stampedOk_mk]
        rfl
      have hlp1 : PNode.lookup pid (s.root.modifyAt pid
          (fun q => q.setKids ([] : List PNode)))
          = some (p.setKids ([] : List PNode)) :=
        PNode.lookup_modifyAt_self s.root pid _ p hnd hlp (PNode.id_setKids _ p)
      refine ⟨l1, l2, _, hdec, hlen, hdel,
        ⟨p.setKids ([] : List PNode), ?_, ?_⟩, ?_, ?_⟩
      · rw [tree_updated_root, select_node_root, root_mk_update,
          PNode.restamp_eq hstamp1]
        exact hlp1
      · rw [if_neg (by exact Bool.noConfusion), PNode.setKids_def,
          PNode.children_mk, hb0]
      · intro _
        rw [tree_updated_selected]
        exact select_node_selected_of_isSome _ _ (Option.isSome_iff_exists.2 ⟨_, hlp1⟩)
      · intro _ hne
        exact absurd hb0 hne
    · have hlen0 : 0 < (l1 ++ l2).length := List.length_pos.2 hb0
      have hmlt : k % (l1 ++ l2).length < (l1 ++ l2).length := Nat.mod_lt _ hlen0
      have hget := List.get?_eq_get hmlt
      have hie : (l1 ++ l2).isEmpty = false := by
        rcases hll : l1 ++ l2 with _ | ⟨a, as⟩
        · exact absurd hll hb0
        · rfl
      have hdel : delete_node s nodeId false
          = some (tree_updated (select_node { s with root := s.root.modifyAt pid (fun q => q.setKids (l1 ++ l2)) } ((l1 ++ l2).get ⟨k % (l1 ++ l2).length, hmlt⟩).id)) := by
        simp only [delete_node, hl, hpn, hlp, hk, Bool.false_eq_true, if_false,
          Bool.false_or, htake, hdrop, hie, hget]
      have hstamp1 : (s.root.modifyAt pid
          (fun q => q.setKids (l1 ++ l2))).stampedOk = true := by
        refine PNode.stampedOk_modifyAt s.root pid _
          (fun q => PNode.parent_id_setKids _ q) ?_ hst
        intro q hqid _
        rw [PNode.setKids_def, PNode.stampedOk_mk, hqid]
        exact PNode.stampedOkL_of_forall hsubpar
      have hlp1 : PNode.lookup pid (s.root.modifyAt pid
          (fun q => q.setKids (l1 ++ l2)))
          = some (p.setKids (l1 ++ l2)) :=
        PNode.lookup_modifyAt_self s.root pid _ p hnd hlp (PNode.id_setKids _ p)
      have hsibmem : (l1 ++ l2).get ⟨k % (l1 ++ l2).length, hmlt⟩
          ∈ (s.root.modifyAt pid (fun q => q.setKids (l1 ++ l2))).flatten := by
        refine PNode.child_mem_flatten (PNode.lookup_mem _ _ _ hlp1) ?_
        rw [PNode.setKids_def, PNode.children_mk]
        exact List.get_mem _ _ _
      refine ⟨l1, l2, _, hdec, hlen, hdel,
        ⟨p.setKids (l1 ++ l2), ?_, ?_⟩, ?_, ?_⟩
      · rw [tree_updated_root, select_node_root, root_mk_update,
          PNode.restamp_eq hstamp1]
        exact hlp1
      · rw [if_neg (by exact Bool.noConfusion), PNode.setKids_def,
          PNode.children_mk]
      · intro hor
        rcases hor with hcontra | hcontra
        · exact Bool.noConfusion hcontra
        · exact absurd hcontra hb0
      · intro _ _
        refine ⟨_, hget, ?_⟩
        rw [tree_updated_selected]
        exact select_node_selected_of_isSome _ _
          (PNode.lookup_isSome_of_mem_flatten hsibmem)

theorem claim_C4_delete_node_witness :
    ∃ l1 l2 s', s0w.root.children = l1 ++ n1w :: l2 ∧ l1.length = 0
      ∧ delete_node s0w 1 false = some s'
      ∧ (∃ p', PNode.lookup 0 s'.root = some p'
          ∧ p'.children.map PNode.id
            = (if false then ((l1 ++ l2) ++ n1w.children).map PNode.id
               else (l1 ++ l2).map PNode.id))
      ∧ ((false = true ∨ l1 ++ l2 = []) → s'.selected = some 0)
      ∧ (false = false → l1 ++ l2 ≠ [] →
          ∃ sib, (l1 ++ l2).get? (0 % (l1 ++ l2).length) = some sib
            ∧ s'.selected = some sib.id) := by
  obtain ⟨l1, l2, s', h⟩ := claim_C4_delete_node s0w 1 false n1w s0w.root 0 0
    (by decide) (by decide) (by decide) (by decide) (by decide)
  exact ⟨l1, l2, s', h⟩

theorem takeWhile_spaces_nil {l : List Char} (h : l.getLast? ≠ some ' ') :
    l.reverse.takeWhile (fun ch => ch == ' ') = [] := by
  rcases hr : l.reverse with _ | ⟨c, t⟩
  · rfl
  · have hc : c ≠ ' ' := by
      intro he
      apply h
      rw [← List.head?_reverse, hr, he]
      rfl
    rw [List.takeWhile_cons]
    simp [hc]

theorem replicate_takeWhile_spaces (k : Nat) (r : List Char) :
    (List.replicate k ' ' ++ r).takeWhile (fun ch => ch == ' ')
      = List.replicate k ' ' ++ r.takeWhile (fun ch => ch == ' ') := by
  induction k with
  | zero => rfl
  | succ k ih =>
    rw [List.replicate_succ, List.cons_append, List.takeWhile_cons]
    simp only [beq_self_eq_true, if_true]
    rw [ih, List.cons_append]

/-- `text = b ++ " " * k` with `b` not ending in a space is exactly the
decomposition computed by `update_text`'s while loop. -/
theorem trailing_spaces_spec (b : String) (k : Nat) (h : b.data.getLast? ≠ some ' ') :
    num_trailing_spaces (b ++ spaces k) = k
    ∧ strip_trailing_spaces (b ++ spaces k) = b := by
  have hdata : (b ++ spaces k).data = b.data ++ List.replicate k ' ' := by
    rw [String.data_append]
    rfl
  have hrev : (b ++ spaces k).data.reverse = List.replicate k ' ' ++ b.data.reverse := by
    rw [hdata, List.reverse_append, List.reverse_replicate]
  have htw : (b ++ spaces k).data.reverse.takeWhile (fun ch => ch == ' ')
      = List.replicate k ' ' := by
    rw [hrev, replicate_takeWhile_spaces, takeWhile_spaces_nil h, List.append_nil]
  have hnum : num_trailing_spaces (b ++ spaces k) = k := by
    simp only [num_trailing_spaces, htw, List.length_replicate]
  refine ⟨hnum, ?_⟩
  simp only [strip_trailing_spaces, hnum, hrev]
  rw [List.drop_left' (List.length_replicate _ _), List.reverse_reverse]

/-- A root with stored text `"a"` and one child with text `"c"`: the concrete
state refuting C3's unconditional space-prepending claim. -/
def s3w : TreeState :=
  ⟨PNode.mk 0 "a" none [PNode.mk 1 "c" (some 0) []], some 0, 10, 0⟩

/-- C3 counterexample: updating the node whose stored text is `"a"` with
`"a "` (one trailing space, `k = 1`) strips the space, finds the stripped
text equal to the stored text, and returns with the tree untouched: the
child's text stays `"c"` instead of receiving the claimed `" "` prefix. -/
theorem claim_C3_noop_counterexample :
    update_text s3w 0 "a " = some s3w
    ∧ (update_text s3w 0 "a ").map (fun st => st.root.children.map PNode.text)
        ≠ some [" c"] := by
  decide


theorem PNode.modifyAt_id (i : Nat) (f : PNode → PNode) (hf : ∀ q, (f q).id = q.id)
    (d : PNode) : (d.modifyAt i f).id = d.id := by
  cases d with
  | mk a tx p cs =>
    rw [PNode.modifyAt_mk]
    by_cases h : a = i
    · rw [if_pos h, hf]
    · rw [if_neg h, PNode.id_mk, PNode.id_mk]

theorem PNode.modifyAtL_map_id (i : Nat) (f : PNode → PNode)
    (hf : ∀ q, (f q).id = q.id) : ∀ cs : List PNode,
    (PNode.modifyAtL i f cs).map PNode.id = cs.map PNode.id := by
  intro cs
  induction cs with
  | nil => rfl
  | cons c cs ih =>
    rw [PNode.modifyAtL_cons, List.map_cons, List.map_cons,
      PNode.modifyAt_id i f hf c, ih]

mutual

theorem PNode.lookup_modifyAt_inside : ∀ t : PNode, ∀ i j : Nat, ∀ f : PNode → PNode,
    ∀ q : PNode, t.ids.Nodup → PNode.lookup j t = some q → i ∈ q.ids → j ≠ i →
    PNode.lookup j (t.modifyAt i f) = some (q.modifyAt i f)
  | .mk a tx p cs => by
    intro i j f q hnd hl hiq hji
    rw [PNode.lookup_mk] at hl
    rw [PNode.modifyAt_mk]
    by_cases haj : a = j
    · rw [if_pos haj] at hl
      injection hl with hl
      have hai : ¬ a = i := by
        rw [haj]
        exact hji
      rw [if_neg hai, ← hl, PNode.modifyAt_mk, if_neg hai, PNode.lookup_mk,
        if_pos haj]
    · rw [if_neg haj] at hl
      rw [PNode.ids_mk] at hnd
      have hnd' := List.nodup_cons.1 hnd
      by_cases hai : a = i
      · exfalso
        have hqm : q ∈ PNode.flattenL cs := PNode.lookupL_mem cs j q hl
        obtain ⟨d, hd, hqd⟩ := (PNode.mem_flattenL cs q).1 hqm
        have hic : i ∈ PNode.idsL cs :=
          PNode.ids_subtree_mem hd ((PNode.ids_sublist_of_mem hqd).subset hiq)
        rw [hai] at hnd'
        exact hnd'.1 hic
      · rw [if_neg hai, PNode.lookup_mk, if_neg haj]
        exact PNode.lookupL_modifyAtL_inside cs i j f q hnd'.2 hl hiq hji

theorem PNode.lookupL_modifyAtL_inside : ∀ cs : List PNode, ∀ i j : Nat,
    ∀ f : PNode → PNode, ∀ q : PNode,
    (PNode.idsL cs).Nodup → PNode.lookupL j cs = some q → i ∈ q.ids → j ≠ i →
    PNode.lookupL j (PNode.modifyAtL i f cs) = some (q.modifyAt i f)
  | [] => by
    intro i j f q _ h
    cases h
  | c :: cs => by
    intro i j f q hnd hl hiq hji
    rw [PNode.lookupL_cons] at hl
    rw [PNode.modifyAtL_cons, PNode.lookupL_cons]
    rw [PNode.idsL_cons] at hnd
    have hnd' := List.nodup_append.1 hnd
    rcases hc : PNode.lookup j c with _ | m
    · rw [hc] at hl
      have hqm : q ∈ PNode.flattenL cs := PNode.lookupL_mem cs j q hl
      obtain ⟨d, hd, hqd⟩ := (PNode.mem_flattenL cs q).1 hqm
      have hic : i ∈ PNode.idsL cs :=
        PNode.ids_subtree_mem hd ((PNode.ids_sublist_of_mem hqd).subset hiq)
      have hinc : i ∉ c.ids := fun hx => hnd'.2.2 hx hic
      rw [PNode.modifyAt_of_not_mem c i f hinc, hc]
      exact PNode.lookupL_modifyAtL_inside cs i j f q hnd'.2.1 hl hiq hji
    · rw [hc] at hl
      injection hl with hl
      subst hl
      rw [PNode.lookup_modifyAt_inside c i j f m hnd'.1 hc hiq hji]

end

theorem PNode.modifyAtL_append_not_mem {i : Nat} {f : PNode → PNode} :
    ∀ {L1 L2 : List PNode}, i ∉ PNode.idsL L1 →
    PNode.modifyAtL i f (L1 ++ L2) = L1 ++ PNode.modifyAtL i f L2 := by
  intro L1
  induction L1 with
  | nil =>
    intro L2 _
    rfl
  | cons a L1 ih =>
    intro L2 h
    rw [PNode.idsL_cons] at h
    rw [List.cons_append, PNode.modifyAtL_cons, List.cons_append,
      PNode.modifyAt_of_not_mem a i f (fun hx => h (List.mem_append.2 (Or.inl hx))),
      ih (fun hx => h (List.mem_append.2 (Or.inr hx)))]

theorem list_index_append_self {a : Type} [BEq a] [LawfulBEq a] :
    ∀ (l1 : List a) (x : a) (l2 : List a), x ∉ l1 →
    list_index (l1 ++ x :: l2) x = some l1.length := by
  intro l1 x l2
  induction l1 with
  | nil =>
    intro _
    rw [List.nil_append, list_index_cons]
    simp
  | cons a l1 ih =>
    intro h
    rw [List.cons_append, list_index_cons]
    have hax : ¬ (a == x) = true := by
      intro he
      exact h (by rw [beq_iff_eq.1 he]; exact List.mem_cons_self _ _)
    rw [if_neg hax, ih (fun hx => h (List.mem_cons_of_mem _ hx))]
    rfl

theorem map_id_decomp : ∀ {cs : List PNode} {base : List Nat} {i : Nat} {rem : List Nat},
    cs.map PNode.id = base ++ i :: rem →
    ∃ L1 c L2, cs = L1 ++ c :: L2 ∧ L1.map PNode.id = base ∧ c.id = i
      ∧ L2.map PNode.id = rem := by
  intro cs base
  induction base generalizing cs with
  | nil =>
    intro i rem h
    cases cs with
    | nil => cases h
    | cons c cs' =>
      rw [List.map_cons, List.nil_append] at h
      injection h with h1 h2
      exact ⟨[], c, cs', rfl, rfl, h1, h2⟩
  | cons b bs ih =>
    intro i rem h
    cases cs with
    | nil => cases h
    | cons c cs' =>
      rw [List.map_cons, List.cons_append] at h
      injection h with h1 h2
      obtain ⟨L1, d, L2, hdec, hm1, hdi, hm2⟩ := ih h2
      exact ⟨c :: L1, d, L2, by rw [hdec, List.cons_append], by rw [List.map_cons, h1, hm1], hdi, hm2⟩

/-- One error-branch iteration of `generate_for_nodes`: with the placeholder
`i` a direct child of `nodeId`, `rollback_node` stamps its text and removes
exactly it from the parent's children, keeping everything else. -/
theorem rollback_node_effect (st : TreeState) (nodeId i : Nat) (msg : String)
    (p : PNode) (base rem : List Nat) (hw : WF st)
    (hlp : PNode.lookup nodeId st.root = some p)
    (hch : p.children.map PNode.id = base ++ i :: rem) :
    ∃ st', rollback_node st i msg = some st' ∧ WF st' ∧ st'.nextId = st.nextId
      ∧ ∃ p', PNode.lookup nodeId st'.root = some p'
          ∧ p'.children.map PNode.id = base ++ rem := by
  obtain ⟨⟨hroot, hst, hnd⟩, hfresh⟩ := hw
  have hpid : p.id = nodeId := PNode.lookup_id _ _ _ hlp
  have hpm : p ∈ st.root.flatten := PNode.lookup_mem _ _ _ hlp
  obtain ⟨L1, c, L2, hdecc, hm1, hci, hm2⟩ := map_id_decomp hch
  have hcm : c ∈ p.children := by
    rw [hdecc]
    exact List.mem_append.2 (Or.inr (List.mem_cons_self _ _))
  have hcfl : c ∈ st.root.flatten := PNode.child_mem_flatten hpm hcm
  have hcp : c.parent_id = some nodeId := by
    have h := (PNode.stamped_parent st.root hst p hpm c hcm).1
    rw [hpid] at h
    exact h
  have hlc : PNode.lookup i st.root = some c := by
    have h := PNode.lookup_self_of_nodup st.root c hnd hcfl
    rw [hci] at h
    exact h
  have hndp : p.ids.Nodup := (PNode.ids_sublist_of_mem hpm).nodup hnd
  have hni : nodeId ≠ i := by
    intro he
    have hcidp : c.id = p.id := by rw [hci, hpid, he]
    have hceq : c = p := PNode.eq_of_mem_same_id hnd hcfl hpm hcidp
    exact PNode.no_self_descent hndp (PNode.self_mem_flatten p) (hceq ▸ hcm)
  have hndk : (PNode.idsL p.children).Nodup := by
    have h := hndp
    rw [PNode.ids_decomp] at h
    exact (List.nodup_cons.1 h).2
  have hnotL1 : i ∉ PNode.idsL L1 := by
    intro hx
    have h := hndk
    rw [hdecc, PNode.idsL_append, PNode.idsL_cons] at h
    exact (List.nodup_append.1 h).2.2 hx
      (List.mem_append.2 (Or.inl (by rw [← hci]; exact PNode.id_mem_ids c)))
  have hnotL2 : i ∉ PNode.idsL L2 := by
    intro hx
    have h := hndk
    rw [hdecc, PNode.idsL_append, PNode.idsL_cons] at h
    have h2 := (List.nodup_append.1 h).2.1
    exact (List.nodup_append.1 h2).2.2 (by rw [← hci]; exact PNode.id_mem_ids c) hx
  have hiqp : i ∈ p.ids := by
    rw [PNode.ids_decomp]
    exact List.mem_cons_of_mem _
      (PNode.ids_subtree_mem hcm (by rw [← hci]; exact PNode.id_mem_ids c))
  have hlp1 : PNode.lookup nodeId (st.root.modifyAt i (PNode.setText ("ERROR: " ++ msg)))
      = some (p.modifyAt i (PNode.setText ("ERROR: " ++ msg))) :=
    PNode.lookup_modifyAt_inside st.root i nodeId _ p hnd hlp hiqp hni
  have hcc : c.modifyAt i (PNode.setText ("ERROR: " ++ msg))
      = c.setText ("ERROR: " ++ msg) := by
    conv_lhs => rw [← PNode.eta c]
    rw [PNode.modifyAt_mk, if_pos hci, PNode.eta]
  have hp1 : p.modifyAt i (PNode.setText ("ERROR: " ++ msg))
      = PNode.mk nodeId p.text p.parent_id
          (L1 ++ (c.setText ("ERROR: " ++ msg)) :: L2) := by
    conv_lhs => rw [← PNode.eta p]
    rw [PNode.modifyAt_mk, if_neg (by rw [hpid]; exact hni), hdecc,
      PNode.modifyAtL_append_not_mem hnotL1, PNode.modifyAtL_cons, hcc,
      PNode.modifyAtL_of_not_mem L2 i _ hnotL2, hpid]
  have hnotc : (c.setText ("ERROR: " ++ msg)) ∉ L1 := by
    intro hx
    apply hnotL1
    have h1 : (c.setText ("ERROR: " ++ msg)).id ∈ PNode.idsL L1 :=
      PNode.ids_subtree_mem hx (PNode.id_mem_ids _)
    rw [PNode.id_setText, hci] at h1
    exact h1
  have hk : list_index (L1 ++ (c.setText ("ERROR: " ++ msg)) :: L2)
      (c.setText ("ERROR: " ++ msg)) = some L1.length :=
    list_index_append_self L1 _ L2 hnotc
  have hdel : rollback_node st i msg
      = some { st with root := (st.root.modifyAt i (PNode.setText ("ERROR: " ++ msg))).modifyAt nodeId (fun q => q.setKids (q.children.take L1.length ++ q.children.drop (L1.length + 1))) } := by
    simp only [rollback_node, hlc, hcp, hlp1, hp1, PNode.children_mk, hk]
  have hids1 : (st.root.modifyAt i (PNode.setText ("ERROR: " ++ msg))).ids
      = st.root.ids := by
    obtain ⟨pre, post, h1, h2⟩ := PNode.ids_modifyAt st.root i
      (PNode.setText ("ERROR: " ++ msg)) c hnd hlc (PNode.id_setText _ c)
    rw [h2, PNode.ids_setText, ← h1]
  have hnd1 : (st.root.modifyAt i (PNode.setText ("ERROR: " ++ msg))).ids.Nodup := by
    rw [hids1]
    exact hnd
  rw [hp1] at hlp1
  have hlp2 := PNode.lookup_modifyAt_self (st.root.modifyAt i (PNode.setText ("ERROR: " ++ msg))) nodeId (fun q => q.setKids (q.children.take L1.length ++ q.children.drop (L1.length + 1))) (PNode.mk nodeId p.text p.parent_id (L1 ++ (c.setText ("ERROR: " ++ msg)) :: L2)) hnd1 hlp1 (PNode.id_setKids _ _)
  have htakeL : (L1 ++ (c.setText ("ERROR: " ++ msg)) :: L2).take L1.length = L1 :=
    List.take_left _ _
  have hdropL : (L1 ++ (c.setText ("ERROR: " ++ msg)) :: L2).drop (L1.length + 1) = L2 := by
    have h12 : L1 ++ (c.setText ("ERROR: " ++ msg)) :: L2
        = (L1 ++ [c.setText ("ERROR: " ++ msg)]) ++ L2 := by simp
    rw [h12]
    exact List.drop_left' (by simp)
  have hval : (PNode.mk nodeId p.text p.parent_id (L1 ++ (c.setText ("ERROR: " ++ msg)) :: L2)).setKids (((PNode.mk nodeId p.text p.parent_id (L1 ++ (c.setText ("ERROR: " ++ msg)) :: L2)).children.take L1.length) ++ ((PNode.mk nodeId p.text p.parent_id (L1 ++ (c.setText ("ERROR: " ++ msg)) :: L2)).children.drop (L1.length + 1))) = PNode.mk nodeId p.text p.parent_id (L1 ++ L2) := by
    rw [PNode.setKids_def, PNode.children_mk, htakeL, hdropL, PNode.id_mk,
      PNode.text_mk, PNode.parent_id_mk]
  simp only [] at hlp2
  rw [hval] at hlp2
  have hstamp1 : (st.root.modifyAt i (PNode.setText ("ERROR: " ++ msg))).stampedOk = true := by
    refine PNode.stampedOk_modifyAt st.root i _ (fun q => PNode.parent_id_setText' _ q) ?_ hst
    intro q _ hq
    rw [PNode.stampedOk_setText]
    exact hq
  have hstamp2 : ((st.root.modifyAt i (PNode.setText ("ERROR: " ++ msg))).modifyAt nodeId (fun q => q.setKids (q.children.take L1.length ++ q.children.drop (L1.length + 1)))).stampedOk = true := by
    refine PNode.stampedOk_modifyAt _ nodeId _ (fun q => PNode.parent_id_setKids _ q) ?_ hstamp1
    intro q _ hq
    rw [PNode.setKids_def, PNode.stampedOk_mk, PNode.stampedOkL_append]
    simp only [Bool.and_eq_true]
    refine ⟨?_, ?_⟩
    · exact PNode.stampedOkL_sublist (List.take_sublist _ _) (PNode.stampedOkL_children hq)
    · exact PNode.stampedOkL_sublist (List.drop_sublist _ _) (PNode.stampedOkL_children hq)
  have hpar2 : ((st.root.modifyAt i (PNode.setText ("ERROR: " ++ msg))).modifyAt nodeId (fun q => q.setKids (q.children.take L1.length ++ q.children.drop (L1.length + 1)))).parent_id = none := by
    rw [PNode.modifyAt_parent_id _ _ _ (fun q => PNode.parent_id_setKids _ q),
      PNode.modifyAt_parent_id _ _ _ (fun q => PNode.parent_id_setText' _ q)]
    exact hroot
  obtain ⟨pre2, post2, h21, h22⟩ := PNode.ids_modifyAt
    (st.root.modifyAt i (PNode.setText ("ERROR: " ++ msg))) nodeId
    (fun q => q.setKids (q.children.take L1.length ++ q.children.drop (L1.length + 1)))
    _ hnd1 hlp1 (PNode.id_setKids _ _)
  have hsubids : ((st.root.modifyAt i (PNode.setText ("ERROR: " ++ msg))).modifyAt nodeId (fun q => q.setKids (q.children.take L1.length ++ q.children.drop (L1.length + 1)))).ids.Sublist (st.root.modifyAt i (PNode.setText ("ERROR: " ++ msg))).ids := by
    rw [h21, h22]
    refine (List.Sublist.append_right ?_ post2).trans (List.Sublist.refl _)
    refine List.Sublist.append_left ?_ pre2
    simp only [PNode.setKids_def, PNode.children_mk, PNode.id_mk, PNode.ids_mk,
      htakeL, hdropL]
    refine List.Sublist.cons₂ _ ?_
    rw [PNode.idsL_append, PNode.idsL_append, PNode.idsL_cons]
    exact List.Sublist.append_left (List.sublist_append_right _ _) _
  refine ⟨_, hdel, ⟨⟨hpar2, hstamp2, ?_⟩, ?_⟩, rfl, ?_⟩
  · exact hsubids.nodup hnd1
  · intro x hx
    have hx1 : x ∈ st.root.ids := by
      rw [← hids1]
      exact hsubids.subset hx
    exact hfresh x hx1
  · refine ⟨_, hlp2, ?_⟩
    rw [PNode.children_mk, List.map_append, hm1, hm2]

theorem PNode.ids_modifyAt_setText (t : PNode) (i : Nat) (x : String)
    (hnd : t.ids.Nodup) : (t.modifyAt i (PNode.setText x)).ids = t.ids := by
  rcases hl : PNode.lookup i t with _ | n
  · rw [PNode.modifyAt_of_not_mem t i _ ((PNode.lookup_eq_none_iff t i).1 hl)]
  · obtain ⟨pre, post, h1, h2⟩ := PNode.ids_modifyAt t i (PNode.setText x) n hnd hl
      (PNode.id_setText _ n)
    rw [h2, PNode.ids_setText, ← h1]

/-- One `create_child(node, update_selection=False)`: a fresh empty leaf is
appended at the end of the parent's children. -/
theorem create_child_false_effect (s : TreeState) (nodeId : Nat) (p : PNode)
    (hw : WF s) (hlp : PNode.lookup nodeId s.root = some p) :
    ∃ s1, create_child s nodeId false = some s1 ∧ WF s1 ∧ s1.nextId = s.nextId + 1
      ∧ ∃ p1, PNode.lookup nodeId s1.root = some p1
          ∧ p1.children.map PNode.id = p.children.map PNode.id ++ [s.nextId] := by
  have hnd : s.root.ids.Nodup := hw.1.2.2
  have heq := create_child_eq false hlp
  simp only [Bool.false_eq_true, if_false] at heq
  obtain ⟨hw1, -⟩ := WF_create_child hw heq
  have hlp1 : PNode.lookup nodeId (s.root.modifyAt nodeId (fun q => q.setKids (q.children ++ [PNode.mk s.nextId "" none []])))
      = some (p.setKids (p.children ++ [PNode.mk s.nextId "" none []])) :=
    PNode.lookup_modifyAt_self s.root nodeId _ p hnd hlp (PNode.id_setKids _ p)
  obtain ⟨g, hg⟩ := PNode.lookup_stampWith _ none nodeId _ hlp1
  refine ⟨tree_updated { s with root := s.root.modifyAt nodeId (fun q => q.setKids (q.children ++ [PNode.mk s.nextId "" none []])), nextId := s.nextId + 1 }, heq, hw1, rfl, (p.setKids (p.children ++ [PNode.mk s.nextId "" none []])).stampWith g, ?_, ?_⟩
  · exact hg
  · rw [PNode.children_map_id_stampWith, PNode.setKids_def, PNode.children_mk,
      List.map_append]
    rfl

/-- The placeholder loop: `k` fresh leaves appended, their ids collected in
order. -/
theorem create_placeholders_effect (nodeId : Nat) : ∀ (k : Nat) (s : TreeState) (p : PNode),
    WF s → PNode.lookup nodeId s.root = some p →
    ∃ s1 childIds, create_placeholders s nodeId k = some (s1, childIds)
      ∧ WF s1
      ∧ ∃ p1, PNode.lookup nodeId s1.root = some p1
          ∧ p1.children.map PNode.id = p.children.map PNode.id ++ childIds
  | 0, s, p => by
    intro hw hlp
    exact ⟨s, [], rfl, hw, p, hlp, by rw [List.append_nil]⟩
  | k + 1, s, p => by
    intro hw hlp
    obtain ⟨s1, hcc, hw1, hn1, p1, hlp1, hch1⟩ := create_child_false_effect s nodeId p hw hlp
    obtain ⟨s2, rest, hcp, hw2, p2, hlp2, hch2⟩ :=
      create_placeholders_effect nodeId k s1 p1 hw1 hlp1
    refine ⟨s2, s.nextId :: rest, ?_, hw2, p2, hlp2, ?_⟩
    · simp only [create_placeholders, hcc, hcp]
    · rw [hch2, hch1]
      simp

/-- Stamping the loading text on the placeholders changes no id, stamp or
child list. -/
theorem setText_fold_effect (nodeId : Nat) (x : String) : ∀ (ids : List Nat) (t : PNode) (p : PNode),
    t.parent_id = none → t.stampedOk = true → t.ids.Nodup →
    PNode.lookup nodeId t = some p →
    (∀ i ∈ ids, i ∈ p.children.map PNode.id) →
    (ids.foldl (fun r i => r.modifyAt i (PNode.setText x)) t).parent_id = none
    ∧ (ids.foldl (fun r i => r.modifyAt i (PNode.setText x)) t).stampedOk = true
    ∧ (ids.foldl (fun r i => r.modifyAt i (PNode.setText x)) t).ids = t.ids
    ∧ ∃ p', PNode.lookup nodeId (ids.foldl (fun r i => r.modifyAt i (PNode.setText x)) t) = some p'
        ∧ p'.children.map PNode.id = p.children.map PNode.id
  | [], t, p => by
    intro h1 h2 h3 hl _
    exact ⟨h1, h2, rfl, p, hl, rfl⟩
  | i :: ids, t, p => by
    intro h1 h2 h3 hl hsub
    have hpid : p.id = nodeId := PNode.lookup_id _ _ _ hl
    have hpm : p ∈ t.flatten := PNode.lookup_mem _ _ _ hl
    have hndp : p.ids.Nodup := (PNode.ids_sublist_of_mem hpm).nodup h3
    have hichild : i ∈ p.children.map PNode.id := hsub i (List.mem_cons_self _ _)
    have hikids : i ∈ PNode.idsL p.children := by
      obtain ⟨d, hd, hdi⟩ := List.mem_map.1 hichild
      exact PNode.ids_subtree_mem hd (by rw [← hdi]; exact PNode.id_mem_ids d)
    have hip : i ∈ p.ids := by
      rw [PNode.ids_decomp]
      exact List.mem_cons_of_mem _ hikids
    have hni : nodeId ≠ i := by
      intro he
      have hndp' := hndp
      rw [PNode.ids_decomp] at hndp'
      exact (List.nodup_cons.1 hndp').1 (by rw [hpid, he]; exact hikids)
    have hl1 : PNode.lookup nodeId (t.modifyAt i (PNode.setText x))
        = some (p.modifyAt i (PNode.setText x)) :=
      PNode.lookup_modifyAt_inside t i nodeId _ p h3 hl hip hni
    have hchld : (p.modifyAt i (PNode.setText x)).children.map PNode.id
        = p.children.map PNode.id := by
      conv_lhs => rw [← PNode.eta p]
      rw [PNode.modifyAt_mk, if_neg (by rw [hpid]; exact hni), PNode.children_mk,
        PNode.modifyAtL_map_id i _ (fun q => PNode.id_setText x q)]
    have h1' : (t.modifyAt i (PNode.setText x)).parent_id = none := by
      rw [PNode.modifyAt_parent_id _ _ _ (fun q => PNode.parent_id_setText' _ q)]
      exact h1
    have h2' : (t.modifyAt i (PNode.setText x)).stampedOk = true := by
      refine PNode.stampedOk_modifyAt t i _ (fun q => PNode.parent_id_setText' _ q) ?_ h2
      intro q _ hq
      rw [PNode.stampedOk_setText]
      exact hq
    have h3' : (t.modifyAt i (PNode.setText x)).ids = t.ids :=
      PNode.ids_modifyAt_setText t i x h3
    have hsub' : ∀ j ∈ ids, j ∈ (p.modifyAt i (PNode.setText x)).children.map PNode.id := by
      intro j hj
      rw [hchld]
      exact hsub j (List.mem_cons_of_mem _ hj)
    obtain ⟨g1, g2, g3, p', gl, gch⟩ := setText_fold_effect nodeId x ids
      (t.modifyAt i (PNode.setText x)) (p.modifyAt i (PNode.setText x))
      h1' h2' (by rw [h3']; exact h3) hl1 hsub'
    rw [List.foldl_cons]
    exact ⟨g1, g2, by rw [g3, h3'], p', gl, by rw [gch, hchld]⟩

/-- The error branch of `generate_for_nodes` rolls back the placeholders one
by one, restoring the parent's children exactly. -/
theorem rollback_fold (msg : String) (nodeId : Nat) : ∀ (ids : List Nat) (st : TreeState) (p : PNode) (base : List Nat),
    WF st → PNode.lookup nodeId st.root = some p →
    p.children.map PNode.id = base ++ ids →
    ∃ st', List.foldlM (fun st i => rollback_node st i msg) st ids = some st'
      ∧ WF st' ∧ st'.nextId = st.nextId
      ∧ ∃ p', PNode.lookup nodeId st'.root = some p'
          ∧ p'.children.map PNode.id = base
  | [], st, p, base => by
    intro hw hlp hch
    rw [List.append_nil] at hch
    exact ⟨st, rfl, hw, rfl, p, hlp, hch⟩
  | i :: ids, st, p, base => by
    intro hw hlp hch
    obtain ⟨st1, hr, hw1, hn1, p1, hlp1, hch1⟩ :=
      rollback_node_effect st nodeId i msg p base ids hw hlp hch
    obtain ⟨st', hf, hw', hn', p', hlp', hch'⟩ :=
      rollback_fold msg nodeId ids st1 p1 base hw1 hlp1 hch1
    refine ⟨st', ?_, hw', hn'.trans hn1, p', hlp', hch'⟩
    rw [List.foldlM_cons, hr]
    exact hf

/-- C2: when the backend reports an error for a request that created `k`
placeholder children under a parent, every placeholder is stamped with the
diagnostic `"ERROR: "` text and then removed from the parent's children
(`rollback_node`), so after the call the parent's children — and hence its
child count — are exactly what they were before the generation call, for
every error string and every `k ≥ 1`. -/
theorem claim_C2_generation_rollback (s : TreeState) (nodeId : Nat) (k : Nat)
    (msg : String) (p : PNode) (hw : WF s)
    (hlp : PNode.lookup nodeId s.root = some p) (hk : 1 ≤ k) :
    ∃ s', generate_continuation s nodeId k (.err msg) = some s'
      ∧ ∃ p', PNode.lookup nodeId s'.root = some p'
          ∧ p'.children.map PNode.id = p.children.map PNode.id
          ∧ p'.children.length = p.children.length := by
  obtain ⟨s1, childIds, hcp, hw1, p1, hlp1, hch1⟩ :=
    create_placeholders_effect nodeId k s p hw hlp
  have hsubB : ∀ i ∈ childIds, i ∈ p1.children.map PNode.id := by
    intro i hi
    rw [hch1]
    exact List.mem_append.2 (Or.inr hi)
  obtain ⟨hB1, hB2, hB3, p2, hB4, hB5⟩ := setText_fold_effect nodeId "\n\n** Generating **" childIds s1.root p1 hw1.1.1 hw1.1.2.1 hw1.1.2.2 hlp1 hsubB
  have hndB : (childIds.foldl (fun r i => r.modifyAt i (PNode.setText "\n\n** Generating **")) s1.root).ids.Nodup := by
    rw [hB3]
    exact hw1.1.2.2
  have hwfB : WF (tree_updated { s1 with root := childIds.foldl (fun r i => r.modifyAt i (PNode.setText "\n\n** Generating **")) s1.root }) := by
    refine WF_tree_updated ?_ ?_ ?_
    · exact hB1
    · exact hndB
    · intro i hi
      have hi1 : i ∈ s1.root.ids := by
        rw [← hB3]
        exact hi
      exact hw1.2 i hi1
  have hlpB : PNode.lookup nodeId (tree_updated { s1 with root := childIds.foldl (fun r i => r.modifyAt i (PNode.setText "\n\n** Generating **")) s1.root }).root = some p2 := by
    rw [tree_updated_root, root_mk_update, PNode.restamp_eq hB2]
    exact hB4
  obtain ⟨s', hfold, hw', hn', p', hlp', hch'⟩ := rollback_fold msg nodeId childIds (tree_updated { s1 with root := childIds.foldl (fun r i => r.modifyAt i (PNode.setText "\n\n** Generating **")) s1.root }) p2 (p.children.map PNode.id) hwfB hlpB (by rw [hB5, hch1])
  refine ⟨s', ?_, p', hlp', hch', ?_⟩
  · simp only [generate_continuation, hcp, generate_for_nodes]
    exact hfold
  · rw [← List.length_map p'.children PNode.id, hch', List.length_map]

theorem claim_C2_generation_rollback_witness :
    ∃ s', generate_continuation s0w 2 2 (.err "boom") = some s'
      ∧ ∃ p', PNode.lookup 2 s'.root = some p'
          ∧ p'.children.map PNode.id = (PNode.mk 2 "b" (some 0) []).children.map PNode.id
          ∧ p'.children.length = (PNode.mk 2 "b" (some 0) []).children.length :=
  claim_C2_generation_rollback s0w 2 2 "boom" (PNode.mk 2 "b" (some 0) [])
    (by decide) (by decide) (by decide)

/-- A node dict of the on-disk nested format (util_tree.py 80-92): the `id`
and `parent_id` keys may be absent; `children` defaults to `[]`.  (Keys the
tree code never reads are unmodelled.) -/
inductive RawNode where
  | mk (id : Option Nat) (text : String) (parent_id : Option Nat)
    (children : List RawNode)

def RawNode.rid : RawNode → Option Nat
  | .mk i _ _ _ => i

def RawNode.rtext : RawNode → String
  | .mk _ t _ _ => t

def RawNode.rparent : RawNode → Option Nat
  | .mk _ _ p _ => p

def RawNode.rkids : RawNode → List RawNode
  | .mk _ _ _ cs => cs

mutual

/-- `flatten_tree` (util_tree.py 93-103) as a stamping pass on the nested
tree: assign `str(uuid.uuid1())` — modelled as the next counter value — to a
node lacking an `id`, stamp every child's `parent_id` with this node's id
(`child["parent_id"] = d["id"]`), and recurse left to right; `f` is the
stamp this node's parent forces on it (`none` at the root: `flatten_tree`
never touches the root's own `parent_id`).  The list the Python function
returns is `PNode.flatten` of the resulting tree, in the same pre-order. -/
def stampRaw : Option Nat → RawNode → Nat → PNode × Nat
  | f, .mk oid tx p cs, ctr =>
    let i := match oid with | some j => j | none => ctr
    let ctr1 := match oid with | some _ => ctr | none => ctr + 1
    let r := stampRawL i cs ctr1
    (PNode.mk i tx (match f with | some q => some q | none => p) r.1, r.2)

def stampRawL : Nat → List RawNode → Nat → List PNode × Nat
  | _, [], ctr => ([], ctr)
  | j, c :: cs, ctr =>
    let r1 := stampRaw (some j) c ctr
    let r2 := stampRawL j cs r1.2
    (r1.1 :: r2.1, r2.2)

end

theorem stampRaw_some_fst (f j tx p cs ctr) :
    (stampRaw f (.mk (some j) tx p cs) ctr).1
      = PNode.mk j tx (match f with | some q => some q | none => p)
          (stampRawL j cs ctr).1 := rfl

theorem stampRaw_some_snd (f j tx p cs ctr) :
    (stampRaw f (.mk (some j) tx p cs) ctr).2 = (stampRawL j cs ctr).2 := rfl

theorem stampRaw_none_fst (f tx p cs ctr) :
    (stampRaw f (.mk none tx p cs) ctr).1
      = PNode.mk ctr tx (match f with | some q => some q | none => p)
          (stampRawL ctr cs (ctr + 1)).1 := rfl

theorem stampRaw_none_snd (f tx p cs ctr) :
    (stampRaw f (.mk none tx p cs) ctr).2 = (stampRawL ctr cs (ctr + 1)).2 := rfl

theorem stampRawL_nil_fst (j ctr) : (stampRawL j [] ctr).1 = [] := rfl

theorem stampRawL_nil_snd (j ctr) : (stampRawL j [] ctr).2 = ctr := rfl

theorem stampRawL_cons_fst (j c cs ctr) :
    (stampRawL j (c :: cs) ctr).1
      = (stampRaw (some j) c ctr).1
          :: (stampRawL j cs (stampRaw (some j) c ctr).2).1 := rfl

theorem stampRawL_cons_snd (j c cs ctr) :
    (stampRawL j (c :: cs) ctr).2
      = (stampRawL j cs (stampRaw (some j) c ctr).2).2 := rfl

mutual

/-- The ids already present in a raw tree, in pre-order. -/
def exIdsR : RawNode → List Nat
  | .mk oid _ _ cs => (match oid with | some j => [j] | none => []) ++ exIdsRL cs

def exIdsRL : List RawNode → List Nat
  | [] => []
  | c :: cs => exIdsR c ++ exIdsRL cs

end

theorem exIdsR_mk (oid tx p cs) :
    exIdsR (.mk oid tx p cs)
      = (match oid with | some j => [j] | none => []) ++ exIdsRL cs := rfl

theorem exIdsRL_nil : exIdsRL [] = [] := rfl

theorem exIdsRL_cons (c cs) : exIdsRL (c :: cs) = exIdsR c ++ exIdsRL cs := rfl

mutual

/-- Shape, text and pre-existing-id agreement between a raw tree and a
stamped tree: same tree shape, the same texts, and wherever the raw node
already carried an id the stamped node carries that same id. -/
def agreesRaw : RawNode → PNode → Bool
  | .mk oid tx _ cs, .mk i tx' _ ds =>
    (match oid with | some j => j == i | none => true) && (tx == tx')
      && agreesRawL cs ds

def agreesRawL : List RawNode → List PNode → Bool
  | [], [] => true
  | c :: cs, d :: ds => agreesRaw c d && agreesRawL cs ds
  | _, _ => false

end

theorem stampRaw_parent_forced (q : Nat) (r : RawNode) (ctr : Nat) :
    (stampRaw (some q) r ctr).1.parent_id = some q := by
  cases r with
  | mk oid tx p cs =>
    cases oid with
    | some j => rw [stampRaw_some_fst, PNode.parent_id_mk]
    | none => rw [stampRaw_none_fst, PNode.parent_id_mk]

theorem stampRaw_parent_kept (r : RawNode) (ctr : Nat) :
    (stampRaw none r ctr).1.parent_id = r.rparent := by
  cases r with
  | mk oid tx p cs =>
    cases oid with
    | some j => rw [stampRaw_some_fst, PNode.parent_id_mk]; rfl
    | none => rw [stampRaw_none_fst, PNode.parent_id_mk]; rfl

mutual

theorem stampRaw_ctr_le : ∀ (r : RawNode) (f : Option Nat) (ctr : Nat),
    ctr ≤ (stampRaw f r ctr).2
  | .mk oid tx p cs, f, ctr => by
    cases oid with
    | some j =>
      rw [stampRaw_some_snd]
      exact stampRawL_ctr_le cs j ctr
    | none =>
      rw [stampRaw_none_snd]
      exact Nat.le_of_succ_le (Nat.succ_le_of_lt
        (Nat.lt_of_lt_of_le (Nat.lt_succ_self ctr) (stampRawL_ctr_le cs ctr (ctr + 1))))

theorem stampRawL_ctr_le : ∀ (cs : List RawNode) (j ctr : Nat),
    ctr ≤ (stampRawL j cs ctr).2
  | [], j, ctr => by
    rw [stampRawL_nil_snd]
  | c :: cs, j, ctr => by
    rw [stampRawL_cons_snd]
    exact (stampRaw_ctr_le c (some j) ctr).trans
      (stampRawL_ctr_le cs j (stampRaw (some j) c ctr).2)

end

mutual

theorem agreesRaw_stampRaw : ∀ (r : RawNode) (f : Option Nat) (ctr : Nat),
    agreesRaw r (stampRaw f r ctr).1 = true
  | .mk oid tx p cs, f, ctr => by
    cases oid with
    | some j =>
      rw [stampRaw_some_fst]
      show ((j == j) && (tx == tx) && agreesRawL cs (stampRawL j cs ctr).1) = true
      simp only [beq_self_eq_true, Bool.true_and]
      exact agreesRawL_stampRawL cs j ctr
    | none =>
      rw [stampRaw_none_fst]
      show (true && (tx == tx) && agreesRawL cs (stampRawL ctr cs (ctr + 1)).1) = true
      simp only [beq_self_eq_true, Bool.true_and, Bool.and_true]
      exact agreesRawL_stampRawL cs ctr (ctr + 1)

theorem agreesRawL_stampRawL : ∀ (cs : List RawNode) (j ctr : Nat),
    agreesRawL cs (stampRawL j cs ctr).1 = true
  | [], j, ctr => by
    rw [stampRawL_nil_fst]
    rfl
  | c :: cs, j, ctr => by
    rw [stampRawL_cons_fst]
    show (agreesRaw c (stampRaw (some j) c ctr).1
      && agreesRawL cs (stampRawL j cs (stampRaw (some j) c ctr).2).1) = true
    rw [agreesRaw_stampRaw c (some j) ctr,
      agreesRawL_stampRawL cs j (stampRaw (some j) c ctr).2]
    rfl

end

mutual

theorem stampRaw_stampedOk : ∀ (r : RawNode) (f : Option Nat) (ctr : Nat),
    (stampRaw f r ctr).1.stampedOk = true
  | .mk oid tx p cs, f, ctr => by
    cases oid with
    | some j =>
      rw [stampRaw_some_fst, PNode.stampedOk_mk]
      exact stampRawL_stampedOkL cs j ctr
    | none =>
      rw [stampRaw_none_fst, PNode.stampedOk_mk]
      exact stampRawL_stampedOkL cs ctr (ctr + 1)

theorem stampRawL_stampedOkL : ∀ (cs : List RawNode) (j ctr : Nat),
    PNode.stampedOkL j (stampRawL j cs ctr).1 = true
  | [], j, ctr => by
    rw [stampRawL_nil_fst]
    rfl
  | c :: cs, j, ctr => by
    rw [stampRawL_cons_fst, PNode.stampedOkL_cons]
    rw [stampRaw_parent_forced, stampRaw_stampedOk c (some j) ctr,
      stampRawL_stampedOkL cs j (stampRaw (some j) c ctr).2]
    simp

end

theorem exIdsR_some (j tx p cs) : exIdsR (.mk (some j) tx p cs) = j :: exIdsRL cs := rfl

theorem exIdsR_none (tx p cs) : exIdsR (.mk none tx p cs) = exIdsRL cs := rfl

mutual

theorem stampRaw_ids_nodup : ∀ (r : RawNode) (f : Option Nat) (ctr : Nat),
    (∀ j ∈ exIdsR r, j < ctr) → (exIdsR r).Nodup →
    (stampRaw f r ctr).1.ids.Nodup
    ∧ ∀ i ∈ (stampRaw f r ctr).1.ids,
        i ∈ exIdsR r ∨ (ctr ≤ i ∧ i < (stampRaw f r ctr).2)
  | .mk oid tx p cs, f, ctr => by
    intro hlt hnd
    cases oid with
    | some j =>
      rw [stampRaw_some_fst, stampRaw_some_snd, PNode.ids_mk]
      rw [exIdsR_some] at hlt hnd ⊢
      have hnd' := List.nodup_cons.1 hnd
      have hltL : ∀ x ∈ exIdsRL cs, x < ctr :=
        fun x hx => hlt x (List.mem_cons_of_mem _ hx)
      obtain ⟨hndL1, hrngL⟩ := stampRawL_ids_nodup cs j ctr hltL hnd'.2
      constructor
      · rw [List.nodup_cons]
        refine ⟨?_, hndL1⟩
        intro hj
        rcases hrngL j hj with hx | ⟨hx1, _⟩
        · exact hnd'.1 hx
        · exact absurd (hlt j (List.mem_cons_self _ _)) (Nat.not_lt.2 hx1)
      · intro i hi
        rcases List.mem_cons.1 hi with rfl | hi
        · exact Or.inl (List.mem_cons_self _ _)
        · rcases hrngL i hi with hx | hx
          · exact Or.inl (List.mem_cons_of_mem _ hx)
          · exact Or.inr hx
    | none =>
      rw [stampRaw_none_fst, stampRaw_none_snd, PNode.ids_mk]
      rw [exIdsR_none] at hlt hnd ⊢
      have hltL : ∀ x ∈ exIdsRL cs, x < ctr + 1 :=
        fun x hx => Nat.lt_succ_of_lt (hlt x hx)
      obtain ⟨hndL1, hrngL⟩ := stampRawL_ids_nodup cs ctr (ctr + 1) hltL hnd
      constructor
      · rw [List.nodup_cons]
        refine ⟨?_, hndL1⟩
        intro hc
        rcases hrngL ctr hc with hx | ⟨hx1, _⟩
        · exact absurd (hlt ctr hx) (Nat.lt_irrefl ctr)
        · exact absurd hx1 (by omega)
      · intro i hi
        rcases List.mem_cons.1 hi with rfl | hi
        · refine Or.inr ⟨Nat.le_refl _, ?_⟩
          exact Nat.lt_of_lt_of_le (Nat.lt_succ_self _) (stampRawL_ctr_le cs _ _)
        · rcases hrngL i hi with hx | ⟨hx1, hx2⟩
          · exact Or.inl hx
          · exact Or.inr ⟨Nat.le_of_succ_le hx1, hx2⟩

theorem stampRawL_ids_nodup : ∀ (cs : List RawNode) (j ctr : Nat),
    (∀ x ∈ exIdsRL cs, x < ctr) → (exIdsRL cs).Nodup →
    (PNode.idsL (stampRawL j cs ctr).1).Nodup
    ∧ ∀ i ∈ PNode.idsL (stampRawL j cs ctr).1,
        i ∈ exIdsRL cs ∨ (ctr ≤ i ∧ i < (stampRawL j cs ctr).2)
  | [], j, ctr => by
    intro _ _
    rw [stampRawL_nil_fst, stampRawL_nil_snd, PNode.idsL_nil]
    exact ⟨List.nodup_nil, fun i hi => absurd hi (List.not_mem_nil i)⟩
  | c :: cs, j, ctr => by
    intro hlt hnd
    rw [stampRawL_cons_fst, stampRawL_cons_snd, PNode.idsL_cons]
    rw [exIdsRL_cons] at hlt hnd ⊢
    have hndA := List.nodup_append.1 hnd
    have hltc : ∀ x ∈ exIdsR c, x < ctr :=
      fun x hx => hlt x (List.mem_append.2 (Or.inl hx))
    obtain ⟨hnd1, hrng1⟩ := stampRaw_ids_nodup c (some j) ctr hltc hndA.1
    have hlt2 : ∀ x ∈ exIdsRL cs, x < (stampRaw (some j) c ctr).2 :=
      fun x hx => Nat.lt_of_lt_of_le (hlt x (List.mem_append.2 (Or.inr hx)))
        (stampRaw_ctr_le c (some j) ctr)
    obtain ⟨hnd2, hrng2⟩ := stampRawL_ids_nodup cs j (stampRaw (some j) c ctr).2
      hlt2 hndA.2.1
    constructor
    · rw [List.nodup_append]
      refine ⟨hnd1, hnd2, ?_⟩
      intro x hx1 hx2
      rcases hrng1 x hx1 with ha | ⟨ha1, ha2⟩
      · rcases hrng2 x hx2 with hb | ⟨hb1, hb2⟩
        · exact hndA.2.2 ha hb
        · exact absurd (hlt x (List.mem_append.2 (Or.inl ha)))
            (Nat.not_lt.2 (le_trans (stampRaw_ctr_le c (some j) ctr) hb1))
      · rcases hrng2 x hx2 with hb | ⟨hb1, hb2⟩
        · exact absurd (hlt x (List.mem_append.2 (Or.inr hb))) (Nat.not_lt.2 ha1)
        · exact absurd ha2 (Nat.not_lt.2 hb1)
    · intro i hi
      rcases List.mem_append.1 hi with hi | hi
      · rcases hrng1 i hi with ha | ⟨ha1, ha2⟩
        · exact Or.inl (List.mem_append.2 (Or.inl ha))
        · exact Or.inr ⟨ha1, Nat.lt_of_lt_of_le ha2 (stampRawL_ctr_le cs j _)⟩
      · rcases hrng2 i hi with hb | ⟨hb1, hb2⟩
        · exact Or.inl (List.mem_append.2 (Or.inr hb))
        · exact Or.inr ⟨le_trans (stampRaw_ctr_le c (some j) ctr) hb1, hb2⟩

end

theorem PNode.kids_sublist_flattenL : ∀ cs : List PNode,
    cs.Sublist (PNode.flattenL cs)
  | [] => by
    rw [PNode.flattenL_nil]
  | c :: cs => by
    rw [PNode.flattenL_cons]
    cases c with
    | mk j tx p ccs =>
      rw [PNode.flatten_mk, List.cons_append]
      exact List.Sublist.cons₂ _ ((PNode.kids_sublist_flattenL cs).trans
        (List.sublist_append_right _ _))

mutual

theorem PNode.preorder_sublist : ∀ t q : PNode, q ∈ t.flatten →
    (q :: q.children).Sublist t.flatten
  | .mk j tx p cs, q => by
    rw [PNode.flatten_mk]
    intro hq
    rcases List.mem_cons.1 hq with rfl | hq
    · rw [PNode.children_mk]
      exact List.Sublist.cons₂ _ (PNode.kids_sublist_flattenL cs)
    · exact (PNode.preorder_sublistL cs q hq).cons _

theorem PNode.preorder_sublistL : ∀ cs : List PNode, ∀ q : PNode,
    q ∈ PNode.flattenL cs → (q :: q.children).Sublist (PNode.flattenL cs)
  | [], q => by
    rw [PNode.flattenL_nil]
    intro h
    cases h
  | c :: cs, q => by
    rw [PNode.flattenL_cons]
    intro hq
    rcases List.mem_append.1 hq with hq | hq
    · exact (PNode.preorder_sublist c q hq).trans (List.sublist_append_left _ _)
    · exact (PNode.preorder_sublistL cs q hq).trans (List.sublist_append_right _ _)

end

theorem filter_mem_of_sublist {a : Type} [DecidableEq a] :
    ∀ {l' l : List a}, l'.Sublist l → l.Nodup →
    l.filter (fun x => decide (x ∈ l')) = l' := by
  intro l' l hsub
  induction hsub with
  | slnil =>
    intro _
    rfl
  | @cons l1 l2 x hs ih =>
    intro hnd
    have hna : x ∉ l1 := fun hx => (List.nodup_cons.1 hnd).1 (hs.subset hx)
    rw [List.filter_cons, if_neg (by simpa using hna)]
    exact ih (List.nodup_cons.1 hnd).2
  | @cons₂ l1 l2 x hs ih =>
    intro hnd
    rw [List.filter_cons, if_pos (by simp)]
    have hne : ∀ y ∈ l2, (decide (y ∈ x :: l1)) = (decide (y ∈ l1)) := by
      intro y hy
      have hya : y ≠ x := fun he => (List.nodup_cons.1 hnd).1 (he ▸ hy)
      simp [List.mem_cons, hya]
    rw [List.filter_congr hne, ih (List.nodup_cons.1 hnd).2]

/-- On a well-formed tree, the flat parent-id relationships determine every
node's children exactly, in flat order: filtering the pre-order index for
the nodes whose `parent_id` is `q.id` returns `q.children` itself. -/
theorem PNode.filter_parent_eq_children (t : PNode) (hroot : t.parent_id = none)
    (hst : t.stampedOk = true) (hnd : t.ids.Nodup) :
    ∀ q ∈ t.flatten,
      t.flatten.filter (fun d => d.parent_id == some q.id) = q.children := by
  intro q hq
  have hndf : t.flatten.Nodup := List.Nodup.of_map PNode.id hnd
  have hsub : q.children.Sublist t.flatten :=
    ((List.sublist_cons_self q q.children).trans (PNode.preorder_sublist t q hq))
  have hiff : ∀ d ∈ t.flatten,
      (d.parent_id == some q.id) = decide (d ∈ q.children) := by
    intro d hd
    by_cases hmem : d ∈ q.children
    · have hp := (PNode.stamped_parent t hst q hq d hmem).1
      simp [hp, hmem]
    · have hne : d.parent_id ≠ some q.id := by
        intro he
        rcases PNode.mem_flatten_cases t d hd with rfl | ⟨q', hq', hdq'⟩
        · rw [hroot] at he
          cases he
        · have hstamp := (PNode.stamped_parent t hst q' hq' d hdq').1
          rw [hstamp] at he
          injection he with he
          have hqq : q' = q := PNode.eq_of_mem_same_id hnd hq' hq he
          exact hmem (hqq ▸ hdq')
      simp [hne, hmem]
  rw [List.filter_congr hiff, filter_mem_of_sublist hsub hndf]

/-- A raw tree whose root carries a stale `parent_id` naming its own child:
`flatten_tree` leaves the root's `parent_id` untouched. -/
def r6c : RawNode := RawNode.mk (some 0) "r" (some 1) [RawNode.mk (some 1) "a" none []]

/-- C6 counterexample: on `r6c` the flat id-to-node relationships do NOT
reproduce the original structure: node 1 is a leaf, but the root's stale
`parent_id = 1` survives `flatten_tree`, so rebuilding node 1's children
from the flat parent relationships yields the root as its child instead of
the empty list. -/
theorem claim_C6_roundtrip_counterexample :
    PNode.mk 1 "a" (some 0) [] ∈ (stampRaw none r6c 5).1.flatten
    ∧ (stampRaw none r6c 5).1.flatten.filter
        (fun d => d.parent_id == some (PNode.mk 1 "a" (some 0) []).id)
      ≠ (PNode.mk 1 "a" (some 0) []).children := by
  decide

/-- C6 (amended): for every raw nested tree whose pre-existing ids are
pairwise distinct and below the fresh-id supply, and whose root carries no
stale `parent_id`, `flatten_tree` (i) preserves the tree's shape and texts
and every pre-existing id while assigning ids to the nodes lacking one,
(ii) makes all node ids unique, (iii) sets every child's `parent_id` to its
parent's id, (iv) lists every parent before its children with sibling order
preserved (pre-order), and (v) the resulting flat id-to-node relationships
reproduce every node's children exactly, in order. -/
theorem claim_C6_flatten_roundtrip (r : RawNode) (ctr : Nat)
    (hroot : r.rparent = none)
    (hnd : (exIdsR r).Nodup)
    (hlt : ∀ j ∈ exIdsR r, j < ctr) :
    agreesRaw r (stampRaw none r ctr).1 = true
    ∧ (stampRaw none r ctr).1.ids.Nodup
    ∧ (stampRaw none r ctr).1.stampedOk = true
    ∧ (∀ q ∈ (stampRaw none r ctr).1.flatten,
        (q :: q.children).Sublist (stampRaw none r ctr).1.flatten)
    ∧ (∀ q ∈ (stampRaw none r ctr).1.flatten,
        (stampRaw none r ctr).1.flatten.filter (fun d => d.parent_id == some q.id)
          = q.children) := by
  have hstamped := stampRaw_stampedOk r none ctr
  have hnodup := (stampRaw_ids_nodup r none ctr hlt hnd).1
  have hpar : (stampRaw none r ctr).1.parent_id = none := by
    rw [stampRaw_parent_kept, hroot]
  exact ⟨agreesRaw_stampRaw r none ctr, hnodup, hstamped,
    fun q hq => PNode.preorder_sublist _ q hq,
    PNode.filter_parent_eq_children _ hpar hstamped hnodup⟩

/-- A raw tree mixing a pre-existing root id, an id-less child, and a child
with a pre-existing id, used as a concrete witness input. -/
def r6w : RawNode := RawNode.mk (some 3) "r" none
  [RawNode.mk none "a" none [], RawNode.mk (some 5) "b" none []]

theorem claim_C6_flatten_roundtrip_witness :
    agreesRaw r6w (stampRaw none r6w 10).1 = true
    ∧ (stampRaw none r6w 10).1.ids.Nodup
    ∧ (stampRaw none r6w 10).1.stampedOk = true
    ∧ (∀ q ∈ (stampRaw none r6w 10).1.flatten,
        (q :: q.children).Sublist (stampRaw none r6w 10).1.flatten)
    ∧ (∀ q ∈ (stampRaw none r6w 10).1.flatten,
        (stampRaw none r6w 10).1.flatten.filter (fun d => d.parent_id == some q.id)
          = q.children) :=
  claim_C6_flatten_roundtrip r6w 10 (by decide) (by decide) (by decide)

/-- A document record passed to `load_tree_data` (model.py 470-486): either
it has a `"root"` key (and possibly a stored `"selected_node_id"`), or it
lacks one — then the record itself must be a node (`assert "text" in data`),
and after the `{"root": data}` wrapping the new top-level dict has no
`"selected_node_id"` key. -/
inductive RawDoc where
  | withRoot (root : RawNode) (selected_node_id : Option Nat)
  | bare (node : RawNode)

/-- `load_tree_data` (model.py 470-486) on a fresh model (no previous
selection): wrap a root-less record, build the flat index via `flatten_tree`
(the id/parent stamping pass `stampRaw`), fire the rebuild notification, and
select `tree_raw_data.get("selected_node_id", self.nodes[0]["id"])` — the
stored selection if the key is present, else the first node in flatten
order, which is the root.  `select_node` ignores an id that is not in the
index, leaving the selection unset. -/
def load_tree_data (doc : RawDoc) (ctr : Nat) : TreeState :=
  let rs : RawNode × Option Nat :=
    match doc with
    | .withRoot r sel => (r, sel)
    | .bare n => (n, none)
  let tc := stampRaw none rs.1 ctr
  let s1 := tree_updated { root := tc.1, selected := none, nextId := tc.2, updates := 0 }
  select_node s1 (match rs.2 with | some sid => sid | none => tc.1.id)

/-- A document whose stored `selected_node_id` names no node of its tree. -/
def d9c : RawDoc := RawDoc.withRoot (RawNode.mk (some 0) "r" none []) (some 99)

/-- C9 counterexample: loading a document with a dangling stored
`selected_node_id` (99, while the only node is 0) does not fall back to the
first node in flatten order — `select_node` silently ignores the unknown id
and the selection stays unset. -/
theorem claim_C9_dangling_counterexample :
    (load_tree_data d9c 5).selected = none
    ∧ (load_tree_data d9c 5).selected ≠ some 99
    ∧ (load_tree_data d9c 5).selected ≠ some 0 := by
  decide

/-- C9 (amended): loading a record lacking a `"root"` key but carrying a
`"text"` key succeeds by wrapping it as the single root node (equivalently:
loading it as a document with that root and no stored selection); after a
load the selection is the stored `selected_node_id` when that key is present
AND it resolves in the new index; with no stored selection it defaults to
the first node in flatten order (the root); a stored id that resolves to no
node leaves the selection unset rather than falling back. -/
theorem claim_C9_load_tree_selection (ctr : Nat) :
    (∀ n : RawNode, load_tree_data (.bare n) ctr
        = load_tree_data (.withRoot n none) ctr)
    ∧ (∀ r : RawNode, ∀ sid : Nat,
        (PNode.lookup sid (stampRaw none r ctr).1.restamp).isSome = true →
        (load_tree_data (.withRoot r (some sid)) ctr).selected = some sid)
    ∧ (∀ r : RawNode,
        (load_tree_data (.withRoot r none) ctr).selected
          = some (stampRaw none r ctr).1.id)
    ∧ (∀ r : RawNode, ∀ sid : Nat,
        (PNode.lookup sid (stampRaw none r ctr).1.restamp).isSome = false →
        (load_tree_data (.withRoot r (some sid)) ctr).selected = none) := by
  refine ⟨fun n => rfl, ?_, ?_, ?_⟩
  · intro r sid hsome
    exact select_node_selected_of_isSome _ _ hsome
  · intro r
    refine select_node_selected_of_isSome _ _ ?_
    rcases hr : (stampRaw none r ctr).1 with ⟨i, tx, p, cs⟩
    show (PNode.lookup (PNode.mk i tx p cs).id (PNode.mk i tx p cs).restamp).isSome = true
    rw [PNode.restamp, PNode.stampWith_mk, PNode.id_mk, PNode.lookup_mk, if_pos rfl]
    rfl
  · intro r sid hnone
    show (select_node (tree_updated { root := (stampRaw none r ctr).1, selected := none, nextId := (stampRaw none r ctr).2, updates := 0 }) sid).selected = none
    unfold select_node
    rw [if_neg]
    · rfl
    · intro hcond
      have h2 : (PNode.lookup sid (stampRaw none r ctr).1.restamp).isSome = true := hcond.2
      rw [hnone] at h2
      exact Bool.noConfusion h2

theorem claim_C9_load_tree_selection_witness :
    (load_tree_data (.bare (RawNode.mk (some 0) "r" none [])) 1
        = load_tree_data (.withRoot (RawNode.mk (some 0) "r" none []) none) 1)
    ∧ (load_tree_data (.withRoot (RawNode.mk (some 0) "r" none
        [RawNode.mk none "a" none []]) (some 1)) 1).selected = some 1
    ∧ (load_tree_data (.withRoot (RawNode.mk (some 0) "r" none []) none) 1).selected
        = some (stampRaw none (RawNode.mk (some 0) "r" none []) 1).1.id
    ∧ (load_tree_data d9c 1).selected = none :=
  ⟨(claim_C9_load_tree_selection 1).1 _,
   (claim_C9_load_tree_selection 1).2.1 _ 1 (by decide),
   (claim_C9_load_tree_selection 1).2.2.1 _,
   (claim_C9_load_tree_selection 1).2.2.2 _ 99 (by decide)⟩

/-- `pat` is an initial segment of `l` (the anchored part of Python's
substring test). -/
def startsWithL : List Char → List Char → Bool
  | [], _ => true
  | _ :: _, [] => false
  | a :: as, b :: bs => a == b && startsWithL as bs

/-- Python's `pat in text` on the underlying character lists: `pat` occurs
contiguously somewhere in `l`. -/
def hasSubstrL (pat : List Char) : List Char → Bool
  | [] => startsWithL pat []
  | b :: rest => startsWithL pat (b :: rest) || hasSubstrL pat rest

theorem startsWithL_nil_pat (l : List Char) : startsWithL [] l = true := rfl

theorem startsWithL_cons_nil (a : Char) (as : List Char) :
    startsWithL (a :: as) [] = false := rfl

theorem startsWithL_cons_cons (a b : Char) (as bs : List Char) :
    startsWithL (a :: as) (b :: bs) = ((a == b) && startsWithL as bs) := rfl

theorem hasSubstrL_nil (pat : List Char) : hasSubstrL pat [] = startsWithL pat [] := rfl

theorem hasSubstrL_cons (pat : List Char) (b : Char) (rest : List Char) :
    hasSubstrL pat (b :: rest)
      = (startsWithL pat (b :: rest) || hasSubstrL pat rest) := rfl

theorem hasSubstrL_nil_pat : ∀ l : List Char, hasSubstrL [] l = true
  | [] => rfl
  | _ :: _ => rfl

theorem startsWithL_append : ∀ (pat l1 l2 : List Char),
    startsWithL pat l1 = true → startsWithL pat (l1 ++ l2) = true
  | [], l1, l2 => by
    intro _
    rfl
  | a :: as, [], l2 => by
    intro h
    exact Bool.noConfusion h
  | a :: as, b :: bs, l2 => by
    intro h
    rw [startsWithL_cons_cons] at h
    rw [List.cons_append, startsWithL_cons_cons]
    simp only [Bool.and_eq_true] at h ⊢
    exact ⟨h.1, startsWithL_append as bs l2 h.2⟩

/-- An occurrence in a list survives appending on the right. -/
theorem hasSubstrL_append_left : ∀ (pat l1 l2 : List Char),
    hasSubstrL pat l1 = true → hasSubstrL pat (l1 ++ l2) = true
  | pat, [], l2 => by
    intro h
    cases pat with
    | nil => exact hasSubstrL_nil_pat l2
    | cons a as => exact Bool.noConfusion h
  | pat, b :: rest, l2 => by
    intro h
    rw [hasSubstrL_cons] at h
    rw [List.cons_append, hasSubstrL_cons]
    simp only [Bool.or_eq_true] at h ⊢
    rcases h with h1 | h2
    · refine Or.inl ?_
      rw [← List.cons_append]
      exact startsWithL_append pat (b :: rest) l2 h1
    · exact Or.inr (hasSubstrL_append_left pat rest l2 h2)

/-- A pattern that does not begin with a space cannot start inside a run of
spaces: prepending spaces neither creates nor destroys an occurrence. -/
theorem hasSubstrL_replicate_space : ∀ (k : Nat) (c : Char) (rest l : List Char),
    (c == ' ') = false →
    hasSubstrL (c :: rest) (List.replicate k ' ' ++ l) = hasSubstrL (c :: rest) l
  | 0, c, rest, l => by
    intro _
    rw [List.replicate_zero, List.nil_append]
  | k + 1, c, rest, l => by
    intro hc
    rw [List.replicate_succ, List.cons_append, hasSubstrL_cons,
      startsWithL_cons_cons, hc, Bool.false_and, Bool.false_or]
    exact hasSubstrL_replicate_space k c rest l hc

/-- The guard of `fix_miro_tree` (util_tree.py 128): a text is Miro-clean
when it contains neither `"<p>"` nor `"</p"` (the char lists below).  The
sanitize pass `continue`s past every node with a clean text, leaving it
untouched, so on an all-clean index the pass is the identity. -/
def miro_clean (s : String) : Bool :=
  !(hasSubstrL ['<', 'p', '>'] s.data || hasSubstrL ['<', '/', 'p'] s.data)

theorem miro_clean_of_both {s : String}
    (h1 : hasSubstrL ['<', 'p', '>'] s.data = false)
    (h2 : hasSubstrL ['<', '/', 'p'] s.data = false) : miro_clean s = true := by
  rw [miro_clean, h1, h2]
  rfl

theorem miro_clean_left {s : String} (h : miro_clean s = true) :
    hasSubstrL ['<', 'p', '>'] s.data = false := by
  cases hx : hasSubstrL ['<', 'p', '>'] s.data
  · rfl
  · rw [miro_clean, hx] at h
    exact Bool.noConfusion h

theorem miro_clean_right {s : String} (h : miro_clean s = true) :
    hasSubstrL ['<', '/', 'p'] s.data = false := by
  cases hx : hasSubstrL ['<', '/', 'p'] s.data
  · rfl
  · rw [miro_clean, hx] at h
    rw [Bool.or_true] at h
    exact Bool.noConfusion h

theorem take_length_of_takeWhile (p : Char → Bool) : ∀ l : List Char,
    l.take (l.takeWhile p).length = l.takeWhile p := by
  intro l
  induction l with
  | nil => rfl
  | cons a l ih =>
    rw [List.takeWhile_cons]
    by_cases h : p a = true
    · rw [if_pos h, List.length_cons, List.take_succ_cons, ih]
    · rw [if_neg h]
      rfl

/-- A string is its stripped form followed by the counted trailing spaces. -/
theorem strip_append_trailing (s : String) :
    s.data = (strip_trailing_spaces s).data
      ++ List.replicate (num_trailing_spaces s) ' ' := by
  have htw : s.data.reverse.takeWhile (fun ch => ch == ' ')
      = List.replicate (num_trailing_spaces s) ' ' := by
    refine List.eq_replicate.2 ⟨rfl, ?_⟩
    intro b hb
    have hpb := List.mem_takeWhile_imp hb
    exact beq_iff_eq.1 hpb
  have htake : s.data.reverse.take (num_trailing_spaces s)
      = List.replicate (num_trailing_spaces s) ' ' := by
    rw [← htw]
    exact take_length_of_takeWhile _ _
  have hsplit : s.data.reverse
      = List.replicate (num_trailing_spaces s) ' '
        ++ s.data.reverse.drop (num_trailing_spaces s) := by
    rw [← htake]
    exact (List.take_append_drop _ _).symm
  conv_lhs => rw [← List.reverse_reverse s.data]
  rw [hsplit, List.reverse_append, List.reverse_replicate]
  rfl

/-- Stripping trailing spaces cannot introduce a markup tag. -/
theorem miro_clean_strip {s : String} (h : miro_clean s = true) :
    miro_clean (strip_trailing_spaces s) = true := by
  have key : ∀ pat : List Char,
      hasSubstrL pat (strip_trailing_spaces s).data = true →
      hasSubstrL pat s.data = true := by
    intro pat hp
    rw [strip_append_trailing s]
    exact hasSubstrL_append_left pat _ _ hp
  refine miro_clean_of_both ?_ ?_
  · cases hx : hasSubstrL ['<', 'p', '>'] (strip_trailing_spaces s).data
    · rfl
    · have h2 := key _ hx
      rw [miro_clean_left h] at h2
      exact Bool.noConfusion h2
  · cases hx : hasSubstrL ['<', '/', 'p'] (strip_trailing_spaces s).data
    · rfl
    · have h2 := key _ hx
      rw [miro_clean_right h] at h2
      exact Bool.noConfusion h2

/-- Prepending spaces cannot introduce a markup tag (both tags begin with
`'<'`, not a space). -/
theorem miro_clean_spaces {s : String} (k : Nat) (h : miro_clean s = true) :
    miro_clean (spaces k ++ s) = true := by
  have hdata : (spaces k ++ s).data = List.replicate k ' ' ++ s.data := by
    rw [String.data_append]
    rfl
  refine miro_clean_of_both ?_ ?_
  · rw [hdata, hasSubstrL_replicate_space k '<' ['p', '>'] s.data (by decide)]
    exact miro_clean_left h
  · rw [hdata, hasSubstrL_replicate_space k '<' ['/', 'p'] s.data (by decide)]
    exact miro_clean_right h

theorem PNode.text_setParent (x : Option Nat) (c : PNode) :
    (c.setParent x).text = c.text := by
  cases c
  rfl

theorem PNode.mem_flatten_trans {t c q : PNode} (hc : c ∈ t.flatten)
    (hq : q ∈ PNode.flattenL c.children) : q ∈ t.flatten := by
  have h1 : q ∈ c.flatten := by
    cases c with
    | mk j tx p cs =>
      rw [PNode.flatten_mk]
      rw [PNode.children_mk] at hq
      exact List.mem_cons_of_mem _ hq
  exact (PNode.flatten_sublist_of_mem t c hc).subset h1

theorem PNode.flattenL_sublist : ∀ {L1 L2 : List PNode}, L1.Sublist L2 →
    (PNode.flattenL L1).Sublist (PNode.flattenL L2) := by
  intro L1 L2 h
  induction h with
  | slnil => exact List.Sublist.refl _
  | cons c hs ih =>
    rw [PNode.flattenL_cons]
    exact ih.trans (List.sublist_append_right _ _)
  | cons₂ c hs ih =>
    rw [PNode.flattenL_cons, PNode.flattenL_cons]
    exact List.Sublist.append (List.Sublist.refl _) ih

/-- Members of the flattened forest of text-edited children: either one of
the edited children themselves, or an untouched deeper descendant. -/
theorem mem_flattenL_map_setText (g : PNode → String) : ∀ (cs : List PNode) (q : PNode),
    q ∈ PNode.flattenL (cs.map (fun c => c.setText (g c))) →
    (∃ c ∈ cs, q = c.setText (g c)) ∨ ∃ c ∈ cs, q ∈ PNode.flattenL c.children := by
  intro cs
  induction cs with
  | nil =>
    intro q h
    rw [List.map_nil, PNode.flattenL_nil] at h
    cases h
  | cons c cs ih =>
    intro q h
    rw [List.map_cons, PNode.flattenL_cons] at h
    rcases List.mem_append.1 h with h | h
    · obtain ⟨ci, ct, cp, ccs⟩ := c
      rw [PNode.setText_def, PNode.id_mk, PNode.parent_id_mk,
        PNode.children_mk, PNode.flatten_mk] at h
      rcases List.mem_cons.1 h with rfl | h
      · refine Or.inl ⟨_, List.mem_cons_self _ _, ?_⟩
        rw [PNode.setText_def, PNode.id_mk, PNode.parent_id_mk,
          PNode.children_mk]
      · refine Or.inr ⟨_, List.mem_cons_self _ _, ?_⟩
        rw [PNode.children_mk]
        exact h
    · rcases ih q h with ⟨d, hd, he⟩ | ⟨d, hd, he⟩
      · exact Or.inl ⟨d, List.mem_cons_of_mem _ hd, he⟩
      · exact Or.inr ⟨d, List.mem_cons_of_mem _ hd, he⟩

/-- The analogue for reparented children (`setParent` keeps texts and
subtrees). -/
theorem mem_flattenL_map_setParent (x : Option Nat) : ∀ (cs : List PNode) (q : PNode),
    q ∈ PNode.flattenL (cs.map (PNode.setParent x)) →
    (∃ c ∈ cs, q = c.setParent x) ∨ ∃ c ∈ cs, q ∈ PNode.flattenL c.children := by
  intro cs
  induction cs with
  | nil =>
    intro q h
    rw [List.map_nil, PNode.flattenL_nil] at h
    cases h
  | cons c cs ih =>
    intro q h
    rw [List.map_cons, PNode.flattenL_cons] at h
    rcases List.mem_append.1 h with h | h
    · obtain ⟨ci, ct, cp, ccs⟩ := c
      rw [PNode.setParent_def, PNode.id_mk, PNode.text_mk,
        PNode.children_mk, PNode.flatten_mk] at h
      rcases List.mem_cons.1 h with rfl | h
      · refine Or.inl ⟨_, List.mem_cons_self _ _, ?_⟩
        rw [PNode.setParent_def, PNode.id_mk, PNode.text_mk,
          PNode.children_mk]
      · refine Or.inr ⟨_, List.mem_cons_self _ _, ?_⟩
        rw [PNode.children_mk]
        exact h
    · rcases ih q h with ⟨d, hd, he⟩ | ⟨d, hd, he⟩
      · exact Or.inl ⟨d, List.mem_cons_of_mem _ hd, he⟩
      · exact Or.inr ⟨d, List.mem_cons_of_mem _ hd, he⟩

theorem text_mem_of_view1 {q t : PNode} (h : PNode.view1 q ∈ t.view) :
    ∃ q' ∈ t.flatten, q'.text = q.text := by
  obtain ⟨q', hq', he⟩ := List.mem_map.1 h
  exact ⟨q', hq', congrArg NodeView.vtext he⟩

/-- An edit at one node keeps the whole index Miro-clean as soon as the
replacement subtree is: every other node's text survives unchanged (the
view decomposition), so the skipped sanitize pass stays the identity. -/
theorem clean_modifyAt {t : PNode} {i : Nat} {f : PNode → PNode} {n : PNode}
    (hnd : t.ids.Nodup) (hl : PNode.lookup i t = some n) (hid : (f n).id = n.id)
    (hc : ∀ q ∈ t.flatten, miro_clean q.text = true)
    (hcf : ∀ q ∈ (f n).flatten, miro_clean q.text = true) :
    ∀ q ∈ (t.modifyAt i f).flatten, miro_clean q.text = true := by
  obtain ⟨-, pre, post, h1, h2⟩ := PNode.view_modifyAt t i f n hnd hl hid
  intro q hq
  have hv : PNode.view1 q ∈ (t.modifyAt i f).view := List.mem_map_of_mem _ hq
  rw [h2] at hv
  rcases List.mem_append.1 hv with hv | hv
  · rcases List.mem_append.1 hv with hv | hv
    · have hvt : PNode.view1 q ∈ t.view := by
        rw [h1]
        exact List.mem_append.2 (Or.inl (List.mem_append.2 (Or.inl hv)))
      obtain ⟨q', hq', he⟩ := text_mem_of_view1 hvt
      rw [← he]
      exact hc q' hq'
    · obtain ⟨q', hq', he⟩ := text_mem_of_view1 hv
      rw [← he]
      exact hcf q' hq'
  · have hvt : PNode.view1 q ∈ t.view := by
      rw [h1]
      exact List.mem_append.2 (Or.inr hv)
    obtain ⟨q', hq', he⟩ := text_mem_of_view1 hvt
    rw [← he]
    exact hc q' hq'

/-- C5 (amended): `merge_with_parent` applied to the root node raises
(`KeyError` on the absent `parent_id` key) rather than being a silent no-op;
applied to any non-root node of a tree free of the Miro markup tags `"<p>"`
and `"</p"` — on which the `fix_miro_tree` pass of the index rebuild is the
identity by its guard (util_tree.py 128), and the rebuilt tree is proven
markup-free again — it appends the node's text onto its parent's text,
splices the node's children into the parent's children at the node's former
position preserving order, reparents them to the parent, removes the node,
and selects the parent. -/
theorem claim_C5_merge_with_parent (s : TreeState) (nodeId : Nat) (n : PNode)
    (hw : WF s) (hl : PNode.lookup nodeId s.root = some n)
    (hclean : ∀ q ∈ s.root.flatten, miro_clean q.text = true) :
    (n.parent_id = none → merge_with_parent s nodeId = none)
    ∧ ∀ pid, n.parent_id = some pid → ∀ p, PNode.lookup pid s.root = some p →
      miro_clean (p.text ++ n.text) = true →
      ∃ k l1 l2 s', list_index p.children n = some k
        ∧ p.children = l1 ++ n :: l2 ∧ l1.length = k
        ∧ merge_with_parent s nodeId = some s'
        ∧ s'.selected = some pid
        ∧ (∃ p', PNode.lookup pid s'.root = some p'
            ∧ p'.text = p.text ++ n.text
            ∧ p'.children = l1 ++ n.children.map (PNode.setParent (some pid)) ++ l2
            ∧ ∀ c ∈ p'.children, c.parent_id = some pid)
        ∧ (∀ q ∈ s'.root.flatten, miro_clean q.text = true)
        ∧ PNode.lookup nodeId s'.root = none := by
  obtain ⟨⟨hroot, hst, hnd⟩, hfresh⟩ := hw
  constructor
  · intro hpn
    simp only [merge_with_parent, hl, hpn]
  · intro pid hpn p hlp hmerge
    have hnp : n ∈ p.children := PNode.mem_parent_children ⟨hroot, hst, hnd⟩ hl hpn hlp
    have hiS := list_index_isSome_of_mem hnp
    rcases hki : list_index p.children n with _ | k
    · rw [hki] at hiS
      cases hiS
    obtain ⟨l1, l2, hdec, hlen, -⟩ := list_index_decomp _ _ _ hki
    have hnid : n.id = nodeId := PNode.lookup_id _ _ _ hl
    have hpid : p.id = pid := PNode.lookup_id _ _ _ hlp
    have htake : p.children.take k = l1 := by
      rw [hdec, ← hlen]
      exact List.take_left l1 (n :: l2)
    have hdrop : p.children.drop (k + 1) = l2 := by
      rw [hdec]
      have h12 : l1 ++ n :: l2 = (l1 ++ [n]) ++ l2 := by simp
      rw [h12]
      exact List.drop_left' (by simp [hlen])
    have hpm : p ∈ s.root.flatten := PNode.lookup_mem _ _ _ hlp
    have hnm : n ∈ s.root.flatten := PNode.lookup_mem _ _ _ hl
    have hchpar : ∀ c ∈ p.children, c.parent_id = some pid ∧ c.stampedOk = true := by
      intro c hc
      have h := PNode.stamped_parent s.root hst p hpm c hc
      rw [hpid] at h
      exact h
    have hnch : ∀ c ∈ n.children, c.stampedOk = true :=
      fun c hc => (PNode.stamped_parent s.root hst n hnm c hc).2
    have hstamp1 : (s.root.modifyAt pid (fun q => PNode.mk q.id (q.text ++ n.text) q.parent_id (q.children.take k ++ n.children.map (PNode.setParent (some pid)) ++ q.children.drop (k + 1)))).stampedOk = true := by
      refine PNode.stampedOk_modifyAt s.root pid _ (fun q => rfl) ?_ hst
      intro q hqid hq
      rw [PNode.stampedOk_mk, PNode.stampedOkL_append, PNode.stampedOkL_append]
      simp only [Bool.and_eq_true]
      refine ⟨⟨?_, ?_⟩, ?_⟩
      · exact PNode.stampedOkL_sublist (List.take_sublist _ _) (PNode.stampedOkL_children hq)
      · rw [hqid]
        exact PNode.stampedOkL_map_setParent_of hnch
      · exact PNode.stampedOkL_sublist (List.drop_sublist _ _) (PNode.stampedOkL_children hq)
    have hlp1 : PNode.lookup pid (s.root.modifyAt pid (fun q => PNode.mk q.id (q.text ++ n.text) q.parent_id (q.children.take k ++ n.children.map (PNode.setParent (some pid)) ++ q.children.drop (k + 1)))) = some (PNode.mk p.id (p.text ++ n.text) p.parent_id (p.children.take k ++ n.children.map (PNode.setParent (some pid)) ++ p.children.drop (k + 1))) :=
      PNode.lookup_modifyAt_self s.root pid _ p hnd hlp rfl
    obtain ⟨pre, post, h1, h2⟩ := PNode.ids_modifyAt s.root pid (fun q => PNode.mk q.id (q.text ++ n.text) q.parent_id (q.children.take k ++ n.children.map (PNode.setParent (some pid)) ++ q.children.drop (k + 1))) p hnd hlp rfl
    have hpids : p.ids = p.id :: (PNode.idsL l1 ++ (n.id :: (PNode.idsL n.children ++ PNode.idsL l2))) := by
      rw [PNode.ids_eq_cons, hdec, PNode.idsL_append, PNode.idsL_cons, PNode.ids_eq_cons n]
      simp [List.append_assoc]
    have hfp : (PNode.mk p.id (p.text ++ n.text) p.parent_id (p.children.take k ++ n.children.map (PNode.setParent (some pid)) ++ p.children.drop (k + 1))).ids = p.id :: ((PNode.idsL l1 ++ PNode.idsL n.children) ++ PNode.idsL l2) := by
      rw [PNode.ids_mk, htake, hdrop, PNode.idsL_append, PNode.idsL_append, PNode.idsL_map_setParent]
    have hsubp : p.ids.Sublist s.root.ids := by
      rw [h1, List.append_assoc]
      exact (List.sublist_append_left p.ids post).trans (List.sublist_append_right pre _)
    have hndp : p.ids.Nodup := List.Nodup.sublist hsubp hnd
    have hnods := hndp
    rw [hpids, List.nodup_cons] at hnods
    obtain ⟨hpid_nm, htail⟩ := hnods
    obtain ⟨hn_l1, hn_rest⟩ := nodup_split_not_mem htail
    have hn_nc : n.id ∉ PNode.idsL n.children := fun hx => hn_rest (List.mem_append.2 (Or.inl hx))
    have hn_l2 : n.id ∉ PNode.idsL l2 := fun hx => hn_rest (List.mem_append.2 (Or.inr hx))
    have hn_pid : n.id ≠ p.id := by
      intro he
      exact hpid_nm (by rw [← he]; exact List.mem_append.2 (Or.inr (List.mem_cons_self _ _)))
    have hmemn : nodeId ∈ p.ids := by
      rw [hpids, ← hnid]
      exact List.mem_cons_of_mem _ (List.mem_append.2 (Or.inr (List.mem_cons_self _ _)))
    have hnot_fp : nodeId ∉ (PNode.mk p.id (p.text ++ n.text) p.parent_id (p.children.take k ++ n.children.map (PNode.setParent (some pid)) ++ p.children.drop (k + 1))).ids := by
      rw [hfp, ← hnid]
      intro hx
      rcases List.mem_cons.1 hx with he | hx
      · exact hn_pid he
      rcases List.mem_append.1 hx with hx | hx
      · rcases List.mem_append.1 hx with hx | hx
        · exact hn_l1 hx
        · exact hn_nc hx
      · exact hn_l2 hx
    have hnd' := hnd
    rw [h1] at hnd'
    have hpp := disjoint_of_nodup_mid hnd' nodeId hmemn
    have hnotin : nodeId ∉ (s.root.modifyAt pid (fun q => PNode.mk q.id (q.text ++ n.text) q.parent_id (q.children.take k ++ n.children.map (PNode.setParent (some pid)) ++ q.children.drop (k + 1)))).ids := by
      rw [h2]
      intro hx
      rcases List.mem_append.1 hx with hx | hx
      · rcases List.mem_append.1 hx with hx | hx
        · exact hpp (List.mem_append.2 (Or.inl hx))
        · exact hnot_fp hx
      · exact hpp (List.mem_append.2 (Or.inr hx))
    have hlooknone : PNode.lookup nodeId (s.root.modifyAt pid (fun q => PNode.mk q.id (q.text ++ n.text) q.parent_id (q.children.take k ++ n.children.map (PNode.setParent (some pid)) ++ q.children.drop (k + 1)))) = none :=
      (PNode.lookup_eq_none_iff _ _).2 hnotin
    refine ⟨k, l1, l2, _, rfl, hdec, hlen, merge_with_parent_eq hl hpn hlp hki, ?_, ?_, ?_, ?_⟩
    · rw [tree_updated_selected]
      exact select_node_selected_of_isSome _ _ (Option.isSome_iff_exists.2 ⟨_, hlp1⟩)
    · refine ⟨PNode.mk p.id (p.text ++ n.text) p.parent_id (p.children.take k ++ n.children.map (PNode.setParent (some pid)) ++ p.children.drop (k + 1)), ?_, rfl, ?_, ?_⟩
      · rw [tree_updated_root, select_node_root, root_mk_update, PNode.restamp_eq hstamp1]
        exact hlp1
      · rw [PNode.children_mk, htake, hdrop]
      · intro c hc
        rw [PNode.children_mk] at hc
        rcases List.mem_append.1 hc with hc | hc
        · rcases List.mem_append.1 hc with hc | hc
          · rw [htake] at hc
            have hcm : c ∈ p.children := by
              rw [hdec]
              exact List.mem_append.2 (Or.inl hc)
            exact (hchpar c hcm).1
          · obtain ⟨d, hd, rfl⟩ := List.mem_map.1 hc
            rw [PNode.setParent_def, PNode.parent_id_mk]
        · rw [hdrop] at hc
          have hcm : c ∈ p.children := by
            rw [hdec]
            exact List.mem_append.2 (Or.inr (List.mem_cons_of_mem _ hc))
          exact (hchpar c hcm).1
    · rw [tree_updated_root, select_node_root, root_mk_update, PNode.restamp_eq hstamp1]
      refine clean_modifyAt hnd hlp rfl hclean ?_
      intro q hq
      rw [PNode.flatten_mk] at hq
      rcases List.mem_cons.1 hq with rfl | hq
      · rw [PNode.text_mk]
        exact hmerge
      · rw [PNode.flattenL_append, PNode.flattenL_append] at hq
        rcases List.mem_append.1 hq with hq | hq
        · rcases List.mem_append.1 hq with hq | hq
          · have hqf : q ∈ PNode.flattenL p.children := (PNode.flattenL_sublist (List.take_sublist k p.children)).subset hq
            exact hclean q (PNode.mem_flatten_trans hpm hqf)
          · rcases mem_flattenL_map_setParent (some pid) n.children q hq with ⟨c, hc, rfl⟩ | ⟨c, hc, hqc⟩
            · rw [PNode.text_setParent]
              exact hclean c (PNode.child_mem_flatten hnm hc)
            · exact hclean q (PNode.mem_flatten_trans (PNode.child_mem_flatten hnm hc) hqc)
        · have hqf : q ∈ PNode.flattenL p.children := (PNode.flattenL_sublist (List.drop_sublist (k + 1) p.children)).subset hq
          exact hclean q (PNode.mem_flatten_trans hpm hqf)
    · rw [tree_updated_root, select_node_root, root_mk_update, PNode.restamp_eq hstamp1]
      exact hlooknone

theorem claim_C5_merge_with_parent_witness :
    (n1w.parent_id = none → merge_with_parent s0w 1 = none)
    ∧ ∀ pid, n1w.parent_id = some pid → ∀ p, PNode.lookup pid s0w.root = some p →
      miro_clean (p.text ++ n1w.text) = true →
      ∃ k l1 l2 s', list_index p.children n1w = some k
        ∧ p.children = l1 ++ n1w :: l2 ∧ l1.length = k
        ∧ merge_with_parent s0w 1 = some s'
        ∧ s'.selected = some pid
        ∧ (∃ p', PNode.lookup pid s'.root = some p'
            ∧ p'.text = p.text ++ n1w.text
            ∧ p'.children = l1 ++ n1w.children.map (PNode.setParent (some pid)) ++ l2
            ∧ ∀ c ∈ p'.children, c.parent_id = some pid)
        ∧ (∀ q ∈ s'.root.flatten, miro_clean q.text = true)
        ∧ PNode.lookup 1 s'.root = none :=
  claim_C5_merge_with_parent s0w 1 n1w (by decide) (by decide) (by decide)

/-- C3 (amended): `update_text(node, text)` strips exactly the maximal run of
trailing spaces from `text` (so `text = b ++ " "*k` with `b` not ending in a
space gives count `k` and stripped text `b`); only when the stripped text
differs from the node's stored text does it store the stripped text, prepend
the `k` removed spaces to every direct child's text, and fire a change
notification; when the stripped text equals the stored text the call leaves
the state entirely unchanged — the children do not receive the spaces even
when `k > 0`.  The stored-and-prepended conclusions are stated for trees and
input texts free of the Miro markup tags `"<p>"` and `"</p"`, on which the
`fix_miro_tree` pass of the index rebuild is the identity by its guard
(util_tree.py 128); the resulting tree is proven markup-free again. -/
theorem claim_C3_update_text (s : TreeState) (nodeId : Nat) (text : String)
    (n : PNode) (hw : WF s) (hl : PNode.lookup nodeId s.root = some n)
    (hclean : ∀ q ∈ s.root.flatten, miro_clean q.text = true)
    (htext : miro_clean text = true) :
    (∀ b k, text = b ++ spaces k → b.data.getLast? ≠ some ' ' →
        num_trailing_spaces text = k ∧ strip_trailing_spaces text = b)
    ∧ (n.text = strip_trailing_spaces text → update_text s nodeId text = some s)
    ∧ (n.text ≠ strip_trailing_spaces text →
        ∃ s', update_text s nodeId text = some s'
          ∧ (∃ n', PNode.lookup nodeId s'.root = some n'
              ∧ n'.text = strip_trailing_spaces text
              ∧ n'.children.map PNode.text
                = n.children.map (fun c => spaces (num_trailing_spaces text) ++ c.text))
          ∧ (∀ q ∈ s'.root.flatten, miro_clean q.text = true)
          ∧ s'.updates = s.updates + 1) := by
  obtain ⟨⟨hroot, hst, hnd⟩, hfresh⟩ := hw
  refine ⟨?_, ?_, ?_⟩
  · intro b k hbk hb
    subst hbk
    exact trailing_spaces_spec b k hb
  · intro h
    exact update_text_eq_noop text hl h
  · intro hne
    rw [update_text_eq text hl hne]
    have hstamp1 : (s.root.modifyAt nodeId (fun q => PNode.mk q.id (strip_trailing_spaces text) q.parent_id (q.children.map (fun c => c.setText (spaces (num_trailing_spaces text) ++ c.text))))).stampedOk = true := by
      refine PNode.stampedOk_modifyAt s.root nodeId _ (fun q => rfl) ?_ hst
      intro q _ hq
      rw [PNode.stampedOk_mk, PNode.stampedOkL_map_setTexts]
      exact PNode.stampedOkL_children hq
    have hlp1 : PNode.lookup nodeId (s.root.modifyAt nodeId (fun q => PNode.mk q.id (strip_trailing_spaces text) q.parent_id (q.children.map (fun c => c.setText (spaces (num_trailing_spaces text) ++ c.text))))) = some (PNode.mk n.id (strip_trailing_spaces text) n.parent_id (n.children.map (fun c => c.setText (spaces (num_trailing_spaces text) ++ c.text)))) :=
      PNode.lookup_modifyAt_self s.root nodeId _ n hnd hl rfl
    refine ⟨_, rfl, ⟨PNode.mk n.id (strip_trailing_spaces text) n.parent_id (n.children.map (fun c => c.setText (spaces (num_trailing_spaces text) ++ c.text))), ?_, rfl, ?_⟩, ?_, rfl⟩
    · rw [tree_updated_root, root_mk_update, PNode.restamp_eq hstamp1]
      exact hlp1
    · rw [PNode.children_mk, List.map_map]
      refine List.map_congr_left ?_
      intro c _
      cases c
      rfl
    · rw [tree_updated_root, root_mk_update, PNode.restamp_eq hstamp1]
      refine clean_modifyAt hnd hl rfl hclean ?_
      intro q hq
      rw [PNode.flatten_mk] at hq
      rcases List.mem_cons.1 hq with rfl | hq
      · rw [PNode.text_mk]
        exact miro_clean_strip htext
      · rcases mem_flattenL_map_setText _ n.children q hq with ⟨c, hc, rfl⟩ | ⟨c, hc, hqc⟩
        · rw [PNode.setText_def, PNode.text_mk]
          exact miro_clean_spaces _ (hclean c (PNode.child_mem_flatten (PNode.lookup_mem _ _ _ hl) hc))
        · exact hclean q (PNode.mem_flatten_trans (PNode.child_mem_flatten (PNode.lookup_mem _ _ _ hl) hc) hqc)

theorem claim_C3_update_text_witness :
    (∀ b k, ("b  " : String) = b ++ spaces k → b.data.getLast? ≠ some ' ' →
        num_trailing_spaces "b  " = k ∧ strip_trailing_spaces "b  " = b)
    ∧ (s3w.root.text = strip_trailing_spaces "b  " → update_text s3w 0 "b  " = some s3w)
    ∧ (s3w.root.text ≠ strip_trailing_spaces "b  " →
        ∃ s', update_text s3w 0 "b  " = some s'
          ∧ (∃ n', PNode.lookup 0 s'.root = some n'
              ∧ n'.text = strip_trailing_spaces "b  "
              ∧ n'.children.map PNode.text
                = s3w.root.children.map (fun c => spaces (num_trailing_spaces "b  ") ++ c.text))
          ∧ (∀ q ∈ s'.root.flatten, miro_clean q.text = true)
          ∧ s'.updates = s3w.updates + 1) :=
  claim_C3_update_text s3w 0 "b  " s3w.root (by decide) (by decide) (by decide) (by decide)
